import Mathlib

/-!
# Huffman coding for text files (`huffman.c`): embedding and verified properties

The C program is embedded as pure functions.  Conventions of the embedding:

* a file is the list of its bytes (`List Nat`, every element below 256);
* a `char` is a signed 8-bit value held in an `Int` (`toChar` is the conversion the
  program applies when it stores the `int` returned by `fgetc` in a `char`);
* `unsigned` arithmetic is `Nat` arithmetic modulo `2^32`;
* a pointer to a `Node` is a `Node` value, the null pointer is `Node.null`;
* memory returned by `malloc` is taken to be zero-filled;
* a function returns `none` where the C program leaves defined behaviour (an access
  outside an array, a read through a null pointer, signed overflow) and where a loop
  modelled with fuel has not finished when the fuel is used up;
* `findCharCodeObj` embeds `findCharCode` a second time, on the bytes of the `CharCode`
  object in the x86-64 System V layout, to follow what a write past `code[63]` does
  while it stays inside the 72 bytes of the object.
-/

namespace Huffman

/-! ## Machine-level conventions -/

/-- The constant `NUM_ALPHABETS` (line 10). -/
def NUM_ALPHABETS : Nat := 128

/-- The value of the macro `EOF`. -/
def EOF : Int := -1

/-- Largest value of an `int`. -/
def INT_MAX : Nat := 2147483647

/-- Modulus of `unsigned` arithmetic. -/
def UINT_MOD : Nat := 4294967296

/-- Conversion of an `int` to a signed 8-bit `char`. -/
def toChar (x : Int) : Int := (x + 128) % 256 - 128

/-- Conversion of a `char` to `unsigned char`, the byte that `fputc` writes. -/
def toByte (c : Int) : Nat := (c % 256).toNat

/-! ## Data model (lines 12-30) -/

/-- A pointer to a `struct Node` (lines 12-17): either `NULL` or a node with its four fields. -/
inductive Node where
  | null : Node
  | mk (ch : Int) (freq : Nat) (left_node right_node : Node) : Node
deriving DecidableEq, Repr, Inhabited

/-- Field `ch` of a node (0 for the null pointer, which the program never reads through
on the paths where this accessor is used). -/
def Node.ch : Node → Int
  | .null => 0
  | .mk c _ _ _ => c

/-- Field `freq` of a node (0 for the null pointer). -/
def Node.freq : Node → Nat
  | .null => 0
  | .mk _ f _ _ => f

/-- Field `left_node` of a node. -/
def Node.left_node : Node → Node
  | .null => .null
  | .mk _ _ l _ => l

/-- Field `right_node` of a node. -/
def Node.right_node : Node → Node
  | .null => .null
  | .mk _ _ _ r => r

/-- The struct `minHeap` (lines 19-23): logical size and the array of node pointers, whose
length is the capacity that was allocated. -/
structure minHeap where
  size : Nat
  arr : List Node
deriving DecidableEq, Repr

/-- The struct `CharCode` (lines 25-30); `code` is the 64-slot buffer. -/
structure CharCode where
  ch : Int
  code : List Int
  codeLen : Nat
deriving DecidableEq, Repr

/-- The meaningful part of a code buffer, `code[0 .. codeLen)`. -/
def CharCode.bits (e : CharCode) : List Int := e.code.take e.codeLen

/-- A `CharCode` as `malloc` returns it (zero-filled, see the conventions above). -/
def mallocCharCode : CharCode := { ch := 0, code := List.replicate 64 0, codeLen := 0 }

/-- A `Node` as `malloc` returns it (zero-filled). -/
def mallocNode : Node := .mk 0 0 .null .null

/-! ## Symbol table: `readFile` (lines 221-247) -/

/-- The loop of `readFile`.  `node` holds the entries `node[0 .. i)` filled so far (the loop
counter `i` and `*size` both equal its length); the slots from `i` on still have the
`freq = 0` and null children that `main` gave them.  A byte whose `char` value equals `EOF`
ends the scan, as the real end of the file does.  A new symbol when all `NUM_ALPHABETS`
slots are taken would be written past the array: `none`. -/
def readFile : List Nat → List Node → Option (List Node)
  | [], node => some node
  | b :: rest, node =>
    let temp := toChar b
    if temp = EOF then some node
    else
      match node.findIdx? (fun n => n.ch == temp) with
      | some idx =>
        readFile rest (node.modify (fun n => .mk n.ch ((n.freq + 1) % UINT_MOD) n.left_node n.right_node) idx)
      | none =>
        if node.length < NUM_ALPHABETS then
          readFile rest (node ++ [.mk temp ((0 + 1) % UINT_MOD) .null .null])
        else none

/-! ## Min-heap (lines 260-318) -/

/-- The function `createMinHeap_unsorted` (lines 260-272). -/
def createMinHeap_unsorted (node : List Node) (size : Nat) : minHeap :=
  { size := size, arr := node.take size }

/-- The function `swap_nodePtr` (lines 294-299) applied to `&arr[a]` and `&arr[b]`. -/
def swap_nodePtr (arr : List Node) (a b : Nat) : Option (List Node) :=
  match arr[a]?, arr[b]? with
  | some x, some y => some ((arr.set a y).set b x)
  | _, _ => none

/-- The test `(k < size) && (arr[k]->freq < arr[smallest]->freq)` of lines 281 and 284. -/
def lessAt (h : minHeap) (k smallest : Nat) : Option Bool :=
  if k < h.size then
    match h.arr[k]?, h.arr[smallest]? with
    | some (.mk _ fk _ _), some (.mk _ fs _ _) => some (decide (fk < fs))
    | _, _ => none
  else some false

/-- The function `minHeapify` (lines 275-292) with fuel for its recursion. -/
def minHeapifyAux : Nat → minHeap → Nat → Option minHeap
  | 0, _, _ => none
  | fuel + 1, h, i =>
    if INT_MAX < 2 * i + 2 then none
    else
      match lessAt h (2 * i + 1) i with
      | none => none
      | some b1 =>
        let smallest := if b1 then 2 * i + 1 else i
        match lessAt h (2 * i + 2) smallest with
        | none => none
        | some b2 =>
          let smallest := if b2 then 2 * i + 2 else smallest
          if smallest ≠ i then
            match swap_nodePtr h.arr smallest i with
            | none => none
            | some arr1 => minHeapifyAux fuel { h with arr := arr1 } smallest
          else some h

/-- The function `minHeapify`: every recursive call is at a larger index below `size`, so
`size + 1` calls are enough. -/
def minHeapify (h : minHeap) (i : Nat) : Option minHeap :=
  minHeapifyAux (h.size + 1) h i

/-- The function `extractMin` (lines 302-310). -/
def extractMin (h : minHeap) : Option (Node × minHeap) :=
  match h.arr[0]? with
  | none => none
  | some minNode =>
    if h.size = 0 then none
    else
      match h.arr[h.size - 1]? with
      | none => none
      | some last =>
        match minHeapify { size := h.size - 1, arr := h.arr.set 0 last } 0 with
        | none => none
        | some h1 => some (minNode, h1)

/-- The sift-up loop of `insertNode` (lines 316-317), started at index `i`. -/
def siftUp : Nat → minHeap → Nat → Option minHeap
  | 0, _, _ => none
  | fuel + 1, h, i =>
    if i = 0 then some h
    else
      match h.arr[i]?, h.arr[(i - 1) / 2]? with
      | some (.mk _ fi _ _), some (.mk _ fp _ _) =>
        if fi < fp then
          match swap_nodePtr h.arr i ((i - 1) / 2) with
          | none => none
          | some arr1 => siftUp fuel { h with arr := arr1 } ((i - 1) / 2)
        else some h
      | _, _ => none

/-- The function `insertNode` (lines 312-318). -/
def insertNode (h : minHeap) (insertedNode : Node) : Option minHeap :=
  if h.size < h.arr.length then
    siftUp (h.size + 1) { size := h.size + 1, arr := h.arr.set h.size insertedNode } h.size
  else none

/-- The function `newNode` (lines 249-258). -/
def newNode (c : Int) (freq : Nat) : Node := .mk c freq .null .null

/-! ## Tree construction in `main` (lines 102-127) -/

/-- The heapify pass of `main` (lines 108-109), `for (i = start; i >= 0; i--)`. -/
def heapifyPass : Nat → minHeap → Option minHeap
  | 0, h => minHeapify h 0
  | i + 1, h =>
    match minHeapify h (i + 1) with
    | none => none
    | some h1 => heapifyPass i h1

/-- The start index of the heapify pass, `((size - 1) - 1) / 2` in `unsigned` arithmetic
(`size` is below `UINT_MOD`): the subtraction wraps around when `size` is 0 or 1. -/
def heapifyStart (size : Nat) : Nat :=
  if 2 ≤ size then (size - 2) / 2 else (UINT_MOD + size - 2) / 2

/-- One iteration of the build loop (lines 115-126). -/
def buildStep (h : minHeap) : Option minHeap :=
  match extractMin h with
  | none => none
  | some (left, h1) =>
    match extractMin h1 with
    | none => none
    | some (right, h2) =>
      match left, right with
      | .mk _ lf _ _, .mk _ rf _ _ =>
        let top := newNode 36 ((lf + rf) % UINT_MOD)
        insertNode h2 (.mk top.ch top.freq left right)
      | _, _ => none

/-- The build loop of `main` (lines 112-127), `while (size != 1)`, with fuel. -/
def buildLoop : Nat → minHeap → Option minHeap
  | 0, h => if h.size ≠ 1 then none else some h
  | fuel + 1, h =>
    if h.size ≠ 1 then
      match buildStep h with
      | none => none
      | some h1 => buildLoop fuel h1
    else some h

/-- Lines 105-127 of `main`: the heap made from the symbol table, after the heapify pass and
the build loop.  An iteration of the loop lowers `size` by one, so `size` iterations are
more than the loop can use. -/
def main_buildHeap (node : List Node) : Option minHeap :=
  let size := node.length
  match heapifyPass (heapifyStart size) (createMinHeap_unsorted node size) with
  | none => none
  | some h => buildLoop size h

/-! ## Code assignment: `findCharCode` (lines 320-350) and its loop in `main` (lines 130-138) -/

/-- The function `findCharCode` (lines 320-350).  It returns the tree as the call leaves it
(the node it stopped at has `ch` and `freq` cleared) and the `CharCode` that `*arr` points
to afterwards.  A write to `code[top]` with `top` outside the 64-slot buffer is `none`. -/
def findCharCode : Node → CharCode → Nat → Option (Node × CharCode)
  | .null, _, _ => none
  | .mk ch freq l r, arr0, top =>
    let arr := if top = 0 then { mallocCharCode with ch := 0 } else arr0
    if l ≠ .null ∧ l.ch > 9 then
      if top < 64 then
        match findCharCode l { arr with code := arr.code.set top 0 } (top + 1) with
        | none => none
        | some (l1, arr1) => some (.mk ch freq l1 r, arr1)
      else none
    else if r ≠ .null ∧ r.ch > 9 then
      if top < 64 then
        match findCharCode r { arr with code := arr.code.set top 1 } (top + 1) with
        | none => none
        | some (r1, arr1) => some (.mk ch freq l r1, arr1)
      else none
    else
      some (.mk 0 0 l r, if ch ≠ 36 then { arr with ch := ch, codeLen := top } else arr)

/-- State of the assignment loop of `main` after a number of calls of `findCharCode`: the
tree under `minHeapPtr->arr[0]` and the entries `character_code[0 .. index)`. -/
structure AssignState where
  root : Node
  table : List CharCode
deriving DecidableEq, Repr

/-- One iteration of the assignment loop (lines 135-137). -/
def assignStep (s : AssignState) : Option AssignState :=
  match findCharCode s.root mallocCharCode 0 with
  | none => none
  | some (root1, e) =>
    if e.ch ≠ 0 then some { root := root1, table := s.table ++ [e] }
    else some { root := root1, table := s.table }

/-- The assignment loop of `main` (lines 133-138), `while (index < size)`, with fuel. -/
def assignLoop : Nat → Nat → AssignState → Option AssignState
  | 0, size, s => if s.table.length < size then none else some s
  | fuel + 1, size, s =>
    if s.table.length < size then
      match assignStep s with
      | none => none
      | some s1 => assignLoop fuel size s1
    else some s

/-- The state after exactly `k` iterations of the assignment loop, whether or not the loop
would have stopped before (`none` only when an iteration leaves defined behaviour). -/
def assignIter : Nat → AssignState → Option AssignState
  | 0, s => some s
  | k + 1, s =>
    match assignStep s with
    | none => none
    | some s1 => assignIter k s1

/-! ## Writing the compressed file (lines 149-154, 352-398) -/

/-- Decimal digits of a natural number, most significant first, as bytes. -/
def natDigits : Nat → Nat → List Nat → List Nat
  | 0, _, acc => acc
  | fuel + 1, n, acc =>
    if n < 10 then (48 + n) :: acc
    else natDigits fuel (n / 10) ((48 + n % 10) :: acc)

/-- The bytes written by `fprintf(f, "%d", x)`. -/
def fprintf_d (x : Int) : List Nat :=
  if x < 0 then 45 :: natDigits (x.natAbs + 1) x.natAbs []
  else natDigits (x.toNat + 1) x.toNat []

/-- The function `writeCharCode` (lines 352-363): the bytes it appends to the file. -/
def writeCharCode : List CharCode → Nat → Option (List Nat)
  | _, 0 => some []
  | [], _ + 1 => none
  | e :: arr, size + 1 =>
    if e.codeLen ≤ e.code.length then
      match writeCharCode arr size with
      | none => none
      | some out => some (toByte e.ch :: ((e.bits.map fprintf_d).flatten ++ 10 :: out))
    else none

/-- The variables `byte` and `compressedBits` of `compressFile` and the file written. -/
structure PackState where
  byte : Int
  compressedBits : Nat
  out : List Nat
deriving DecidableEq, Repr

/-- The body of the inner loop of `compressFile` (lines 378-387) for the code element `c`. -/
def packBit (s : PackState) (c : Int) : PackState :=
  let byte := toChar (Int.lor (toChar (s.byte * 2)) c)
  if s.compressedBits + 1 = 7 then
    { byte := 0, compressedBits := 0, out := s.out ++ [toByte byte] }
  else { byte := byte, compressedBits := s.compressedBits + 1, out := s.out }

/-- The outer loop of `compressFile` (lines 372-389).  The search of line 375 runs past the
table when no entry has the character: `none`. -/
def compressLoop : List Nat → List CharCode → PackState → Option PackState
  | [], _, s => some s
  | b :: rest, arr, s =>
    let temp := toChar b
    if temp = EOF then some s
    else
      match arr.find? (fun e => e.ch == temp) with
      | none => none
      | some e =>
        if e.codeLen ≤ e.code.length then compressLoop rest arr (e.bits.foldl packBit s)
        else none

/-- Writing `bytes` at the start of a file (`fseek(f, 0, SEEK_SET)` and a write). -/
def overwrite (file bytes : List Nat) : List Nat := bytes ++ file.drop bytes.length

/-- The function `compressFile` (lines 365-398); `output` is the file written so far and
the result is the complete file. -/
def compressFile (input output : List Nat) (arr : List CharCode) : Option (List Nat) :=
  match compressLoop input arr { byte := 0, compressedBits := 0, out := output } with
  | none => none
  | some s =>
    if s.compressedBits ≠ 0 then
      let byte := toChar (s.byte * 2 ^ (7 - s.compressedBits))
      some (overwrite (s.out ++ [toByte byte]) (fprintf_d (s.compressedBits + 1)))
    else some s.out

/-- Lines 130-138 of `main`: the code table assigned from the tree under `arr[0]`. -/
def main_codeTable (fuel : Nat) (node : List Node) : Option (List CharCode) :=
  match main_buildHeap node with
  | none => none
  | some h =>
    match h.arr[0]? with
    | none => none
    | some root =>
      match assignLoop fuel node.length { root := root, table := [] } with
      | none => none
      | some s => some s.table

/-- The two header lines written at line 149. -/
def headerLines (size : Nat) : List Nat := fprintf_d 0 ++ 10 :: (fprintf_d size ++ [10])

/-- The compression branch of `main` (lines 91-154): the compressed file written for the
input file, with fuel for the assignment loop. -/
def main_compress (fuel : Nat) (file : List Nat) : Option (List Nat) :=
  match readFile file [] with
  | none => none
  | some node =>
    match main_codeTable fuel node with
    | none => none
    | some table =>
      match writeCharCode table node.length with
      | none => none
      | some lines => compressFile file (headerLines node.length ++ lines) table

/-! ## Reading the compressed file (lines 184-200, 400-509) -/

/-- White space as `fscanf` skips it before a number. -/
def isSpace (b : Nat) : Bool := b = 32 || (9 ≤ b && b ≤ 13)

/-- Decimal digit. -/
def isDigit (b : Nat) : Bool := 48 ≤ b && b ≤ 57

/-- The digits at the start of a stream, accumulated into `acc`. -/
def scanDigits : List Nat → Nat → Nat × List Nat
  | [], acc => (acc, [])
  | b :: rest, acc =>
    if isDigit b then scanDigits rest (acc * 10 + (b - 48)) else (acc, b :: rest)

/-- The call `fscanf(f, "%d", &x)`: the value stored and the rest of the stream; `none` when
nothing is converted (the variable stays uninitialised) or the value does not fit an `int`. -/
def fscanf_d (input : List Nat) : Option (Int × List Nat) :=
  match input.dropWhile isSpace with
  | [] => none
  | b :: rest =>
    if b = 45 then
      match rest with
      | [] => none
      | d :: _ =>
        if isDigit d then
          let r := scanDigits rest 0
          if r.1 ≤ INT_MAX + 1 then some (-(r.1 : Int), r.2) else none
        else none
    else
      let body := if b = 43 then rest else b :: rest
      match body with
      | [] => none
      | d :: _ =>
        if isDigit d then
          let r := scanDigits body 0
          if r.1 ≤ INT_MAX then some ((r.1 : Int), r.2) else none
        else none

/-- The inner loop of `extractCodesFromCompressedFile` (lines 409-410).  At the end of the
file `fgetc` returns `EOF` for ever and the loop runs past the buffer: `none`. -/
def extractCode : List Nat → List Int → Nat → Option (List Int × Nat × List Nat)
  | [], _, _ => none
  | b :: rest, code, j =>
    let temp := toChar b
    if temp = 10 then some (code, j, rest)
    else if j < 64 then extractCode rest (code.set j temp) (j + 1)
    else none

/-- The function `extractCodesFromCompressedFile` (lines 400-414) from entry `i` on, for
`count` more entries: the entries read and the rest of the stream. -/
def extractCodesFrom : Nat → List Nat → Nat → Option (List CharCode × List Nat)
  | 0, input, _ => some ([], input)
  | count + 1, input, i =>
    if i < NUM_ALPHABETS then
      match extractCode input.tail mallocCharCode.code 0 with
      | none => none
      | some (code, j, rest) =>
        match extractCodesFrom count rest (i + 1) with
        | none => none
        | some (arr, rest1) =>
          some ({ ch := toChar (input.headD 255), code := code, codeLen := j } :: arr, rest1)
    else none

/-- The function `extractCodesFromCompressedFile` (lines 400-414); `size` is an `int`. -/
def extractCodesFromCompressedFile (input : List Nat) (size : Int) :
    Option (List CharCode × List Nat) :=
  extractCodesFrom size.toNat input 0

/-- The inner loop of `rebuildHuffmanTree` (lines 425-445) from the node `curr` for the rest
of a code. -/
def rebuildInsert : Node → List Int → Int → Node
  | .null, _, _ => .null
  | .mk _ f l r, [], c => .mk c f l r
  | .mk _ f l r, b :: bs, c =>
    if b = 48 then
      .mk 36 f (rebuildInsert (if l = .null then mallocNode else l) bs c) r
    else
      .mk 36 f l (rebuildInsert (if r = .null then mallocNode else r) bs c)

/-- The function `rebuildHuffmanTree` (lines 416-449). -/
def rebuildHuffmanTree (arr : List CharCode) (size : Nat) : Node :=
  (arr.take size).foldl (fun root e => rebuildInsert root e.bits e.ch) (.mk 36 0 .null .null)

/-- The loop of lines 458-464 of `decompressFile`, which writes `byte[i]`, `byte[i-1]`, ...
while `temp` is not zero; `slots` is `i + 1`.  A write below `byte[0]` is `none`. -/
def unpackBits : Nat → Nat → List Nat → Option (List Nat)
  | 0, temp, byte => if temp = 0 then some byte else none
  | slots + 1, temp, byte =>
    if temp = 0 then some byte
    else unpackBits slots (temp / 2) (byte.set slots (temp % 2))

/-- The body of the loops at lines 475-488 and 494-507 for one bit: the new `curr` and the
output file.  A read through a null `curr` is `none`. -/
def walkBit (root : Node) (s : Node × List Nat) (bit : Nat) : Option (Node × List Nat) :=
  match s.1 with
  | .null => none
  | .mk _ _ l r =>
    match (if bit ≠ 0 then r else l) with
    | .null => none
    | .mk c f l1 r1 =>
      if c ≠ 36 then some (root, s.2 ++ [toByte c]) else some (.mk c f l1 r1, s.2)

/-- The loops at lines 475-488 and 494-507 over the bits given. -/
def walkBits (root : Node) : List Nat → Node × List Nat → Option (Node × List Nat)
  | [], s => some s
  | bit :: bits, s =>
    match walkBit root s bit with
    | none => none
    | some s1 => walkBits root bits s1

/-- The function `decompressFile` (lines 451-509).  `file` is the whole compressed file (the
function seeks back to its start), `input` the stream from the current position.  The
result is the output file together with the number of bits of the last body byte that
the loop at lines 475-488 walked (0 when there is no body byte); that number is not a
variable of the program, it is recorded for the statements about the last byte. -/
def decompressFile (file : List Nat) (root : Node) :
    List Nat → Node × List Nat → Option (List Nat × Nat)
  | [], s => some (s.2, 0)
  | temp :: input, s =>
    match unpackBits 7 temp (List.replicate 7 0) with
    | none => none
    | some byte =>
      if toChar ((input.head?.map Int.ofNat).getD EOF) = EOF then
        match fscanf_d file with
        | none => none
        | some (compressedBits, _) =>
          if compressedBits ≤ 7 then
            match walkBits root (byte.take compressedBits.toNat) s with
            | none => none
            | some s1 => some (s1.2, compressedBits.toNat)
          else none
      else
        match walkBits root byte s with
        | none => none
        | some s1 => decompressFile file root input s1

/-- The decompression branch of `main` (lines 184-200) up to the call of `decompressFile`:
the table read from the header, the rebuilt tree and the stream left at the body. -/
def main_readHeader (file : List Nat) : Option (List CharCode × Node × List Nat) :=
  match fscanf_d (file.drop 2) with
  | none => none
  | some (size, rest) =>
    match extractCodesFromCompressedFile (rest.drop 1) size with
    | none => none
    | some (arr, body) => some (arr, rebuildHuffmanTree arr size.toNat, body)

/-- The decompression branch of `main` (lines 184-200): the output file and the number of
bits of the last body byte that were walked. -/
def main_decompressTrace (file : List Nat) : Option (List Nat × Nat) :=
  match main_readHeader file with
  | none => none
  | some (_, root, body) => decompressFile file root body (root, [])

/-- The decompression branch of `main` (lines 184-200): the output file. -/
def main_decompress (file : List Nat) : Option (List Nat) :=
  (main_decompressTrace file).map Prod.fst

/-! ## Vocabulary of the statements -/

/-- The nodes in the logical part of a heap, `arr[0 .. size)`. -/
def heapNodes (h : minHeap) : List Node := h.arr.take h.size

/-- The conditions under which the heap functions stay within defined behaviour: the
logical size is within the capacity, no slot below `size` holds a null pointer, and the
child indices `2 * i + 2` of every slot fit an `int`. -/
def HeapOK (h : minHeap) : Prop :=
  h.size ≤ h.arr.length ∧ (∀ n ∈ heapNodes h, n ≠ .null) ∧ 2 * h.size ≤ INT_MAX

/-- The node reached from `t` along a path (element 0: `left_node`, any other element:
`right_node`); the null pointer when the path leaves the tree. -/
def Node.sub : Node → List Int → Node
  | t, [] => t
  | .null, _ :: _ => .null
  | .mk _ _ l r, b :: p => if b = 0 then Node.sub l p else Node.sub r p

/-- A node without children. -/
def IsLeaf : Node → Prop
  | .mk _ _ .null .null => True
  | _ => False

/-- Shape of the trees the compression path handles: a node is a leaf whose character is
not `EOF`, or it has two subtrees of that shape and its character is the marker `'$'` or
the 0 that `findCharCode` leaves. -/
def TreeInv : Node → Prop
  | .null => False
  | .mk c _ l r =>
    (l = .null ∧ r = .null ∧ c ≠ EOF) ∨ ((c = 36 ∨ c = 0) ∧ TreeInv l ∧ TreeInv r)

/-- Every node with a child has the sum of its children's frequencies as frequency. -/
def FreqSum : Node → Prop
  | .null => True
  | .mk _ f l r => ((l ≠ .null ∨ r ≠ .null) → f = l.freq + r.freq) ∧ FreqSum l ∧ FreqSum r

/-- The tree with every `ch` and `freq` set to 0: what is left is the shape. -/
def Node.shape : Node → Node
  | .null => .null
  | .mk _ _ l r => .mk 0 0 (Node.shape l) (Node.shape r)

/-- The number denoted by a bit sequence, most significant bit first. -/
def bitsVal (bits : List Int) : Int := bits.foldl (fun acc b => 2 * acc + b) 0

/-- The lines of a file: the byte sequences between newline bytes. -/
def splitLines : List Nat → List (List Nat)
  | [] => [[]]
  | b :: rest =>
    if b = 10 then [] :: splitLines rest
    else
      match splitLines rest with
      | [] => [[b]]
      | l :: ls => (b :: l) :: ls

/-- The symbol table `acc` is the one of the bytes `pre` read so far: one entry per byte
value, the entries in the order in which the byte values first appear, each a childless
node with the count of its byte, reduced modulo `UINT_MOD`, as frequency. -/
def SymInv (pre : List Nat) (acc : List Node) : Prop :=
  (acc.map (fun n => toByte n.ch)).Nodup ∧
  (∀ b, b ∈ acc.map (fun n => toByte n.ch) ↔ b ∈ pre) ∧
  (∀ n ∈ acc, n = .mk (toChar (toByte n.ch)) (pre.count (toByte n.ch) % UINT_MOD) .null .null) ∧
  (acc.map (fun n => pre.indexOf (toByte n.ch))).Pairwise (fun i j => i < j)

/-- What holds of the state of the assignment loop: the tree has the shape `TreeInv`, and
every entry made so far is well formed (a full 64-slot buffer, a length within it, bits 0
and 1, a character that is neither 0 nor `EOF`), is the path of a leaf that has been
cleared since, and no two entries have the same path. -/
def AssignInv (s : AssignState) : Prop :=
  TreeInv s.root ∧
  (∀ e ∈ s.table, e.code.length = 64 ∧ e.codeLen ≤ 64 ∧ (∀ b ∈ e.bits, b = 0 ∨ b = 1) ∧
    e.ch ≠ 0 ∧ e.ch ≠ EOF ∧ IsLeaf (s.root.sub e.bits) ∧ (s.root.sub e.bits).ch = 0) ∧
  (∀ a ∈ s.table, ∀ b ∈ s.table, a.bits = b.bits → a = b)

/-- The code of a byte in a code table: the bits of the first entry for its character (the
entry that the search of line 375 stops at), nothing when there is none. -/
def codeOf (arr : List CharCode) (b : Nat) : List Int :=
  match arr.find? (fun e => e.ch == toChar b) with
  | some e => e.bits
  | none => []

/-- The concatenation of the codes of the bytes of an input, in order. -/
def encodeBits (arr : List CharCode) (input : List Nat) : List Int :=
  (input.map (codeOf arr)).flatten

/-- The state of `compressFile` after the bits `bs` have been packed into a file that held
`out0`: `compressedBits` bits are pending in `byte`, and one byte has been written for each
full group of 7 bits. -/
def PackInv (out0 : List Nat) (bs : List Int) (s : PackState) : Prop :=
  s.compressedBits = bs.length % 7 ∧
  s.byte = bitsVal (bs.drop (7 * (bs.length / 7))) ∧
  s.out = out0 ++
    (List.range (bs.length / 7)).map (fun i => toByte (bitsVal ((bs.drop (7 * i)).take 7)))

/-- What the compression path guarantees of every entry of a code table: the length is
within the buffer, the code elements are 0 and 1, and the character is not `EOF`. -/
def TableOK (arr : List CharCode) : Prop :=
  ∀ e ∈ arr, e.codeLen ≤ e.code.length ∧ (∀ b ∈ e.bits, b = 0 ∨ b = 1) ∧ e.ch ≠ EOF

/-- The header line of a code table entry: the symbol byte, the code elements as the
characters `'0'` and `'1'`, and a newline. -/
def codeLine (e : CharCode) : List Nat :=
  toByte e.ch :: (e.bits.map (fun b => (b + 48).toNat) ++ [10])

/-- A code table entry as the program can hold it: a 64-slot buffer, a length within it,
code elements 0 and 1, and a character in the range of `char`. -/
def EntryOK (e : CharCode) : Prop :=
  e.code.length = 64 ∧ e.codeLen ≤ 64 ∧ (∀ b ∈ e.bits, b = 0 ∨ b = 1) ∧
    -128 ≤ e.ch ∧ e.ch ≤ 127

/-! ## The example of the specification, the input `"aaabbc"` -/

/-- The bytes of `"aaabbc"`. -/
def exampleInput : List Nat := [97, 97, 97, 98, 98, 99]

/-- The symbol table of `"aaabbc"`: a 3 times, b twice, c once. -/
def exampleNode : List Node :=
  [.mk 97 3 .null .null, .mk 98 2 .null .null, .mk 99 1 .null .null]

/-- The code table of `"aaabbc"`: a is 0, c is 10, b is 11. -/
def exampleTable : List CharCode :=
  [{ ch := 97, code := 0 :: List.replicate 63 0, codeLen := 1 },
   { ch := 99, code := 1 :: 0 :: List.replicate 62 0, codeLen := 2 },
   { ch := 98, code := 1 :: 1 :: List.replicate 62 0, codeLen := 2 }]

/-- The compressed file of `"aaabbc"`: the lines `3`, `3`, `a0`, `c10`, `b11` and the
body bytes 15 and 64. -/
def exampleFile : List Nat :=
  [51, 10, 51, 10, 97, 48, 10, 99, 49, 48, 10, 98, 49, 49, 10, 15, 64]


/-! ## Vocabulary of the statements about the heap, the tree and the code table -/

/-- The frequency `arr[i]->freq` of slot `i` of an array of node pointers (0 where there is
no slot or the slot is null). -/
def slotFreq (arr : List Node) (i : Nat) : Nat := ((arr[i]?).map Node.freq).getD 0

/-- The heap invariant at one slot `j`: `arr[j]->freq` is at most the frequency of each
child slot `2 j + 1`, `2 j + 2` below `size`. -/
def HeapAt (arr : List Node) (size j : Nat) : Prop :=
  ∀ c, (c = 2 * j + 1 ∨ c = 2 * j + 2) → c < size → slotFreq arr j ≤ slotFreq arr c

/-- The heap invariant: it holds at every slot. -/
def IsHeap (h : minHeap) : Prop := ∀ j, HeapAt h.arr h.size j

/-- The state of the build loop (lines 112-127) after exactly `k` iterations. -/
def buildIter : Nat → minHeap → Option minHeap
  | 0, h => some h
  | k + 1, h =>
    match buildStep h with
    | none => none
    | some h1 => buildIter k h1

/-- The childless nodes of a tree, from left to right. -/
def leaves : Node → List Node
  | .null => []
  | .mk c f l r => if l = .null ∧ r = .null then [.mk c f l r] else leaves l ++ leaves r

/-- Every node of the tree has no child or two children. -/
def Full : Node → Prop
  | .null => False
  | .mk _ _ l r => (l = .null ∧ r = .null) ∨ (Full l ∧ Full r)

/-- The number of nodes on the longest path from a node down to a leaf (0 for the null
pointer). -/
def height : Node → Nat
  | .null => 0
  | .mk _ _ l r => 1 + max (height l) (height r)

/-- The trees that the assignment loop meets when every symbol is greater than 9 and is
not `'$'`: a leaf holds its symbol or the 0 that `findCharCode` leaves; a node with
children holds `'$'`, or holds 0 and then both its children hold 0 as well. -/
def Good : Node → Prop
  | .null => False
  | .mk c _ l r =>
    (l = .null ∧ r = .null ∧ (c = 0 ∨ (9 < c ∧ c ≠ 36))) ∨
      (Good l ∧ Good r ∧ (c = 36 ∨ (c = 0 ∧ l.ch = 0 ∧ r.ch = 0)))

/-- The number of nodes whose `ch` is not 0. -/
def live : Node → Nat
  | .null => 0
  | .mk c _ l r => (if c ≠ 0 then 1 else 0) + live l + live r

/-- The number of childless nodes whose `ch` is not 0. -/
def liveLeaves : Node → Nat
  | .null => 0
  | .mk c _ l r =>
    if l = .null ∧ r = .null then (if c ≠ 0 then 1 else 0) else liveLeaves l + liveLeaves r

/-- The paths from a node to the childless nodes below it (0 for a left descent, 1 for a
right descent), from left to right. -/
def leafPaths : Node → List (List Int)
  | .null => []
  | .mk _ _ l r =>
    if l = .null ∧ r = .null then [[]]
    else (leafPaths l).map (fun p => 0 :: p) ++ (leafPaths r).map (fun p => 1 :: p)

/-- A symbol table of 69 symbols (the bytes 40 to 108), each with the frequency 2^32 - 1. -/
def deepNode : List Node :=
  (List.range 69).map (fun (i : Nat) => Node.mk (40 + Int.ofNat i) 4294967295 .null .null)

/-- The four bytes of an `int` object that holds `x`, least significant byte first. -/
def intBytes (x : Nat) : List Nat :=
  [x % 256, x / 256 % 256, x / 65536 % 256, x / 16777216 % 256]

/-- Storing bytes in an object from the offset `off` on. -/
def storeBytes (obj : List Nat) (off : Nat) : List Nat → List Nat
  | [] => obj
  | b :: bs => storeBytes (obj.set off b) (off + 1) bs

/-- The function `findCharCode` (lines 320-350) on the bytes of the object `**arr`, as the
x86-64 System V ABI lays out the struct `CharCode` (lines 25-30): 72 bytes, `ch` at
offset 0, `code[k]` at offset `1 + k`, three bytes of padding at the offsets 65 to 67, and
`codeLen` at the offsets 68 to 71. The assignment to `code[top]` is the store of a byte at
offset `1 + top`, also when `top` is 64 or more; a store outside the 72 bytes is `none`.
The object that `malloc` returns is zero-filled (see the conventions above). -/
def findCharCodeObj : Node → List Nat → Nat → Option (Node × List Nat)
  | .null, _, _ => none
  | .mk ch freq l r, obj0, top =>
    let obj := if top = 0 then (List.replicate 72 0).set 0 0 else obj0
    if l ≠ .null ∧ l.ch > 9 then
      if 1 + top < 72 then
        match findCharCodeObj l (obj.set (1 + top) 0) (top + 1) with
        | none => none
        | some (l1, obj1) => some (.mk ch freq l1 r, obj1)
      else none
    else if r ≠ .null ∧ r.ch > 9 then
      if 1 + top < 72 then
        match findCharCodeObj r (obj.set (1 + top) 1) (top + 1) with
        | none => none
        | some (r1, obj1) => some (.mk ch freq l r1, obj1)
      else none
    else
      some (.mk 0 0 l r,
        if ch ≠ 36 then storeBytes (obj.set 0 (toByte ch)) 68 (intBytes top) else obj)

/-- The member `ch` of a `CharCode` object. -/
def objCh (obj : List Nat) : Int := toChar (obj.getD 0 0)

/-- The element `code[j]` of a `CharCode` object, as `writeCharCode` reads it. -/
def objCode (obj : List Nat) (j : Nat) : Int := toChar (obj.getD (1 + j) 0)

/-- The member `codeLen` of a `CharCode` object. -/
def objCodeLen (obj : List Nat) : Nat :=
  obj.getD 68 0 + 256 * obj.getD 69 0 + 65536 * obj.getD 70 0 + 16777216 * obj.getD 71 0

/-- What holds of the state of the assignment loop started on the tree `T`: the invariant
`AssignInv`; the tree has kept its shape and every `ch` is the one of `T` or has been
cleared; and every entry has the character that `T` holds at the end of the entry's path,
a character greater than 9 and other than `'$'`; and no two entries have the same path. -/
def AssignTrack (T : Node) (s : AssignState) : Prop :=
  AssignInv s ∧ s.root.shape = T.shape ∧
    (∀ q, (s.root.sub q).ch = 0 ∨ (s.root.sub q).ch = (T.sub q).ch) ∧
    (∀ e ∈ s.table, (T.sub e.bits).ch = e.ch ∧ 9 < e.ch ∧ e.ch ≠ 36) ∧
    (s.table.map CharCode.bits).Nodup

/-- The tree as the decompression path knows it: every `freq` is 0, a childless node keeps
its character, and a node with a child holds the marker `'$'`. -/
def Node.labels : Node → Node
  | .null => .null
  | .mk c _ l r =>
    if l = .null ∧ r = .null then .mk c 0 .null .null
    else .mk 36 0 (Node.labels l) (Node.labels r)

/-- The tree `R` is a part of the relabelled tree `T` that `rebuildHuffmanTree` may have
built so far: where `T` has a leaf, `R` is that leaf, relabelled; where `T` has a node
with children, `R` has a `'$'` node, each of whose children is still missing or is a part
of the corresponding child of `T`. -/
def Part : Node → Node → Prop
  | _, .null => False
  | R, .mk c _ l r =>
    if l = .null ∧ r = .null then R = .mk c 0 .null .null
    else ∃ Rl Rr, R = .mk 36 0 Rl Rr ∧ (Rl = .null ∨ Part Rl l) ∧ (Rr = .null ∨ Part Rr r)

/-- The code table of `"aaabbc"` as `extractCodesFromCompressedFile` reads it back from
`exampleFile`: the code elements are the characters `'0'` and `'1'`. -/
def exampleRead : List CharCode :=
  [{ ch := 97, code := 48 :: List.replicate 63 0, codeLen := 1 },
   { ch := 99, code := 49 :: 48 :: List.replicate 62 0, codeLen := 2 },
   { ch := 98, code := 49 :: 49 :: List.replicate 62 0, codeLen := 2 }]

/-- The seven low bits of a byte, most significant first: what the loop of lines 458-464
leaves in `byte[0 .. 7)` for a byte below 128. -/
def bits7 (t : Nat) : List Nat :=
  [t / 64 % 2, t / 32 % 2, t / 16 % 2, t / 8 % 2, t / 4 % 2, t / 2 % 2, t % 2]

/-- A tree that `decompressFile` can walk: a childless node holds a character other than
`'$'`, and a node with a child holds `'$'` and has both children. -/
def Decodable (R : Node) : Prop :=
  ∀ q, (IsLeaf (R.sub q) → (R.sub q).ch ≠ 36) ∧
    (R.sub q ≠ .null → ¬ IsLeaf (R.sub q) →
      (R.sub q).ch = 36 ∧ (R.sub q).left_node ≠ .null ∧ (R.sub q).right_node ≠ .null)

/-- The bytes of `"aaaaaab"`: seven symbols with one-bit codes, seven code bits. -/
def sevenInput : List Nat := [97, 97, 97, 97, 97, 97, 98]

/-- The symbol table of `"aaaaaab"`. -/
def sevenNode : List Node := [.mk 97 6 .null .null, .mk 98 1 .null .null]

/-- The code table of `"aaaaaab"`: b is 0, a is 1. -/
def sevenTable : List CharCode :=
  [{ ch := 98, code := List.replicate 64 0, codeLen := 1 },
   { ch := 97, code := 1 :: List.replicate 63 0, codeLen := 1 }]

/-- The file `exampleFile` with its second line changed to `5`: the header claims five
code lines, three follow. -/
def claimsFive : List Nat :=
  [51, 10, 53, 10, 97, 48, 10, 99, 49, 48, 10, 98, 49, 49, 10, 15, 64]

/-- A file whose header claims five code lines and has three, and whose body holds two
newline bytes: the body bytes are 15, newline, 64, newline, 7. -/
def claimsFiveNewlines : List Nat :=
  [51, 10, 53, 10, 97, 48, 10, 99, 49, 48, 10, 98, 49, 49, 10, 15, 10, 64, 10, 7]

/-- Frequencies in a tree that the build loop makes while no sum wraps around: a leaf has
a frequency of at least 1; a node with children has the sum of their frequencies, and
neither child was made of a node with a larger frequency than the other child. -/
def MergeOrdered : Node → Prop
  | .null => True
  | .mk _ f l r =>
    (l = .null ∧ r = .null ∧ 1 ≤ f) ∨
      (l ≠ .null ∧ r ≠ .null ∧ f = l.freq + r.freq ∧
        l.left_node.freq ≤ r.freq ∧ l.right_node.freq ≤ r.freq ∧
        r.left_node.freq ≤ l.freq ∧ r.right_node.freq ≤ l.freq ∧
        MergeOrdered l ∧ MergeOrdered r)
/-! ## The heap operations: totality and contents -/

theorem set_perm_cons {α : Type} (h y : α) : ∀ (t : List α) (i : Nat),
    t[i]? = some y → (y :: t.set i h).Perm (h :: t)
  | [], i, hi => by simp at hi
  | u :: t, 0, hi => by
    simp at hi
    subst hi
    simpa using List.Perm.swap h u t
  | u :: t, i + 1, hi => by
    simp at hi
    have ih := set_perm_cons h y t i hi
    simp only [List.set_cons_succ]
    exact ((List.Perm.swap u y _).trans (ih.cons u)).trans (List.Perm.swap h u t)

theorem set_set_perm {α : Type} : ∀ (l : List α) (a b : Nat) (x y : α),
    l[a]? = some x → l[b]? = some y → ((l.set a y).set b x).Perm l
  | [], a, b, x, y, ha, hb => by simp at ha
  | u :: t, 0, 0, x, y, ha, hb => by
    simp at ha hb
    subst ha
    simp
  | u :: t, 0, b + 1, x, y, ha, hb => by
    simp at ha hb
    subst ha
    simpa using set_perm_cons u y t b hb
  | u :: t, a + 1, 0, x, y, ha, hb => by
    simp at ha hb
    subst hb
    simpa using set_perm_cons u x t a ha
  | u :: t, a + 1, b + 1, x, y, ha, hb => by
    simp at ha hb
    simpa using (set_set_perm t a b x y ha hb).cons u

theorem swap_nodePtr_spec {arr arr1 : List Node} {a b : Nat}
    (h : swap_nodePtr arr a b = some arr1) :
    arr1.length = arr.length ∧ arr1.Perm arr ∧
      ∀ n, a < n → b < n → (arr1.take n).Perm (arr.take n) := by
  unfold swap_nodePtr at h
  cases ha : arr[a]? with
  | none => simp [ha] at h
  | some x =>
    cases hb : arr[b]? with
    | none => simp [ha, hb] at h
    | some y =>
      simp [ha, hb] at h
      subst h
      refine ⟨by simp, set_set_perm arr a b x y ha hb, ?_⟩
      intro n han hbn
      rw [List.set_take, List.set_take]
      apply set_set_perm
      · rw [List.getElem?_take_of_lt han]; exact ha
      · rw [List.getElem?_take_of_lt hbn]; exact hb

theorem swap_nodePtr_total (arr : List Node) (a b : Nat) (ha : a < arr.length)
    (hb : b < arr.length) : ∃ arr1, swap_nodePtr arr a b = some arr1 := by
  unfold swap_nodePtr
  rw [List.getElem?_eq_getElem ha, List.getElem?_eq_getElem hb]
  exact ⟨_, rfl⟩

/-- Reading the frequency of a heap slot below `size`. -/
theorem heap_slot {h : minHeap} (hs : h.size ≤ h.arr.length)
    (hn : ∀ n ∈ heapNodes h, n ≠ .null) {k : Nat} (hk : k < h.size) :
    ∃ c f l r, h.arr[k]? = some (.mk c f l r) := by
  have hk2 : k < h.arr.length := by omega
  have hmem : h.arr[k] ∈ heapNodes h := by
    unfold heapNodes
    rw [List.mem_iff_getElem?]
    exact ⟨k, by rw [List.getElem?_take_of_lt hk, List.getElem?_eq_getElem hk2]⟩
  have := hn _ hmem
  cases hx : h.arr[k] with
  | null => exact absurd hx this
  | mk c f l r => exact ⟨c, f, l, r, by rw [List.getElem?_eq_getElem hk2, hx]⟩

theorem lessAt_total {h : minHeap} (hs : h.size ≤ h.arr.length)
    (hn : ∀ n ∈ heapNodes h, n ≠ .null) {k s : Nat} (hks : k < h.size → s < h.size) :
    ∃ b, lessAt h k s = some b ∧ (b = true → k < h.size) := by
  unfold lessAt
  by_cases hk : k < h.size
  · obtain ⟨c1, f1, l1, r1, e1⟩ := heap_slot hs hn hk
    obtain ⟨c2, f2, l2, r2, e2⟩ := heap_slot hs hn (hks hk)
    simp [hk, e1, e2]
  · simp [hk]


theorem minHeapifyAux_spec : ∀ (fuel : Nat) (h : minHeap) (i : Nat), HeapOK h →
    2 * i + 2 ≤ INT_MAX → h.size - i + 1 ≤ fuel →
    ∃ h1, minHeapifyAux fuel h i = some h1 ∧ h1.size = h.size ∧
      h1.arr.length = h.arr.length ∧ (heapNodes h1).Perm (heapNodes h)
  | 0, h, i, _, _, hf => by omega
  | fuel + 1, h, i, hok, hi, hf => by
    obtain ⟨hs, hn, hm⟩ := hok
    obtain ⟨b1, hb1, hb1lt⟩ := lessAt_total hs hn (k := 2 * i + 1) (s := i) (by omega)
    obtain ⟨b2, hb2, hb2lt⟩ := lessAt_total hs hn (k := 2 * i + 2)
      (s := if b1 then 2 * i + 1 else i) (by intro hlt; split <;> omega)
    rw [minHeapifyAux]
    simp only [if_neg (Nat.not_lt.mpr hi), hb1, hb2]
    by_cases hne : (if b2 = true then 2 * i + 2 else if b1 = true then 2 * i + 1 else i) ≠ i
    · rw [if_pos hne]
      have hlt : (if b2 = true then 2 * i + 2 else if b1 = true then 2 * i + 1 else i) < h.size ∧
          i < (if b2 = true then 2 * i + 2 else if b1 = true then 2 * i + 1 else i) := by
        cases b2 <;> cases b1 <;> simp_all <;> omega
      generalize (if b2 = true then 2 * i + 2 else if b1 = true then 2 * i + 1 else i) = s at *
      obtain ⟨arr1, harr1⟩ := swap_nodePtr_total h.arr s i
        (by omega) (by omega)
      obtain ⟨hlen, _, htake⟩ := swap_nodePtr_spec harr1
      have hp : (heapNodes { h with arr := arr1 }).Perm (heapNodes h) :=
        htake h.size hlt.1 (by omega)
      have hok1 : HeapOK { h with arr := arr1 } :=
        ⟨by simpa [hlen] using hs, fun n hmem => hn n (hp.subset hmem), hm⟩
      obtain ⟨h1, e1, e2, e3, e4⟩ := minHeapifyAux_spec fuel { h with arr := arr1 } s hok1
        (by omega) (by show h.size - s + 1 ≤ fuel; omega)
      simp only [harr1]
      exact ⟨h1, e1, e2, by simpa [hlen] using e3, e4.trans hp⟩
    · rw [if_neg hne]
      exact ⟨h, rfl, rfl, rfl, List.Perm.refl _⟩

theorem minHeapify_spec (h : minHeap) (i : Nat) (hok : HeapOK h) (hi : 2 * i + 2 ≤ INT_MAX) :
    ∃ h1, minHeapify h i = some h1 ∧ h1.size = h.size ∧
      h1.arr.length = h.arr.length ∧ (heapNodes h1).Perm (heapNodes h) :=
  minHeapifyAux_spec (h.size + 1) h i hok hi (by omega)

theorem HeapOK_of_perm {h h1 : minHeap} (hok : HeapOK h) (e2 : h1.size = h.size)
    (e3 : h1.arr.length = h.arr.length) (e4 : (heapNodes h1).Perm (heapNodes h)) :
    HeapOK h1 :=
  ⟨by rw [e2, e3]; exact hok.1, fun n hmem => hok.2.1 n (e4.subset hmem), by rw [e2]; exact hok.2.2⟩


theorem heapNodes_get {h : minHeap} {k : Nat} (hk : k < h.size) :
    (heapNodes h)[k]? = h.arr[k]? := by
  unfold heapNodes
  exact List.getElem?_take_of_lt hk

theorem extractMin_spec (h : minHeap) (hok : HeapOK h) (hpos : 0 < h.size) :
    ∃ x h1, extractMin h = some (x, h1) ∧ h.arr[0]? = some x ∧ h1.size = h.size - 1 ∧
      h1.arr.length = h.arr.length ∧ (x :: heapNodes h1).Perm (heapNodes h) ∧ HeapOK h1 := by
  obtain ⟨hs, hn, hm⟩ := hok
  have h0 : 0 < h.arr.length := by omega
  have hl : h.size - 1 < h.arr.length := by omega
  have hperm : (h.arr[0] :: heapNodes { size := h.size - 1, arr := h.arr.set 0 h.arr[h.size - 1] }).Perm
      (heapNodes h) := by
    unfold heapNodes
    simp only
    have e : h.size = (h.size - 1) + 1 := by omega
    rw [List.set_take]
    conv_rhs => rw [e, List.take_succ, List.getElem?_eq_getElem hl]
    simp only [Option.toList_some]
    by_cases h1 : h.size - 1 = 0
    · have : h.arr[h.size - 1] = h.arr[0] := by simp [h1]
      simp [h1]
    · have hget : (List.take (h.size - 1) h.arr)[0]? = some h.arr[0] := by
        rw [List.getElem?_take_of_lt (by omega), List.getElem?_eq_getElem h0]
      exact (set_perm_cons h.arr[h.size - 1] h.arr[0] _ 0 hget).trans
        (List.perm_append_singleton _ _).symm
  have hok1 : HeapOK { size := h.size - 1, arr := h.arr.set 0 h.arr[h.size - 1] } :=
    ⟨by simp; omega, fun n hmem => hn n (hperm.subset (List.mem_cons_of_mem _ hmem)),
      by show 2 * (h.size - 1) ≤ INT_MAX; omega⟩
  obtain ⟨h1, e1, e2, e3, e4⟩ := minHeapify_spec _ 0 hok1 (by unfold INT_MAX; omega)
  refine ⟨h.arr[0], h1, ?_, List.getElem?_eq_getElem h0, e2, by simpa using e3,
    ((e4.cons _).trans hperm), HeapOK_of_perm hok1 e2 e3 e4⟩
  unfold extractMin
  rw [List.getElem?_eq_getElem h0, List.getElem?_eq_getElem hl]
  simp only [Nat.pos_iff_ne_zero.mp hpos, if_false, e1]

theorem siftUp_spec : ∀ (fuel : Nat) (h : minHeap) (i : Nat), HeapOK h → i < h.size →
    i + 1 ≤ fuel →
    ∃ h1, siftUp fuel h i = some h1 ∧ h1.size = h.size ∧
      h1.arr.length = h.arr.length ∧ (heapNodes h1).Perm (heapNodes h)
  | 0, h, i, _, _, hf => by omega
  | fuel + 1, h, i, hok, hi, hf => by
    rw [siftUp]
    by_cases hz : i = 0
    · rw [if_pos hz]
      exact ⟨h, rfl, rfl, rfl, List.Perm.refl _⟩
    · rw [if_neg hz]
      obtain ⟨hs, hn, hm⟩ := hok
      have hp : (i - 1) / 2 < i := by omega
      obtain ⟨c1, f1, l1, r1, e1⟩ := heap_slot hs hn hi
      obtain ⟨c2, f2, l2, r2, e2⟩ := heap_slot hs hn (k := (i - 1) / 2) (by omega)
      simp only [e1, e2]
      by_cases hlt : f1 < f2
      · rw [if_pos hlt]
        obtain ⟨arr1, harr1⟩ := swap_nodePtr_total h.arr i ((i - 1) / 2)
          (by omega) (by omega)
        obtain ⟨hlen, _, htake⟩ := swap_nodePtr_spec harr1
        have hpm : (heapNodes { h with arr := arr1 }).Perm (heapNodes h) :=
          htake h.size hi (by omega)
        have hok1 : HeapOK { h with arr := arr1 } :=
          ⟨by simpa [hlen] using hs, fun n hmem => hn n (hpm.subset hmem), hm⟩
        obtain ⟨h1, e1, e2, e3, e4⟩ := siftUp_spec fuel { h with arr := arr1 } ((i - 1) / 2)
          hok1 (by show (i - 1) / 2 < h.size; omega) (by omega)
        simp only [harr1]
        exact ⟨h1, e1, e2, by simpa [hlen] using e3, e4.trans hpm⟩
      · rw [if_neg hlt]
        exact ⟨h, rfl, rfl, rfl, List.Perm.refl _⟩

theorem insertNode_spec (h : minHeap) (n : Node) (hok : HeapOK h) (hcap : h.size < h.arr.length)
    (hn : n ≠ .null) (hmax : 2 * (h.size + 1) ≤ INT_MAX) :
    ∃ h1, insertNode h n = some h1 ∧ h1.size = h.size + 1 ∧
      h1.arr.length = h.arr.length ∧ (heapNodes h1).Perm (n :: heapNodes h) ∧ HeapOK h1 := by
  have hnodes : heapNodes { size := h.size + 1, arr := h.arr.set h.size n } = heapNodes h ++ [n] := by
    unfold heapNodes
    simp only
    rw [List.take_succ, List.set_take, List.set_eq_of_length_le (by simp),
      List.getElem?_set_self hcap]
    rfl
  have hok0 : HeapOK { size := h.size + 1, arr := h.arr.set h.size n } := by
    refine ⟨by simp; omega, ?_, hmax⟩
    intro m hm
    rw [hnodes] at hm
    rcases List.mem_append.mp hm with hm | hm
    · exact hok.2.1 m hm
    · simp at hm; rw [hm]; exact hn
  obtain ⟨h1, e1, e2, e3, e4⟩ := siftUp_spec (h.size + 1) _ h.size hok0 (by simp) (by omega)
  refine ⟨h1, ?_, e2, by simpa using e3, ?_, HeapOK_of_perm hok0 e2 e3 e4⟩
  · unfold insertNode
    rw [if_pos hcap]
    exact e1
  · rw [hnodes] at e4
    exact e4.trans (List.perm_append_singleton _ _)

theorem heapifyPass_spec : ∀ (i : Nat) (h : minHeap), HeapOK h → 2 * i + 2 ≤ INT_MAX →
    ∃ h1, heapifyPass i h = some h1 ∧ h1.size = h.size ∧
      h1.arr.length = h.arr.length ∧ (heapNodes h1).Perm (heapNodes h) ∧ HeapOK h1
  | 0, h, hok, hi => by
    obtain ⟨h1, e1, e2, e3, e4⟩ := minHeapify_spec h 0 hok hi
    exact ⟨h1, by rw [heapifyPass]; exact e1, e2, e3, e4, HeapOK_of_perm hok e2 e3 e4⟩
  | i + 1, h, hok, hi => by
    obtain ⟨h1, e1, e2, e3, e4⟩ := minHeapify_spec h (i + 1) hok hi
    obtain ⟨h2, f1, f2, f3, f4, f5⟩ := heapifyPass_spec i h1 (HeapOK_of_perm hok e2 e3 e4)
      (by omega)
    refine ⟨h2, ?_, f2.trans e2, f3.trans e3, f4.trans e4, f5⟩
    rw [heapifyPass, e1]
    exact f1


theorem buildStep_spec (h : minHeap) (hok : HeapOK h) (h2 : 2 ≤ h.size) :
    ∃ left right rest h1, buildStep h = some h1 ∧ h.arr[0]? = some left ∧
      (left :: right :: rest).Perm (heapNodes h) ∧
      (heapNodes h1).Perm (.mk 36 ((left.freq + right.freq) % UINT_MOD) left right :: rest) ∧
      h1.size = h.size - 1 ∧ h1.arr.length = h.arr.length ∧ HeapOK h1 := by
  obtain ⟨x, ha, e1, e0, e2, e3, e4, e5⟩ := extractMin_spec h hok (by omega)
  obtain ⟨y, hb, f1, _, f2, f3, f4, f5⟩ := extractMin_spec ha e5 (by omega)
  have hx : x ≠ .null := hok.2.1 x (e4.subset (List.mem_cons_self _ _))
  have hy : y ≠ .null := e5.2.1 y (f4.subset (List.mem_cons_self _ _))
  obtain ⟨h1, g1, g2, g3, g4, g5⟩ := insertNode_spec hb
    (.mk 36 ((x.freq + y.freq) % UINT_MOD) x y) f5 (by have := hok.1; omega) (by simp)
    (by have := hok.2.2; omega)
  refine ⟨x, y, heapNodes hb, h1, ?_, e0, ((f4.cons x).trans e4), g4, by omega, by omega, g5⟩
  unfold buildStep
  rw [e1]
  simp only [f1]
  cases x with
  | null => exact absurd rfl hx
  | mk lc lf ll lr =>
    cases y with
    | null => exact absurd rfl hy
    | mk rc rf rl rr => simpa [newNode, Node.ch, Node.freq] using g1

/-- The build loop under an invariant of the heap contents that is stable under
reordering and under a merge. -/
theorem buildLoop_spec (I : List Node → Prop) (hperm : ∀ a b, a.Perm b → I a → I b)
    (hmerge : ∀ l r rest, I (l :: r :: rest) →
      I (.mk 36 ((l.freq + r.freq) % UINT_MOD) l r :: rest)) :
    ∀ (fuel : Nat) (h : minHeap), HeapOK h → 1 ≤ h.size → h.size ≤ fuel + 1 →
      I (heapNodes h) →
      ∃ h1, buildLoop fuel h = some h1 ∧ h1.size = 1 ∧ I (heapNodes h1) ∧ HeapOK h1
  | 0, h, hok, h1, hf, hI => by
    have : h.size = 1 := by omega
    exact ⟨h, by simp [buildLoop, this], this, hI, hok⟩
  | fuel + 1, h, hok, h1, hf, hI => by
    rw [buildLoop]
    by_cases hs : h.size = 1
    · exact ⟨h, by simp [hs], hs, hI, hok⟩
    · obtain ⟨l, r, rest, hn, e1, _, e2, e3, e4, e5, e6⟩ := buildStep_spec h hok (by omega)
      have hI1 : I (heapNodes hn) :=
        hperm _ _ e3.symm (hmerge l r rest (hperm _ _ e2.symm hI))
      obtain ⟨hr, f1, f2, f3, f4⟩ := buildLoop_spec I hperm hmerge fuel hn e6 (by omega)
        (by omega) hI1
      refine ⟨hr, ?_, f2, f3, f4⟩
      rw [if_pos hs, e1]
      exact f1

/-- The heapify pass and the build loop of `main` on a symbol table of 2 to
`NUM_ALPHABETS` entries: they end with a heap of one node, and an invariant of the heap
contents that is stable under reordering and merging holds of that node. -/
theorem main_buildHeap_spec (I : List Node → Prop) (hperm : ∀ a b, a.Perm b → I a → I b)
    (hmerge : ∀ l r rest, I (l :: r :: rest) →
      I (.mk 36 ((l.freq + r.freq) % UINT_MOD) l r :: rest))
    (node : List Node) (hnn : ∀ n ∈ node, n ≠ .null) (h2 : 2 ≤ node.length)
    (h128 : node.length ≤ NUM_ALPHABETS) (hI : I node) :
    ∃ h root, main_buildHeap node = some h ∧ h.size = 1 ∧ h.arr[0]? = some root ∧
      heapNodes h = [root] ∧ I [root] := by
  unfold NUM_ALPHABETS at h128
  have hok : HeapOK (createMinHeap_unsorted node node.length) := by
    refine ⟨by simp [createMinHeap_unsorted], ?_, ?_⟩
    · simpa [heapNodes, createMinHeap_unsorted] using hnn
    · show 2 * node.length ≤ INT_MAX
      unfold INT_MAX; omega
  have hstart : 2 * heapifyStart node.length + 2 ≤ INT_MAX := by
    unfold heapifyStart INT_MAX
    rw [if_pos h2]
    omega
  obtain ⟨h1, e1, e2, e3, e4, e5⟩ := heapifyPass_spec _ _ hok hstart
  have hsz : h1.size = node.length := e2
  have hI1 : I (heapNodes h1) := by
    apply hperm _ _ e4.symm
    simpa [heapNodes, createMinHeap_unsorted] using hI
  obtain ⟨hr, f1, f2, f3, f4⟩ := buildLoop_spec I hperm hmerge node.length h1 e5 (by omega)
    (by omega) hI1
  obtain ⟨c, f, l, r, hroot⟩ := heap_slot f4.1 f4.2.1 (k := 0) (by omega)
  have hnodes : heapNodes hr = [.mk c f l r] := by
    apply List.ext_getElem?
    intro k
    by_cases hk : k = 0
    · subst hk
      rw [heapNodes_get (by omega), hroot]; rfl
    · have : (heapNodes hr).length = 1 := by
        unfold heapNodes; rw [List.length_take]; have := f4.1; omega
      rw [List.getElem?_eq_none (by omega), List.getElem?_eq_none (by simp; omega)]
  refine ⟨hr, .mk c f l r, ?_, f2, hroot, hnodes, hnodes ▸ f3⟩
  unfold main_buildHeap
  dsimp only
  rw [e1]
  exact f1

/-! ## Characters and bytes -/

theorem toByte_lt (c : Int) : toByte c < 256 := by
  unfold toByte
  omega

theorem toByte_toChar (b : Nat) (h : b < 256) : toByte (toChar b) = b := by
  unfold toByte toChar
  omega

theorem toChar_toByte (c : Int) (h1 : -128 ≤ c) (h2 : c ≤ 127) : toChar (toByte c) = c := by
  unfold toByte toChar
  omega

theorem toChar_range (x : Int) : -128 ≤ toChar x ∧ toChar x ≤ 127 := by
  unfold toChar
  omega

theorem toChar_ne_EOF (b : Nat) (h : b < 256) (h2 : b ≠ 255) : toChar b ≠ EOF := by
  unfold toChar EOF
  omega

theorem toChar_eq_iff (c : Int) (b : Nat) (hc : toChar (toByte c) = c) (hb : b < 256) :
    c = toChar b ↔ toByte c = b := by
  constructor
  · intro h; rw [h]; exact toByte_toChar b hb
  · intro h; rw [← h, hc]

/-! ## The symbol table -/

theorem map_modify_eq {α β : Type} (g : α → β) (f : α → α) (hg : ∀ a, g (f a) = g a) :
    ∀ (l : List α) (i : Nat), (l.modify f i).map g = l.map g
  | [], i => by simp
  | a :: l, 0 => by simp [hg]
  | a :: l, i + 1 => by simp [map_modify_eq g f hg l i]

theorem SymInv_found {pre : List Nat} {acc : List Node} {b idx : Nat} (hI : SymInv pre acc)
    (hb : b < 256) (hidx : acc.findIdx? (fun n => n.ch == toChar b) = some idx) :
    SymInv (pre ++ [b])
      (acc.modify (fun n => .mk n.ch ((n.freq + 1) % UINT_MOD) n.left_node n.right_node) idx) := by
  obtain ⟨hnd, hmem, hfreq, hord⟩ := hI
  obtain ⟨hlt, hp, -⟩ := List.findIdx?_eq_some_iff_getElem.mp hidx
  have hm := hfreq acc[idx] (List.getElem_mem hlt)
  have hch : acc[idx].ch = toChar b := by simpa using hp
  have hbyte : toByte acc[idx].ch = b := by rw [hch]; exact toByte_toChar b hb
  have hbpre : b ∈ pre := (hmem b).mp (List.mem_map.mpr ⟨_, List.getElem_mem hlt, hbyte⟩)
  have hmap : ∀ {β : Type} (g : Int → β),
      (acc.modify (fun n => .mk n.ch ((n.freq + 1) % UINT_MOD) n.left_node n.right_node) idx).map
        (fun n => g n.ch) = acc.map (fun n => g n.ch) :=
    fun g => map_modify_eq (fun n => g n.ch) _ (fun a => by simp [Node.ch]) acc idx
  have hsplit : acc = acc.take idx ++ acc[idx] :: acc.drop (idx + 1) := by
    rw [List.getElem_cons_drop, List.take_append_drop]
  have hnd2 := hnd
  rw [hsplit, List.map_append, List.map_cons, List.nodup_append, List.nodup_cons] at hnd2
  refine ⟨by rw [hmap toByte]; exact hnd, ?_, ?_, ?_⟩
  · intro x
    rw [hmap toByte, hmem x]
    simp only [List.mem_append, List.mem_singleton]
    constructor
    · exact Or.inl
    · rintro (h | h)
      · exact h
      · rw [h]; exact hbpre
  · intro n hn
    rw [List.modify_eq_take_cons_drop hlt, List.mem_append, List.mem_cons] at hn
    have hother : ∀ m ∈ acc, toByte m.ch ≠ b →
        m = .mk (toChar (toByte m.ch)) ((pre ++ [b]).count (toByte m.ch) % UINT_MOD) .null .null := by
      intro m hm hne
      have := hfreq m hm
      rw [List.count_append, List.count_singleton]
      simpa [Ne.symm hne] using this
    rcases hn with hn | hn | hn
    · apply hother n (List.mem_of_mem_take hn)
      intro he
      exact hnd2.2.2 (List.mem_map.mpr ⟨n, hn, he⟩) (by rw [hbyte]; exact List.mem_cons_self _ _)
    · have hm1 : acc[idx] = .mk (toChar b) (pre.count b % UINT_MOD) .null .null := by
        rw [hbyte] at hm; exact hm
      rw [hn, hm1]
      simp only [Node.ch, Node.freq, Node.left_node, Node.right_node]
      rw [toByte_toChar b hb, List.count_append, List.count_singleton_self]
      congr 1
      unfold UINT_MOD
      omega
    · apply hother n (List.mem_of_mem_drop hn)
      intro he
      exact hnd2.2.1.1 (by rw [← hbyte] at he; rw [← he]; exact List.mem_map.mpr ⟨n, hn, rfl⟩)
  · rw [hmap (fun c => (pre ++ [b]).indexOf (toByte c))]
    have : acc.map (fun n => (pre ++ [b]).indexOf (toByte n.ch)) =
        acc.map (fun n => pre.indexOf (toByte n.ch)) := by
      apply List.map_congr_left
      intro n hn
      exact List.indexOf_append_of_mem ((hmem _).mp (List.mem_map.mpr ⟨n, hn, rfl⟩))
    rw [this]
    exact hord

theorem SymInv_new {pre : List Nat} {acc : List Node} {b : Nat} (hI : SymInv pre acc)
    (hb : b < 256) (hnone : acc.findIdx? (fun n => n.ch == toChar b) = none) :
    b ∉ pre ∧ SymInv (pre ++ [b]) (acc ++ [.mk (toChar b) ((0 + 1) % UINT_MOD) .null .null]) := by
  obtain ⟨hnd, hmem, hfreq, hord⟩ := hI
  have hne : ∀ n ∈ acc, toByte n.ch ≠ b := by
    intro n hn he
    have h1 := List.findIdx?_eq_none_iff.mp hnone n hn
    have h2 : n.ch = toChar (toByte n.ch) := by
      have := hfreq n hn
      exact congrArg Node.ch this
    rw [he] at h2
    simp [h2] at h1
  have hbpre : b ∉ pre := by
    intro hin
    obtain ⟨n, hn, he⟩ := List.mem_map.mp ((hmem b).mpr hin)
    exact hne n hn he
  have hnew : toByte (Node.mk (toChar b) ((0 + 1) % UINT_MOD) .null .null).ch = b := by
    simp only [Node.ch]; exact toByte_toChar b hb
  refine ⟨hbpre, ?_, ?_, ?_, ?_⟩
  · rw [List.map_append, List.map_singleton, hnew]
    apply List.Nodup.append hnd (List.nodup_singleton b)
    intro x hx hx2
    rw [List.mem_singleton] at hx2
    exact hbpre (hx2 ▸ (hmem x).mp hx)
  · intro x
    rw [List.map_append, List.map_singleton, hnew, List.mem_append, List.mem_append, hmem x]
  · intro n hn
    rw [List.mem_append, List.mem_singleton] at hn
    rcases hn with hn | hn
    · have := hfreq n hn
      rw [List.count_append, List.count_singleton]
      simpa [Ne.symm (hne n hn)] using this
    · rw [hn]
      simp only [Node.ch]
      rw [toByte_toChar b hb, List.count_append, List.count_singleton_self,
        List.count_eq_zero.mpr hbpre]
  · rw [List.map_append, List.map_singleton, hnew, List.pairwise_append]
    refine ⟨?_, List.pairwise_singleton _ _, ?_⟩
    · have : acc.map (fun n => (pre ++ [b]).indexOf (toByte n.ch)) =
          acc.map (fun n => pre.indexOf (toByte n.ch)) := by
        apply List.map_congr_left
        intro n hn
        exact List.indexOf_append_of_mem ((hmem _).mp (List.mem_map.mpr ⟨n, hn, rfl⟩))
      rw [this]
      exact hord
    · intro i hi j hj
      rw [List.mem_singleton] at hj
      obtain ⟨n, hn, rfl⟩ := List.mem_map.mp hi
      have hin : toByte n.ch ∈ pre := (hmem _).mp (List.mem_map.mpr ⟨n, hn, rfl⟩)
      rw [hj, List.indexOf_append_of_mem hin, List.indexOf_append_of_not_mem hbpre]
      have := List.indexOf_lt_length.mpr hin
      omega

theorem SymInv_length {pre : List Nat} {acc : List Node} (hI : SymInv pre acc) :
    acc.length = pre.dedup.length := by
  have hp : (acc.map (fun n => toByte n.ch)).Perm pre.dedup :=
    (List.perm_ext_iff_of_nodup hI.1 (List.nodup_dedup pre)).mpr
      (fun b => by rw [hI.2.1 b, List.mem_dedup])
  simpa using hp.length_eq

theorem dedup_length_le_of_subset {l1 l2 : List Nat} (h : l1 ⊆ l2) :
    l1.dedup.length ≤ l2.dedup.length :=
  ((List.nodup_dedup l1).subperm (fun _ hx =>
    List.mem_dedup.mpr (h (List.mem_dedup.mp hx)))).length_le

/-- The loop of `readFile` keeps the symbol table in step with the bytes read. -/
theorem readFile_inv : ∀ (rest pre : List Nat) (acc : List Node), SymInv pre acc →
    (∀ b ∈ rest, b < 256 ∧ b ≠ 255) → (pre ++ rest).dedup.length ≤ NUM_ALPHABETS →
    ∃ node, readFile rest acc = some node ∧ SymInv (pre ++ rest) node
  | [], pre, acc, hI, _, _ => ⟨acc, rfl, by simpa using hI⟩
  | b :: rest, pre, acc, hI, hb, hlen => by
    have hb1 := hb b (List.mem_cons_self _ _)
    have hrest : ∀ x ∈ rest, x < 256 ∧ x ≠ 255 := fun x hx => hb x (List.mem_cons_of_mem _ hx)
    have hassoc : pre ++ b :: rest = (pre ++ [b]) ++ rest := by simp
    rw [readFile]
    simp only [if_neg (toChar_ne_EOF b hb1.1 hb1.2)]
    cases hidx : acc.findIdx? (fun n => n.ch == toChar b) with
    | some idx =>
      obtain ⟨node, e1, e2⟩ := readFile_inv rest (pre ++ [b]) _ (SymInv_found hI hb1.1 hidx)
        hrest (by rw [← hassoc]; exact hlen)
      exact ⟨node, e1, by rw [hassoc]; exact e2⟩
    | none =>
      obtain ⟨hnot, hI1⟩ := SymInv_new hI hb1.1 hidx
      have hcap : acc.length < NUM_ALPHABETS := by
        have h1 := SymInv_length hI1
        have h2 : (pre ++ [b]).dedup.length ≤ (pre ++ b :: rest).dedup.length :=
          dedup_length_le_of_subset (by rw [hassoc]; exact List.subset_append_left _ _)
        rw [List.length_append, List.length_singleton] at h1
        omega
      obtain ⟨node, e1, e2⟩ := readFile_inv rest (pre ++ [b]) _ hI1 hrest
        (by rw [← hassoc]; exact hlen)
      simp only [if_pos hcap]
      exact ⟨node, e1, by rw [hassoc]; exact e2⟩

theorem SymInv_nil : SymInv [] [] := by
  refine ⟨by simp, by simp, by simp, by simp⟩

/-- Every entry of the symbol table is a childless node whose character is not `EOF`,
whatever the file. -/
theorem readFile_leaves : ∀ (file : List Nat) (acc node : List Node),
    (∀ n ∈ acc, ∃ c f, n = .mk c f .null .null ∧ c ≠ EOF) → readFile file acc = some node →
    ∀ n ∈ node, ∃ c f, n = .mk c f .null .null ∧ c ≠ EOF
  | [], acc, node, hacc, h => by
    rw [readFile] at h
    cases h
    exact hacc
  | b :: rest, acc, node, hacc, h => by
    rw [readFile] at h
    by_cases he : toChar b = EOF
    · simp only [he, if_true] at h
      cases h
      exact hacc
    · simp only [if_neg he] at h
      cases hidx : acc.findIdx? (fun n => n.ch == toChar b) with
      | some idx =>
        simp only [hidx] at h
        refine readFile_leaves rest _ node ?_ h
        intro n hn
        obtain ⟨hlt, -, -⟩ := List.findIdx?_eq_some_iff_getElem.mp hidx
        rw [List.modify_eq_take_cons_drop hlt, List.mem_append, List.mem_cons] at hn
        rcases hn with hn | hn | hn
        · exact hacc n (List.mem_of_mem_take hn)
        · obtain ⟨c, f, e, hc⟩ := hacc acc[idx] (List.getElem_mem hlt)
          rw [hn, e]
          exact ⟨c, (f + 1) % UINT_MOD, by simp [Node.ch, Node.freq, Node.left_node, Node.right_node], hc⟩
        · exact hacc n (List.mem_of_mem_drop hn)
      | none =>
        simp only [hidx] at h
        by_cases hcap : acc.length < NUM_ALPHABETS
        · simp only [if_pos hcap] at h
          refine readFile_leaves rest _ node ?_ h
          intro n hn
          rw [List.mem_append, List.mem_singleton] at hn
          rcases hn with hn | hn
          · exact hacc n hn
          · exact ⟨_, _, hn, he⟩
        · simp [hcap] at h

/-! ## Paths in the tree and code assignment -/

theorem sub_null (p : List Int) : Node.sub .null p = .null := by
  cases p <;> rfl

theorem sub_append : ∀ (t : Node) (p q : List Int), t.sub (p ++ q) = (t.sub p).sub q
  | t, [], q => by simp [Node.sub]
  | .null, b :: p, q => by simp [Node.sub, sub_null]
  | .mk c f l r, b :: p, q => by
    simp only [List.cons_append, Node.sub]
    split
    · exact sub_append l p q
    · exact sub_append r p q

theorem shape_sub : ∀ (t : Node) (p : List Int), (t.sub p).shape = t.shape.sub p
  | t, [] => by simp [Node.sub]
  | .null, b :: p => by simp [Node.sub, Node.shape]
  | .mk c f l r, b :: p => by
    simp only [Node.sub, Node.shape]
    split
    · exact shape_sub l p
    · exact shape_sub r p

theorem isLeaf_shape (t : Node) : IsLeaf t.shape ↔ IsLeaf t := by
  cases t with
  | null => simp [Node.shape, IsLeaf]
  | mk c f l r =>
    cases l <;> cases r <;> simp [Node.shape, IsLeaf]

theorem isLeaf_sub_of_shape {t t1 : Node} (h : t1.shape = t.shape) (p : List Int) :
    IsLeaf (t1.sub p) ↔ IsLeaf (t.sub p) := by
  rw [← isLeaf_shape, shape_sub, h, ← shape_sub, isLeaf_shape]

theorem isLeaf_iff (t : Node) : IsLeaf t ↔ ∃ c f, t = .mk c f .null .null := by
  cases t with
  | null => simp [IsLeaf]
  | mk c f l r => cases l <;> cases r <;> simp [IsLeaf]

/-- Two leaves of a tree: the path of one does not continue to the other. -/
theorem leaf_path_append {t : Node} {p q : List Int} (hp : IsLeaf (t.sub p))
    (hq : IsLeaf (t.sub (p ++ q))) : q = [] := by
  rw [sub_append] at hq
  obtain ⟨c, f, e⟩ := (isLeaf_iff _).mp hp
  rw [e] at hq
  cases q with
  | nil => rfl
  | cons b q =>
    exfalso
    simp only [Node.sub] at hq
    split at hq <;> simp [sub_null, IsLeaf] at hq

theorem TreeInv_leaf_ch : ∀ (t : Node) (p : List Int), TreeInv t → IsLeaf (t.sub p) →
    (t.sub p).ch ≠ EOF
  | .null, p, h, _ => by simp [TreeInv] at h
  | .mk c f l r, [], h, hl => by
    obtain ⟨c1, f1, e⟩ := (isLeaf_iff _).mp hl
    simp only [Node.sub] at e ⊢
    cases e
    simp only [TreeInv] at h
    rcases h with h | h
    · exact h.2.2
    · simp [TreeInv] at h
  | .mk c f l r, b :: p, h, hl => by
    simp only [TreeInv] at h
    rcases h with h | h
    · exfalso
      rw [h.1, h.2.1] at hl
      simp only [Node.sub] at hl
      split at hl <;> simp [sub_null, IsLeaf] at hl
    · simp only [Node.sub] at hl ⊢
      split
      · rename_i hb
        rw [if_pos hb] at hl
        exact TreeInv_leaf_ch l p h.2.1 hl
      · rename_i hb
        rw [if_neg hb] at hl
        exact TreeInv_leaf_ch r p h.2.2 hl

theorem take_set_succ (code : List Int) (top : Nat) (v : Int) (h : top < code.length) :
    (code.set top v).take (top + 1) = code.take top ++ [v] := by
  rw [List.take_succ, List.set_take, List.set_eq_of_length_le (by simp),
    List.getElem?_set_self h]
  rfl

theorem TreeInv_children {c : Int} {f : Nat} {l r : Node} (h : TreeInv (.mk c f l r))
    (hc : l ≠ .null ∨ r ≠ .null) : (c = 36 ∨ c = 0) ∧ TreeInv l ∧ TreeInv r := by
  simp only [TreeInv] at h
  rcases h with h | h
  · rcases hc with hc | hc
    · exact absurd h.1 hc
    · exact absurd h.2.1 hc
  · exact h

/-- What one call of `findCharCode` does on a tree of the shape `TreeInv`: the shape stays,
cleared nodes stay cleared, and when a character is recorded it is the character of a leaf,
reached by the path written into the code buffer, and that leaf is cleared. -/
theorem findCharCode_spec : ∀ (t : Node) (arr0 : CharCode) (top : Nat) (t1 : Node)
    (arr1 : CharCode), TreeInv t → top ≤ 64 →
    (top ≠ 0 → arr0.ch = 0 ∧ arr0.code.length = 64) →
    findCharCode t arr0 top = some (t1, arr1) →
    TreeInv t1 ∧ t1.shape = t.shape ∧ (∀ q, (t.sub q).ch = 0 → (t1.sub q).ch = 0) ∧
    arr1.code.length = 64 ∧
    (arr1.ch ≠ 0 → ∃ p, arr1.codeLen = top + p.length ∧ top + p.length ≤ 64 ∧
      arr1.code.take (top + p.length) = arr0.code.take top ++ p ∧
      (∀ b ∈ p, b = 0 ∨ b = 1) ∧ IsLeaf (t.sub p) ∧ (t.sub p).ch = arr1.ch ∧
      (t1.sub p).ch = 0)
  | .null, arr0, top, t1, arr1, hT, _, _, _ => by simp [TreeInv] at hT
  | .mk ch freq l r, arr0, top, t1, arr1, hT, htop, harr, h => by
    rw [findCharCode] at h
    simp only [] at h
    have hA : ∃ arr, (if top = 0 then { mallocCharCode with ch := 0 } else arr0) = arr ∧
        arr.ch = 0 ∧ arr.code.length = 64 ∧ arr.code.take top = arr0.code.take top := by
      by_cases h0 : top = 0
      · exact ⟨_, rfl, by simp [h0], by simp [h0, mallocCharCode], by simp [h0]⟩
      · exact ⟨_, rfl, by simp [h0, (harr h0).1], by simp [h0, (harr h0).2], by simp [h0]⟩
    obtain ⟨arr, hAe, hA1, hA2, hA3⟩ := hA
    rw [hAe] at h
    by_cases hL : l ≠ .null ∧ l.ch > 9
    · rw [if_pos hL] at h
      obtain ⟨hc, hTl, hTr⟩ := TreeInv_children hT (Or.inl hL.1)
      by_cases ht : top < 64
      · rw [if_pos ht] at h
        cases hrec : findCharCode l { arr with code := arr.code.set top 0 } (top + 1) with
        | none => rw [hrec] at h; simp at h
        | some pr =>
          obtain ⟨l1, a1⟩ := pr
          rw [hrec] at h
          simp only [Option.some.injEq, Prod.mk.injEq] at h
          obtain ⟨rfl, rfl⟩ := h
          obtain ⟨i1, i2, i3, i4, i5⟩ := findCharCode_spec l { arr with code := arr.code.set top 0 } (top + 1) l1 a1 hTl (by omega)
            (fun _ => ⟨hA1, by simp [hA2]⟩) hrec
          refine ⟨?_, by simp [Node.shape, i2], ?_, i4, ?_⟩
          · simp only [TreeInv]; exact Or.inr ⟨hc, i1, hTr⟩
          · intro q hq
            cases q with
            | nil => exact hq
            | cons b q =>
              simp only [Node.sub] at hq ⊢
              split
              · rename_i hb; rw [if_pos hb] at hq; exact i3 q hq
              · rename_i hb; rw [if_neg hb] at hq; exact hq
          · intro hne
            obtain ⟨p, j1, j2, j3, j4, j5, j6, j7⟩ := i5 hne
            refine ⟨0 :: p, by simp; omega, by simp; omega, ?_, ?_, by simpa [Node.sub] using j5,
              by simpa [Node.sub] using j6, by simpa [Node.sub] using j7⟩
            · have e : top + (0 :: p).length = top + 1 + p.length := by simp; omega
              rw [e, j3]
              show (arr.code.set top 0).take (top + 1) ++ p = _
              rw [take_set_succ _ _ _ (by omega), hA3]
              simp
            · intro b hb
              rcases List.mem_cons.mp hb with hb | hb
              · exact Or.inl hb
              · exact j4 b hb
      · rw [if_neg ht] at h; simp at h
    · rw [if_neg hL] at h
      by_cases hR : r ≠ .null ∧ r.ch > 9
      · rw [if_pos hR] at h
        obtain ⟨hc, hTl, hTr⟩ := TreeInv_children hT (Or.inr hR.1)
        by_cases ht : top < 64
        · rw [if_pos ht] at h
          cases hrec : findCharCode r { arr with code := arr.code.set top 1 } (top + 1) with
          | none => rw [hrec] at h; simp at h
          | some pr =>
            obtain ⟨r1, a1⟩ := pr
            rw [hrec] at h
            simp only [Option.some.injEq, Prod.mk.injEq] at h
            obtain ⟨rfl, rfl⟩ := h
            obtain ⟨i1, i2, i3, i4, i5⟩ := findCharCode_spec r { arr with code := arr.code.set top 1 } (top + 1) r1 a1 hTr (by omega)
              (fun _ => ⟨hA1, by simp [hA2]⟩) hrec
            refine ⟨?_, by simp [Node.shape, i2], ?_, i4, ?_⟩
            · simp only [TreeInv]; exact Or.inr ⟨hc, hTl, i1⟩
            · intro q hq
              cases q with
              | nil => exact hq
              | cons b q =>
                simp only [Node.sub] at hq ⊢
                split
                · rename_i hb; rw [if_pos hb] at hq; exact hq
                · rename_i hb; rw [if_neg hb] at hq; exact i3 q hq
            · intro hne
              obtain ⟨p, j1, j2, j3, j4, j5, j6, j7⟩ := i5 hne
              refine ⟨1 :: p, by simp; omega, by simp; omega, ?_, ?_,
                by simpa [Node.sub] using j5, by simpa [Node.sub] using j6,
                by simpa [Node.sub] using j7⟩
              · have e : top + (1 :: p).length = top + 1 + p.length := by simp; omega
                rw [e, j3]
                show (arr.code.set top 1).take (top + 1) ++ p = _
                rw [take_set_succ _ _ _ (by omega), hA3]
                simp
              · intro b hb
                rcases List.mem_cons.mp hb with hb | hb
                · exact Or.inr hb
                · exact j4 b hb
        · rw [if_neg ht] at h; simp at h
      · rw [if_neg hR] at h
        simp only [Option.some.injEq, Prod.mk.injEq] at h
        obtain ⟨rfl, rfl⟩ := h
        refine ⟨?_, by simp [Node.shape], ?_, ?_, ?_⟩
        · rw [TreeInv] at hT ⊢
          rcases hT with hT | hT
          · exact Or.inl ⟨hT.1, hT.2.1, by simp [EOF]⟩
          · exact Or.inr ⟨Or.inr rfl, hT.2⟩
        · intro q hq
          cases q with
          | nil => simp [Node.sub, Node.ch]
          | cons b q => simpa [Node.sub] using hq
        · split <;> simp [hA2]
        · intro hne
          by_cases h36 : ch = 36
          · simp [h36, hA1] at hne
          · simp only [h36, ne_eq, not_false_eq_true, if_true] at hne ⊢
            refine ⟨[], by simp, by simpa using htop, by simp [hA3], by simp, ?_,
              by simp [Node.sub, Node.ch], by simp [Node.sub, Node.ch]⟩
            simp only [Node.sub]
            simp only [TreeInv] at hT
            rcases hT with hT | hT
            · rw [hT.1, hT.2.1]; trivial
            · rcases hT.1 with hc | hc
              · exact absurd hc h36
              · exact absurd hc hne

theorem assignStep_inv {s s1 : AssignState} (hI : AssignInv s) (h : assignStep s = some s1) :
    AssignInv s1 ∧ s1.root.shape = s.root.shape ∧
      (s1.table = s.table ∨ ∃ e, s1.table = s.table ++ [e]) := by
  obtain ⟨hT, hE, hJ⟩ := hI
  unfold assignStep at h
  cases hf : findCharCode s.root mallocCharCode 0 with
  | none => rw [hf] at h; simp at h
  | some pr =>
    obtain ⟨root1, e⟩ := pr
    rw [hf] at h
    simp only [] at h
    obtain ⟨i1, i2, i3, i4, i5⟩ := findCharCode_spec s.root mallocCharCode 0 root1 e hT
      (by omega) (fun h0 => absurd rfl h0) hf
    have hold : ∀ a ∈ s.table, a.code.length = 64 ∧ a.codeLen ≤ 64 ∧
        (∀ b ∈ a.bits, b = 0 ∨ b = 1) ∧ a.ch ≠ 0 ∧ a.ch ≠ EOF ∧ IsLeaf (root1.sub a.bits) ∧
        (root1.sub a.bits).ch = 0 := by
      intro a ha
      obtain ⟨a1, a2, a3, a4, a5, a6, a7⟩ := hE a ha
      exact ⟨a1, a2, a3, a4, a5, (isLeaf_sub_of_shape i2 _).mpr a6, i3 _ a7⟩
    by_cases hne : e.ch ≠ 0
    · rw [if_pos hne] at h
      simp only [Option.some.injEq] at h
      subst h
      obtain ⟨p, j1, j2, j3, j4, j5, j6, j7⟩ := i5 hne
      have hbits : e.bits = p := by
        unfold CharCode.bits
        rw [j1, j3]
        simp
      refine ⟨⟨i1, ?_, ?_⟩, i2, Or.inr ⟨e, rfl⟩⟩
      · intro a ha
        rcases List.mem_append.mp ha with ha | ha
        · exact hold a ha
        · rw [List.mem_singleton] at ha
          subst ha
          rw [hbits]
          refine ⟨i4, by omega, j4, hne, ?_, (isLeaf_sub_of_shape i2 _).mpr j5, j7⟩
          rw [← j6]
          exact TreeInv_leaf_ch s.root p hT j5
      · have hnew : ∀ a ∈ s.table, a.bits ≠ e.bits := by
          intro a ha he
          have := (hE a ha).2.2.2.2.2.2
          rw [he, hbits, j6] at this
          exact hne this
        intro a ha0 b hb0 hab
        rcases List.mem_append.mp ha0 with ha | ha <;> rcases List.mem_append.mp hb0 with hb | hb
        · exact hJ a ha b hb hab
        · rw [List.mem_singleton] at hb
          rw [hb] at hab
          exact absurd hab (hnew a ha)
        · rw [List.mem_singleton] at ha
          rw [ha] at hab
          exact absurd hab.symm (hnew b hb)
        · rw [List.mem_singleton] at ha hb
          rw [ha, hb]
    · rw [if_neg hne] at h
      simp only [Option.some.injEq] at h
      subst h
      exact ⟨⟨i1, hold, hJ⟩, i2, Or.inl rfl⟩

theorem assignLoop_inv : ∀ (fuel size : Nat) (s s1 : AssignState), AssignInv s →
    s.table.length ≤ size → assignLoop fuel size s = some s1 →
    AssignInv s1 ∧ s1.table.length = size
  | 0, size, s, s1, hI, hlen, h => by
    rw [assignLoop] at h
    by_cases hc : s.table.length < size
    · simp [hc] at h
    · simp only [hc, if_false, Option.some.injEq] at h
      subst h
      exact ⟨hI, by omega⟩
  | fuel + 1, size, s, s1, hI, hlen, h => by
    rw [assignLoop] at h
    by_cases hc : s.table.length < size
    · rw [if_pos hc] at h
      cases hs : assignStep s with
      | none => rw [hs] at h; simp at h
      | some s2 =>
        rw [hs] at h
        obtain ⟨hI2, _, hgrow⟩ := assignStep_inv hI hs
        refine assignLoop_inv fuel size s2 s1 hI2 ?_ h
        rcases hgrow with e | ⟨e, he⟩
        · rw [e]; omega
        · rw [he]; simp; omega
    · simp only [hc, if_false, Option.some.injEq] at h
      subst h
      exact ⟨hI, by omega⟩

/-- More fuel does not change the result of the assignment loop. -/
theorem assignLoop_mono : ∀ (fuel k size : Nat) (s s1 : AssignState),
    assignLoop fuel size s = some s1 → assignLoop (fuel + k) size s = some s1
  | 0, k, size, s, s1, h => by
    rw [assignLoop] at h
    by_cases hc : s.table.length < size
    · simp [hc] at h
    · cases k with
      | zero => simpa [assignLoop, hc] using h
      | succ k => rw [Nat.zero_add, assignLoop, if_neg hc]; simpa [hc] using h
  | fuel + 1, k, size, s, s1, h => by
    rw [assignLoop] at h
    rw [show fuel + 1 + k = (fuel + k) + 1 by omega, assignLoop]
    by_cases hc : s.table.length < size
    · rw [if_pos hc] at h ⊢
      cases hs : assignStep s with
      | none => rw [hs] at h; simp at h
      | some s2 =>
        rw [hs] at h
        exact assignLoop_mono fuel k size s2 s1 h
    · rw [if_neg hc] at h ⊢
      exact h

theorem readFile_length : ∀ (file : List Nat) (acc node : List Node),
    acc.length ≤ NUM_ALPHABETS → readFile file acc = some node → node.length ≤ NUM_ALPHABETS
  | [], acc, node, hacc, h => by
    rw [readFile] at h
    cases h
    exact hacc
  | b :: rest, acc, node, hacc, h => by
    rw [readFile] at h
    by_cases he : toChar b = EOF
    · simp only [he, if_true] at h
      cases h
      exact hacc
    · simp only [if_neg he] at h
      cases hidx : acc.findIdx? (fun n => n.ch == toChar b) with
      | some idx =>
        simp only [hidx] at h
        exact readFile_length rest _ node (by simpa using hacc) h
      | none =>
        simp only [hidx] at h
        by_cases hcap : acc.length < NUM_ALPHABETS
        · simp only [if_pos hcap] at h
          exact readFile_length rest _ node (by simp; omega) h
        · simp [hcap] at h

/-- The heapify pass of `main` on a symbol table of fewer than two entries starts at index
2147483647, where `minHeapify` computes child indices that do not fit an `int`. -/
theorem main_buildHeap_small (node : List Node) (h : node.length < 2) :
    main_buildHeap node = none := by
  unfold main_buildHeap
  have hs : heapifyStart node.length = 2147483646 + 1 := by
    unfold heapifyStart UINT_MOD
    rw [if_neg (by omega)]
    omega
  simp only [hs]
  rw [heapifyPass]
  have : minHeapify (createMinHeap_unsorted node node.length) (2147483646 + 1) = none := by
    unfold minHeapify
    rw [minHeapifyAux]
    rw [if_pos (by unfold INT_MAX; omega)]
  rw [this]

theorem TreeInv_of_leaf {n : Node} (h : ∃ c f, n = .mk c f .null .null ∧ c ≠ EOF) :
    TreeInv n := by
  obtain ⟨c, f, rfl, hc⟩ := h
  rw [TreeInv]
  exact Or.inl ⟨rfl, rfl, hc⟩

theorem TreeInv_ne_null {n : Node} (h : TreeInv n) : n ≠ .null := by
  intro e
  rw [e, TreeInv] at h
  exact h

/-- The tree that the build loop leaves for a symbol table read by `readFile`. -/
theorem main_buildHeap_tree (file : List Nat) (node : List Node)
    (hr : readFile file [] = some node) (h2 : 2 ≤ node.length) :
    ∃ h root, main_buildHeap node = some h ∧ h.size = 1 ∧ h.arr[0]? = some root ∧
      TreeInv root := by
  have hleaf := readFile_leaves file [] node (by simp) hr
  have hT : ∀ n ∈ node, TreeInv n := fun n hn => TreeInv_of_leaf (hleaf n hn)
  obtain ⟨h, root, e1, e2, e3, _, e5⟩ := main_buildHeap_spec (fun l => ∀ n ∈ l, TreeInv n)
    (fun a b hp ha n hn => ha n (hp.symm.subset hn))
    (fun l r rest ha n hn => by
      rcases List.mem_cons.mp hn with hn | hn
      · rw [hn, TreeInv]
        exact Or.inr ⟨Or.inl rfl, ha l (by simp), ha r (by simp)⟩
      · exact ha n (by simp [hn]))
    node (fun n hn => TreeInv_ne_null (hT n hn)) h2
    (readFile_length file [] node (by simp) hr) hT
  exact ⟨h, root, e1, e2, e3, e5 root (by simp)⟩

/-- Every code table that the compression path produces satisfies `AssignInv` with the tree
the assignment loop ends with, and has one entry per entry of the symbol table. -/
theorem main_codeTable_inv (fuel : Nat) (file : List Nat) (node : List Node)
    (table : List CharCode) (hr : readFile file [] = some node)
    (ht : main_codeTable fuel node = some table) :
    ∃ root, AssignInv { root := root, table := table } ∧ table.length = node.length ∧
      2 ≤ node.length := by
  have h2 : 2 ≤ node.length := by
    by_contra hlt
    rw [main_codeTable, main_buildHeap_small node (by omega)] at ht
    simp at ht
  obtain ⟨h, root, e1, _, e3, e4⟩ := main_buildHeap_tree file node hr h2
  rw [main_codeTable, e1] at ht
  simp only [e3] at ht
  cases hs : assignLoop fuel node.length { root := root, table := [] } with
  | none => rw [hs] at ht; simp at ht
  | some s =>
    rw [hs] at ht
    simp only [Option.some.injEq] at ht
    obtain ⟨hI, hlen⟩ := assignLoop_inv fuel node.length _ s
      ⟨e4, by simp, by simp⟩ (by simp) hs
    subst ht
    exact ⟨s.root, hI, hlen, h2⟩

theorem AssignInv_prefix_free {s : AssignState} (hI : AssignInv s) :
    ∀ a ∈ s.table, ∀ b ∈ s.table, a.ch ≠ b.ch → ¬ a.bits <+: b.bits := by
  intro a ha b hb hne hpre
  obtain ⟨q, hq⟩ := hpre
  have hla := (hI.2.1 a ha).2.2.2.2.2.1
  have hlb := (hI.2.1 b hb).2.2.2.2.2.1
  rw [← hq] at hlb
  have := leaf_path_append hla hlb
  rw [this, List.append_nil] at hq
  exact hne (congrArg CharCode.ch (hI.2.2 a ha b hb hq))

/-! ## Packing bits into bytes -/

theorem bitsVal_append_singleton (l : List Int) (b : Int) :
    bitsVal (l ++ [b]) = 2 * bitsVal l + b := by
  simp [bitsVal, List.foldl_append]

theorem bitsVal_bound (l : List Int) : (∀ b ∈ l, b = 0 ∨ b = 1) →
    0 ≤ bitsVal l ∧ bitsVal l < 2 ^ l.length := by
  induction l using List.reverseRecOn with
  | nil => intro _; simp [bitsVal]
  | append_singleton l a ih =>
    intro h
    have h1 := ih (fun b hb => h b (List.mem_append_left _ hb))
    have ha := h a (by simp)
    rw [bitsVal_append_singleton, List.length_append, List.length_singleton, pow_succ]
    rcases ha with ha | ha <;> subst ha <;> constructor <;> omega

theorem nat_lor_bit : ∀ n < 64, ∀ b < 2, (2 * n) ||| b = 2 * n + b := by decide

theorem lor_bit (x b : Int) (h0 : 0 ≤ x) (h1 : x < 64) (hb : b = 0 ∨ b = 1) :
    toChar (Int.lor (toChar (x * 2)) b) = 2 * x + b := by
  obtain ⟨n, rfl⟩ := Int.eq_ofNat_of_zero_le h0
  have hn : n < 64 := by omega
  have e1 : toChar ((n : Int) * 2) = ((2 * n : Nat) : Int) := by
    unfold toChar; omega
  rw [e1]
  rcases hb with hb | hb <;> subst hb
  · have : Int.lor ((2 * n : Nat) : Int) 0 = (((2 * n) ||| 0 : Nat) : Int) := rfl
    rw [this, nat_lor_bit n hn 0 (by omega)]
    unfold toChar; omega
  · have : Int.lor ((2 * n : Nat) : Int) 1 = (((2 * n) ||| 1 : Nat) : Int) := rfl
    rw [this, nat_lor_bit n hn 1 (by omega)]
    unfold toChar; omega

theorem chunk_append {bs : List Int} {b : Int} {i : Nat} (h : 7 * i + 7 ≤ bs.length) :
    ((bs ++ [b]).drop (7 * i)).take 7 = (bs.drop (7 * i)).take 7 := by
  rw [List.drop_append_of_le_length (by omega), List.take_append_of_le_length (by simp; omega)]

theorem packBit_inv {out0 : List Nat} {bs : List Int} {s : PackState} {b : Int}
    (hI : PackInv out0 bs s) (hbs : ∀ x ∈ bs, x = 0 ∨ x = 1) (hb : b = 0 ∨ b = 1) :
    PackInv out0 (bs ++ [b]) (packBit s b) := by
  obtain ⟨h1, h2, h3⟩ := hI
  have hdiv := Nat.div_add_mod bs.length 7
  have hmod := Nat.mod_lt bs.length (show 0 < 7 by omega)
  have hpl : (bs.drop (7 * (bs.length / 7))).length = bs.length % 7 := by
    rw [List.length_drop]; omega
  have hbound := bitsVal_bound (bs.drop (7 * (bs.length / 7)))
    (fun x hx => hbs x (List.mem_of_mem_drop hx))
  rw [hpl] at hbound
  have hlt64 : s.byte < 64 := by
    rw [h2]
    have : (2 : Int) ^ (bs.length % 7) ≤ 2 ^ 6 := pow_le_pow_right₀ (by omega) (by omega)
    omega
  have hbyte : toChar (Int.lor (toChar (s.byte * 2)) b) =
      bitsVal (bs.drop (7 * (bs.length / 7)) ++ [b]) := by
    rw [lor_bit s.byte b (by rw [h2]; exact hbound.1) hlt64 hb, bitsVal_append_singleton, h2]
  have hmap : ∀ m, m ≤ bs.length / 7 →
      (List.range m).map (fun i => toByte (bitsVal (((bs ++ [b]).drop (7 * i)).take 7))) =
      (List.range m).map (fun i => toByte (bitsVal ((bs.drop (7 * i)).take 7))) := by
    intro m hm
    apply List.map_congr_left
    intro i hi
    rw [List.mem_range] at hi
    rw [chunk_append (by omega)]
  have hdrop : (bs ++ [b]).drop (7 * (bs.length / 7)) = bs.drop (7 * (bs.length / 7)) ++ [b] :=
    List.drop_append_of_le_length (by omega)
  unfold packBit
  simp only [hbyte]
  by_cases hfull : s.compressedBits + 1 = 7
  · rw [if_pos hfull]
    have hq : (bs ++ [b]).length / 7 = bs.length / 7 + 1 := by
      rw [List.length_append, List.length_singleton]; omega
    refine ⟨by simp; omega, ?_, ?_⟩
    · show (0 : Int) = _
      rw [List.drop_of_length_le (by rw [hq]; simp; omega)]
      rfl
    · show s.out ++ _ = _
      rw [hq, List.range_succ, List.map_append, hmap _ (le_refl _), h3, List.append_assoc]
      congr 2
      simp only [List.map_singleton]
      rw [hdrop, List.take_of_length_le (by simp; omega)]
  · rw [if_neg hfull]
    have hq : (bs ++ [b]).length / 7 = bs.length / 7 := by
      rw [List.length_append, List.length_singleton]; omega
    refine ⟨by simp; omega, ?_, ?_⟩
    · show bitsVal _ = _
      rw [hq, hdrop]
    · show s.out = _
      rw [hq, hmap _ (le_refl _), h3]

theorem foldl_packBit_inv (out0 : List Nat) (bs : List Int) (hbs : ∀ x ∈ bs, x = 0 ∨ x = 1) :
    PackInv out0 bs (bs.foldl packBit { byte := 0, compressedBits := 0, out := out0 }) := by
  induction bs using List.reverseRecOn with
  | nil => exact ⟨rfl, rfl, by simp⟩
  | append_singleton l a ih =>
    rw [List.foldl_append]
    exact packBit_inv (ih (fun x hx => hbs x (List.mem_append_left _ hx)))
      (fun x hx => hbs x (List.mem_append_left _ hx)) (hbs a (by simp))

theorem codeOf_bits {arr : List CharCode} (hT : TableOK arr) (b : Nat) :
    ∀ x ∈ codeOf arr b, x = 0 ∨ x = 1 := by
  unfold codeOf
  cases hf : arr.find? (fun e => e.ch == toChar b) with
  | none => simp
  | some e => exact (hT e (List.mem_of_find?_eq_some hf)).2.1

theorem encodeBits_bits {arr : List CharCode} (hT : TableOK arr) (input : List Nat) :
    ∀ x ∈ encodeBits arr input, x = 0 ∨ x = 1 := by
  intro x hx
  unfold encodeBits at hx
  rw [List.mem_flatten] at hx
  obtain ⟨l, hl, hxl⟩ := hx
  obtain ⟨b, _, rfl⟩ := List.mem_map.mp hl
  exact codeOf_bits hT b x hxl

theorem encodeBits_cons (arr : List CharCode) (b : Nat) (rest : List Nat) :
    encodeBits arr (b :: rest) = codeOf arr b ++ encodeBits arr rest := by
  simp [encodeBits]

/-- The outer loop of `compressFile` packs the codes of the input bytes one after the
other, when the table has an entry for each of them. -/
theorem compressLoop_spec : ∀ (input : List Nat) (arr : List CharCode) (s : PackState),
    TableOK arr → (∀ b ∈ input, ∃ e ∈ arr, e.ch = toChar b) →
    compressLoop input arr s = some ((encodeBits arr input).foldl packBit s)
  | [], arr, s, _, _ => by simp [compressLoop, encodeBits]
  | b :: rest, arr, s, hT, hcov => by
    obtain ⟨e0, he0, hch⟩ := hcov b (List.mem_cons_self _ _)
    have hne : toChar b ≠ EOF := by rw [← hch]; exact (hT e0 he0).2.2
    rw [compressLoop]
    simp only [if_neg hne]
    cases hf : arr.find? (fun e => e.ch == toChar b) with
    | none =>
      have := List.find?_eq_none.mp hf e0 he0
      simp [hch] at this
    | some e =>
      have hmem := List.mem_of_find?_eq_some hf
      simp only [if_pos (hT e hmem).1]
      rw [compressLoop_spec rest arr _ hT (fun x hx => hcov x (List.mem_cons_of_mem _ hx)),
        encodeBits_cons, List.foldl_append]
      simp [codeOf, hf]

theorem fprintf_d_digit : ∀ k : Nat, k < 9 → fprintf_d ((k : Int) + 1) = [49 + k] := by decide

theorem toByte_bitsVal {l : List Int} (hl : ∀ b ∈ l, b = 0 ∨ b = 1) (h7 : l.length ≤ 7) :
    (toByte (bitsVal l) : Int) = bitsVal l ∧ toByte (bitsVal l) < 128 := by
  have hb := bitsVal_bound l hl
  have : (2 : Int) ^ l.length ≤ 2 ^ 7 := pow_le_pow_right₀ (by omega) h7
  unfold toByte
  constructor <;> omega

/-- The file that `compressFile` leaves: the header with its first byte replaced by the
digit of `compressedBits + 1` when bits are left over, then one byte for each full group
of 7 bits, then a byte with the left-over bits shifted to the top of a 7-bit group. -/
theorem compressFile_spec (input output : List Nat) (arr : List CharCode) (hT : TableOK arr)
    (hcov : ∀ b ∈ input, ∃ e ∈ arr, e.ch = toChar b) (hout : output ≠ []) :
    compressFile input output arr = some
      ((if (encodeBits arr input).length % 7 = 0 then output
        else (49 + (encodeBits arr input).length % 7) :: output.tail) ++
       ((List.range ((encodeBits arr input).length / 7)).map
          (fun i => toByte (bitsVal (((encodeBits arr input).drop (7 * i)).take 7))) ++
        (if (encodeBits arr input).length % 7 = 0 then []
         else [toByte (bitsVal ((encodeBits arr input).drop
            (7 * ((encodeBits arr input).length / 7))) *
              2 ^ (7 - (encodeBits arr input).length % 7))]))) := by
  have hbits := encodeBits_bits hT input
  obtain ⟨h1, h2, h3⟩ := foldl_packBit_inv output (encodeBits arr input) hbits
  unfold compressFile
  rw [compressLoop_spec input arr _ hT hcov]
  generalize encodeBits arr input = bits at *
  generalize List.foldl packBit { byte := 0, compressedBits := 0, out := output } bits = s at *
  simp only []
  have hpl : (bits.drop (7 * (bits.length / 7))).length = bits.length % 7 := by
    rw [List.length_drop]
    have := Nat.div_add_mod bits.length 7
    omega
  have hbound := bitsVal_bound (bits.drop (7 * (bits.length / 7)))
    (fun x hx => hbits x (List.mem_of_mem_drop hx))
  rw [hpl] at hbound
  by_cases hz : bits.length % 7 = 0
  · rw [if_neg (by rw [h1]; simpa using hz), if_pos hz, if_pos hz, h3, List.append_nil]
  · have hk := Nat.mod_lt bits.length (show 0 < 7 by omega)
    rw [if_pos (by rw [h1]; exact hz), if_neg hz, if_neg hz, h1, h2, h3,
      fprintf_d_digit _ (by omega)]
    have hchar : toChar (bitsVal (bits.drop (7 * (bits.length / 7))) *
        2 ^ (7 - bits.length % 7)) =
        bitsVal (bits.drop (7 * (bits.length / 7))) * 2 ^ (7 - bits.length % 7) := by
      generalize bitsVal (bits.drop (7 * (bits.length / 7))) = v at hbound ⊢
      generalize bits.length % 7 = k at hbound hz hk ⊢
      unfold toChar
      interval_cases k <;> simp at hbound ⊢ <;> omega
    rw [hchar]
    cases output with
    | nil => exact absurd rfl hout
    | cons o os => simp [overwrite]

/-! ## The code table in the header -/

theorem flatten_fprintf_d : ∀ (l : List Int), (∀ b ∈ l, b = 0 ∨ b = 1) →
    (l.map fprintf_d).flatten = l.map (fun b => (b + 48).toNat)
  | [], _ => rfl
  | b :: l, h => by
    have ih := flatten_fprintf_d l (fun x hx => h x (List.mem_cons_of_mem _ hx))
    rcases h b (List.mem_cons_self _ _) with hb | hb <;> subst hb <;>
      simp only [List.map_cons, List.flatten_cons, ih] <;> rfl

theorem extractCode_digits (rest : List Nat) : ∀ (ds : List Int) (code : List Int) (j : Nat),
    (∀ b ∈ ds, b = 0 ∨ b = 1) → code.length = 64 → j + ds.length ≤ 64 →
    ∃ code1, extractCode (ds.map (fun b => (b + 48).toNat) ++ 10 :: rest) code j =
        some (code1, j + ds.length, rest) ∧ code1.length = 64 ∧
      code1.take (j + ds.length) = code.take j ++ ds.map (fun b => b + 48)
  | [], code, j, _, hc, _ => by
    refine ⟨code, ?_, hc, by simp⟩
    simp [extractCode, toChar]
  | b :: ds, code, j, hb, hc, hj => by
    have hj1 : j < 64 := by simp at hj; omega
    have hchar : toChar ((b + 48).toNat : Nat) = b + 48 := by
      rcases hb b (List.mem_cons_self _ _) with h | h <;> subst h <;> rfl
    have hne : b + 48 ≠ 10 := by
      rcases hb b (List.mem_cons_self _ _) with h | h <;> subst h <;> decide
    obtain ⟨code1, e1, e2, e3⟩ := extractCode_digits rest ds (code.set j (b + 48)) (j + 1)
      (fun x hx => hb x (List.mem_cons_of_mem _ hx)) (by simpa using hc)
      (by simp at hj; omega)
    refine ⟨code1, ?_, e2, ?_⟩
    · rw [List.map_cons, List.cons_append, extractCode]
      simp only [hchar, if_neg hne, if_pos hj1]
      rw [e1]
      simp; omega
    · have : j + (b :: ds).length = j + 1 + ds.length := by simp; omega
      rw [this, e3, take_set_succ _ _ _ (by omega)]
      simp

/-- Writing a code table with `writeCharCode` and reading the lines back with
`extractCodesFromCompressedFile`, from entry `i` of the array on. -/
theorem write_extract_from (rest : List Nat) : ∀ (arr : List CharCode) (i : Nat),
    (∀ e ∈ arr, EntryOK e) → i + arr.length ≤ NUM_ALPHABETS →
    writeCharCode arr arr.length = some (arr.map codeLine).flatten ∧
    ∃ table, extractCodesFrom arr.length ((arr.map codeLine).flatten ++ rest) i =
        some (table, rest) ∧
      table.map (fun e => (e.ch, e.codeLen, e.bits)) =
        arr.map (fun e => (e.ch, e.codeLen, e.bits.map (fun b => b + 48)))
  | [], i, _, _ => by
    exact ⟨rfl, [], by simp [extractCodesFrom], rfl⟩
  | e :: arr, i, hwf, hi => by
    obtain ⟨w1, w2, w3, w4, w5⟩ := hwf e (List.mem_cons_self _ _)
    obtain ⟨ih1, table, ih2, ih3⟩ := write_extract_from rest arr (i + 1)
      (fun x hx => hwf x (List.mem_cons_of_mem _ hx)) (by simp at hi; omega)
    have hlen : e.bits.length = e.codeLen := by
      unfold CharCode.bits; rw [List.length_take]; omega
    constructor
    · simp only [List.length_cons, writeCharCode]
      rw [if_pos (by omega), ih1]
      simp [codeLine, flatten_fprintf_d e.bits w3]
    · obtain ⟨code1, e1, e2, e3⟩ := extractCode_digits ((arr.map codeLine).flatten ++ rest)
        e.bits mallocCharCode.code 0 w3 (by simp [mallocCharCode]) (by omega)
      refine ⟨{ ch := e.ch, code := code1, codeLen := e.codeLen } :: table, ?_, ?_⟩
      · simp only [List.length_cons, extractCodesFrom]
        rw [if_pos (by simp at hi; omega)]
        simp only [List.map_cons, List.flatten_cons, codeLine, List.cons_append,
          List.tail_cons, List.append_assoc, List.headD_cons, List.nil_append]
        rw [e1]
        simp only [ih2]
        simp [hlen, toChar_toByte e.ch w4 w5]
      · simp only [List.map_cons, ih3, List.cons.injEq, and_true, Prod.mk.injEq, true_and]
        unfold CharCode.bits
        simp only
        have := e3
        rw [Nat.zero_add, hlen] at this
        rw [this]
        simp [CharCode.bits]

/-! ## Frequencies in the tree -/

theorem SymInv_freq_sum {file : List Nat} {node : List Node} (hI : SymInv file node)
    (hlen : file.length < UINT_MOD) : (node.map Node.freq).sum = file.length := by
  obtain ⟨hnd, hmem, hfreq, _⟩ := hI
  have hp : (node.map (fun n => toByte n.ch)).Perm file.dedup :=
    (List.perm_ext_iff_of_nodup hnd (List.nodup_dedup file)).mpr
      (fun b => by rw [hmem b, List.mem_dedup])
  have h1 : node.map Node.freq =
      (node.map (fun n => toByte n.ch)).map (fun b => file.count b) := by
    rw [List.map_map]
    apply List.map_congr_left
    intro n hn
    have e : n.freq = file.count (toByte n.ch) % UINT_MOD := congrArg Node.freq (hfreq n hn)
    rw [Function.comp_apply, e]
    exact Nat.mod_eq_of_lt (lt_of_le_of_lt (List.count_le_length _ _) hlen)
  rw [h1, (hp.map _).sum_eq]
  exact List.sum_map_count_dedup_eq_length file

/-- The tree left by the build loop for the symbol table of a file: sums of frequencies
at the inner nodes, the number of bytes at the root. -/
theorem main_buildHeap_freq (file : List Nat) (node : List Node) (hI : SymInv file node)
    (h2 : 2 ≤ node.length) (h128 : node.length ≤ NUM_ALPHABETS)
    (hlen : file.length < UINT_MOD) :
    ∃ h root, main_buildHeap node = some h ∧ h.size = 1 ∧ h.arr[0]? = some root ∧
      FreqSum root ∧ root.freq = file.length := by
  have hleaf : ∀ n ∈ node, ∃ c f, n = .mk c f .null .null :=
    fun n hn => ⟨_, _, hI.2.2.1 n hn⟩
  obtain ⟨h, root, e1, e2, e3, _, e5⟩ := main_buildHeap_spec
    (fun l => (∀ n ∈ l, FreqSum n) ∧ (l.map Node.freq).sum = file.length)
    (fun a b hp ha => ⟨fun n hn => ha.1 n (hp.symm.subset hn), by
      rw [← ha.2]; exact (hp.symm.map _).sum_eq⟩)
    (fun l r rest ha => by
      have hs := ha.2
      simp only [List.map_cons, List.sum_cons] at hs
      have hmod : (l.freq + r.freq) % UINT_MOD = l.freq + r.freq :=
        Nat.mod_eq_of_lt (by omega)
      refine ⟨?_, ?_⟩
      · intro n hn
        rcases List.mem_cons.mp hn with hn | hn
        · rw [hn, FreqSum]
          exact ⟨fun _ => hmod, ha.1 l (by simp), ha.1 r (by simp)⟩
        · exact ha.1 n (by simp [hn])
      · rw [List.map_cons, List.sum_cons]
        show (l.freq + r.freq) % UINT_MOD + _ = _
        rw [hmod]
        omega)
    node
    (fun n hn => by obtain ⟨c, f, e⟩ := hleaf n hn; rw [e]; simp)
    h2 h128
    ⟨fun n hn => by obtain ⟨c, f, e⟩ := hleaf n hn; rw [e]; simp [FreqSum],
      SymInv_freq_sum hI hlen⟩
  refine ⟨h, root, e1, e2, e3, e5.1 root (by simp), ?_⟩
  simpa using e5.2

/-! ## Fuel of the assignment loop, and inputs of one byte value -/

theorem main_codeTable_mono (fuel k : Nat) (node : List Node) (table : List CharCode)
    (h : main_codeTable fuel node = some table) :
    main_codeTable (fuel + k) node = some table := by
  unfold main_codeTable at h ⊢
  cases hb : main_buildHeap node with
  | none => simp [hb] at h
  | some hp =>
    simp only [hb] at h ⊢
    cases hr : hp.arr[0]? with
    | none => simp [hr] at h
    | some root =>
      simp only [hr] at h ⊢
      cases hs : assignLoop fuel node.length { root := root, table := [] } with
      | none => rw [hs] at h; simp at h
      | some s =>
        rw [hs] at h
        rw [assignLoop_mono fuel k _ _ s hs]
        exact h

theorem main_compress_mono (fuel k : Nat) (file out : List Nat)
    (h : main_compress fuel file = some out) : main_compress (fuel + k) file = some out := by
  unfold main_compress at h ⊢
  cases hr : readFile file [] with
  | none => simp [hr] at h
  | some node =>
    simp only [hr] at h ⊢
    cases ht : main_codeTable fuel node with
    | none => simp [ht] at h
    | some table =>
      simp only [ht] at h
      simp only [main_codeTable_mono fuel k node table ht]
      exact h

theorem readFile_one_value (b : Nat) : ∀ (L : Nat) (acc node : List Node),
    acc.length ≤ 1 → (∀ n ∈ acc, n.ch = toChar b) →
    readFile (List.replicate L b) acc = some node → node.length ≤ 1
  | 0, acc, node, hl, _, h => by
    rw [List.replicate_zero, readFile] at h
    cases h
    exact hl
  | L + 1, acc, node, hl, hch, h => by
    rw [List.replicate_succ, readFile] at h
    by_cases he : toChar b = EOF
    · simp only [he, if_true] at h
      cases h
      exact hl
    · simp only [if_neg he] at h
      cases hidx : acc.findIdx? (fun n => n.ch == toChar b) with
      | some idx =>
        simp only [hidx] at h
        refine readFile_one_value b L _ node (by simpa using hl) ?_ h
        intro n hn
        obtain ⟨hlt, -, -⟩ := List.findIdx?_eq_some_iff_getElem.mp hidx
        rw [List.modify_eq_take_cons_drop hlt, List.mem_append, List.mem_cons] at hn
        rcases hn with hn | hn | hn
        · exact hch n (List.mem_of_mem_take hn)
        · rw [hn]
          show acc[idx].ch = toChar b
          exact hch _ (List.getElem_mem hlt)
        · exact hch n (List.mem_of_mem_drop hn)
      | none =>
        simp only [hidx] at h
        have hnil : acc = [] := by
          cases acc with
          | nil => rfl
          | cons n t =>
            have := List.findIdx?_eq_none_iff.mp hidx n (List.mem_cons_self _ _)
            simp [hch n (List.mem_cons_self _ _)] at this
        subst hnil
        have hcap : ([] : List Node).length < NUM_ALPHABETS := by simp [NUM_ALPHABETS]
        simp only [if_pos hcap] at h
        exact readFile_one_value b L _ node (by simp) (by simp [Node.ch]) h

/-- The scan of a run of one byte value increases the frequency of its entry modulo
`UINT_MOD`. -/
theorem readFile_run (b : Nat) (hb : toChar b ≠ EOF) : ∀ (L f : Nat),
    readFile (List.replicate L b) [.mk (toChar b) f .null .null] =
      some [.mk (toChar b) ((f + L) % UINT_MOD) .null .null] ∨ UINT_MOD ≤ f
  | 0, f => by
    by_cases hf : f < UINT_MOD
    · left
      rw [List.replicate_zero, readFile, Nat.add_zero, Nat.mod_eq_of_lt hf]
    · right; omega
  | L + 1, f => by
    by_cases hf : f < UINT_MOD
    · left
      rw [List.replicate_succ, readFile]
      simp only [if_neg hb]
      have hidx : List.findIdx? (fun n => n.ch == toChar b)
          [Node.mk (toChar b) f .null .null] = some 0 := by
        simp [Node.ch]
      simp only [hidx, List.modify_zero_cons]
      show readFile _ [Node.mk (toChar b) ((f + 1) % UINT_MOD) .null .null] = _
      rcases readFile_run b hb L ((f + 1) % UINT_MOD) with h | h
      · rw [h]
        congr 3
        unfold UINT_MOD
        omega
      · exfalso
        have := Nat.mod_lt (f + 1) (show 0 < UINT_MOD by unfold UINT_MOD; omega)
        omega
    · right; omega

/-! ## The body written by `compressFile` -/

theorem TableOK_of_inv {s : AssignState} (hI : AssignInv s) : TableOK s.table := by
  intro e he
  obtain ⟨a1, a2, a3, _, a5, _, _⟩ := hI.2.1 e he
  exact ⟨by omega, a3, a5⟩

theorem lastByte_bound (v : Int) (k : Nat) (h0 : 0 ≤ v) (h1 : v < 2 ^ k) (hk1 : k ≠ 0)
    (hk6 : k < 7) :
    (toByte (v * 2 ^ (7 - k)) : Int) = v * 2 ^ (7 - k) ∧ toByte (v * 2 ^ (7 - k)) < 128 := by
  unfold toByte
  interval_cases k <;> simp at h1 ⊢ <;> omega

/-- The bytes that `compressFile` adds after the header. -/
theorem compressFile_body (input output : List Nat) (arr : List CharCode) (hT : TableOK arr)
    (hcov : ∀ b ∈ input, ∃ e ∈ arr, e.ch = toChar b) (hout : output ≠ []) :
    ∃ result, compressFile input output arr = some result ∧
      result.drop output.length =
        (List.range ((encodeBits arr input).length / 7)).map
          (fun i => toByte (bitsVal (((encodeBits arr input).drop (7 * i)).take 7))) ++
        (if (encodeBits arr input).length % 7 = 0 then []
         else [toByte (bitsVal ((encodeBits arr input).drop
            (7 * ((encodeBits arr input).length / 7))) *
              2 ^ (7 - (encodeBits arr input).length % 7))]) := by
  refine ⟨_, compressFile_spec input output arr hT hcov hout, ?_⟩
  have hlen : (if (encodeBits arr input).length % 7 = 0 then output
      else (49 + (encodeBits arr input).length % 7) :: output.tail).length = output.length := by
    split
    · rfl
    · cases output with
      | nil => exact absurd rfl hout
      | cons o os => simp
  rw [List.drop_append_of_le_length (by omega), ← hlen, List.drop_length, List.nil_append]

/-! ## The heap invariant -/

theorem slotFreq_swap {arr arr1 : List Node} {a b : Nat}
    (h : swap_nodePtr arr a b = some arr1) (j : Nat) :
    slotFreq arr1 j =
      if j = b then slotFreq arr a else if j = a then slotFreq arr b else slotFreq arr j := by
  unfold swap_nodePtr at h
  cases ha : arr[a]? with
  | none => simp [ha] at h
  | some x =>
    cases hb : arr[b]? with
    | none => simp [ha, hb] at h
    | some y =>
      simp only [ha, hb, Option.some.injEq] at h
      subst h
      have hla : a < arr.length := (List.getElem?_eq_some.mp ha).1
      have hlb : b < arr.length := (List.getElem?_eq_some.mp hb).1
      unfold slotFreq
      by_cases hjb : j = b
      · subst hjb
        rw [if_pos rfl, List.getElem?_set_self (by simpa using hlb), ha]
      · rw [if_neg hjb, List.getElem?_set_ne (Ne.symm hjb)]
        by_cases hja : j = a
        · subst hja
          rw [if_pos rfl, List.getElem?_set_self hla, hb]
        · rw [if_neg hja, List.getElem?_set_ne (Ne.symm hja)]

theorem lessAt_iff {h : minHeap} {k s : Nat} {b : Bool} (hl : lessAt h k s = some b) :
    b = true ↔ (k < h.size ∧ slotFreq h.arr k < slotFreq h.arr s) := by
  unfold lessAt at hl
  by_cases hk : k < h.size
  · rw [if_pos hk] at hl
    cases h1 : h.arr[k]? with
    | none => simp [h1] at hl
    | some x =>
      cases h2 : h.arr[s]? with
      | none => cases x <;> simp [h1, h2] at hl
      | some y =>
        cases x with
        | null => simp [h1, h2] at hl
        | mk c1 f1 l1 r1 =>
          cases y with
          | null => simp [h1, h2] at hl
          | mk c2 f2 l2 r2 =>
            simp only [h1, h2, Option.some.injEq] at hl
            subst hl
            simp [slotFreq, h1, h2, Node.freq, hk]
  · rw [if_neg hk] at hl
    simp only [Option.some.injEq] at hl
    subst hl
    simp [hk]

/-- Sifting down from slot `i` (`minHeapify`): when the heap invariant holds at every slot
from `k` on other than `i`, and the parent of `i` (if it is a slot from `k` on) is at most
the children of `i`, the invariant holds at every slot from `k` on afterwards. -/
theorem siftDown_heap : ∀ (fuel : Nat) (h h1 : minHeap) (i k : Nat),
    minHeapifyAux fuel h i = some h1 → k ≤ i →
    (∀ j, k ≤ j → j ≠ i → HeapAt h.arr h.size j) →
    (∀ p c, k ≤ p → (i = 2 * p + 1 ∨ i = 2 * p + 2) → (c = 2 * i + 1 ∨ c = 2 * i + 2) →
      c < h.size → slotFreq h.arr p ≤ slotFreq h.arr c) →
    h1.size = h.size ∧ ∀ j, k ≤ j → HeapAt h1.arr h1.size j
  | 0, h, h1, i, k, hm, _, _, _ => by simp [minHeapifyAux] at hm
  | fuel + 1, h, h1, i, k, hm, hk, hpre, hpar => by
    rw [minHeapifyAux] at hm
    by_cases hov : INT_MAX < 2 * i + 2
    · simp [hov] at hm
    · rw [if_neg hov] at hm
      cases hb1 : lessAt h (2 * i + 1) i with
      | none => simp [hb1] at hm
      | some b1 =>
        simp only [hb1] at hm
        cases hb2 : lessAt h (2 * i + 2) (if b1 = true then 2 * i + 1 else i) with
        | none => simp [hb2] at hm
        | some b2 =>
          simp only [hb2] at hm
          have e1 := lessAt_iff hb1
          have e2 := lessAt_iff hb2
          by_cases hs : (if b2 = true then 2 * i + 2 else if b1 = true then 2 * i + 1 else i) = i
          · rw [if_neg (by simpa using hs)] at hm
            simp only [Option.some.injEq] at hm
            subst hm
            refine ⟨rfl, ?_⟩
            intro j hkj
            by_cases hji : j = i
            · subst hji
              have hb2f : b2 = false := by
                cases b2 with
                | false => rfl
                | true => simp at hs; omega
              have hb1f : b1 = false := by
                cases b1 with
                | false => rfl
                | true => simp [hb2f] at hs; omega
              subst hb1f hb2f
              simp only [Bool.false_eq_true, false_iff, not_and, not_lt, if_false] at e1 e2
              intro c hc hclt
              rcases hc with hc | hc
              · subst hc; exact e1 hclt
              · subst hc; exact e2 hclt
            · exact hpre j hkj hji
          · rw [if_pos (by simpa using hs)] at hm
            have hfacts : ∃ s, (if b2 = true then 2 * i + 2 else if b1 = true then 2 * i + 1
                else i) = s ∧ (s = 2 * i + 1 ∨ s = 2 * i + 2) ∧ s < h.size ∧
                slotFreq h.arr s < slotFreq h.arr i ∧
                ∀ c, (c = 2 * i + 1 ∨ c = 2 * i + 2) → c < h.size →
                  slotFreq h.arr s ≤ slotFreq h.arr c := by
              cases b1 with
              | false =>
                cases b2 with
                | false => exact absurd (by simp) hs
                | true =>
                  have e2a := e2.mp rfl
                  simp only [Bool.false_eq_true, if_false] at e2a
                  have e1a : 2 * i + 1 < h.size →
                      slotFreq h.arr i ≤ slotFreq h.arr (2 * i + 1) := by
                    intro hlt
                    by_contra hc
                    have := e1.mpr ⟨hlt, by omega⟩
                    simp at this
                  refine ⟨2 * i + 2, by simp, Or.inr rfl, e2a.1, e2a.2, ?_⟩
                  intro c hc hclt
                  rcases hc with hc | hc
                  · subst hc
                    have := e1a hclt
                    omega
                  · subst hc; exact le_refl _
              | true =>
                have e1a := e1.mp rfl
                cases b2 with
                | false =>
                  have e2a : 2 * i + 2 < h.size →
                      slotFreq h.arr (2 * i + 1) ≤ slotFreq h.arr (2 * i + 2) := by
                    intro hlt
                    by_contra hc
                    have := e2.mpr ⟨hlt, by simp; omega⟩
                    simp at this
                  refine ⟨2 * i + 1, by simp, Or.inl rfl, e1a.1, e1a.2, ?_⟩
                  intro c hc hclt
                  rcases hc with hc | hc
                  · subst hc; exact le_refl _
                  · subst hc; exact e2a hclt
                | true =>
                  have e2a := e2.mp rfl
                  simp only [if_true] at e2a
                  refine ⟨2 * i + 2, by simp, Or.inr rfl, e2a.1, by omega, ?_⟩
                  intro c hc hclt
                  rcases hc with hc | hc
                  · subst hc; omega
                  · subst hc; exact le_refl _
            obtain ⟨s, hsdef, hchild, hslt, hsmall, hmin⟩ := hfacts
            rw [hsdef] at hm hs
            cases hsw : swap_nodePtr h.arr s i with
            | none => simp [hsw] at hm
            | some arr1 =>
              simp only [hsw] at hm
              have hsf := slotFreq_swap hsw
              have hres := siftDown_heap fuel { h with arr := arr1 } h1 s k hm (by omega)
                (by
                  intro j hkj hjs c hc hclt
                  rw [hsf j, hsf c]
                  by_cases hji : j = i
                  · subst hji
                    rw [if_pos rfl, if_neg (by omega)]
                    by_cases hcs : c = s
                    · rw [if_pos hcs]; omega
                    · rw [if_neg hcs]; exact hmin c hc hclt
                  · rw [if_neg hji, if_neg hjs]
                    by_cases hci : c = i
                    · rw [if_pos hci]
                      exact hpar j s hkj (by omega) hchild hslt
                    · rw [if_neg hci, if_neg (by omega)]
                      exact hpre j hkj hji c hc hclt)
                (by
                  intro p c hkp hsp hc hclt
                  have hpi : p = i := by omega
                  subst hpi
                  rw [hsf p, hsf c, if_pos rfl, if_neg (by omega), if_neg (by omega)]
                  exact hpre s (by omega) hs c hc hclt)
              exact ⟨hres.1, hres.2⟩

theorem heapifyPass_heap : ∀ (i : Nat) (h h1 : minHeap), heapifyPass i h = some h1 →
    (∀ j, i < j → HeapAt h.arr h.size j) → h1.size = h.size ∧ IsHeap h1
  | 0, h, h1, hp, hpre => by
    rw [heapifyPass, minHeapify] at hp
    have := siftDown_heap _ h h1 0 0 hp (le_refl _)
      (fun j _ hj => hpre j (by omega)) (fun p c _ hc _ _ => by omega)
    exact ⟨this.1, fun j => this.2 j (by omega)⟩
  | i + 1, h, h1, hp, hpre => by
    rw [heapifyPass] at hp
    cases hm : minHeapify h (i + 1) with
    | none => simp [hm] at hp
    | some h2 =>
      simp only [hm] at hp
      rw [minHeapify] at hm
      have h2p := siftDown_heap _ h h2 (i + 1) (i + 1) hm (le_refl _)
        (fun j hj hne => hpre j (by omega)) (fun p c hp1 hc _ _ => by omega)
      have := heapifyPass_heap i h2 h1 hp (fun j hj => by
        have := h2p.2 j (by omega)
        rw [h2p.1] at this
        exact this |> fun t => by rw [h2p.1]; exact t)
      exact ⟨this.1.trans h2p.1, this.2⟩
theorem slotFreq_set (arr : List Node) (a : Nat) (v : Node) (j : Nat) (hj : j ≠ a) :
    slotFreq (arr.set a v) j = slotFreq arr j := by
  unfold slotFreq
  rw [List.getElem?_set_ne (Ne.symm hj)]

theorem slotFreq_of_get {arr : List Node} {i : Nat} {n : Node} (h : arr[i]? = some n) :
    slotFreq arr i = n.freq := by
  simp [slotFreq, h]

/-- The function `extractMin` keeps the heap invariant. -/
theorem extractMin_heap {h h1 : minHeap} {x : Node} (he : extractMin h = some (x, h1))
    (hI : IsHeap h) : IsHeap h1 := by
  unfold extractMin at he
  cases h0 : h.arr[0]? with
  | none => simp [h0] at he
  | some m =>
    simp only [h0] at he
    by_cases hz : h.size = 0
    · simp [hz] at he
    · rw [if_neg hz] at he
      cases hl : h.arr[h.size - 1]? with
      | none => simp [hl] at he
      | some last =>
        simp only [hl] at he
        cases hm : minHeapify { size := h.size - 1, arr := h.arr.set 0 last } 0 with
        | none => simp [hm] at he
        | some h2 =>
          simp only [hm, Option.some.injEq, Prod.mk.injEq] at he
          obtain ⟨_, rfl⟩ := he
          rw [minHeapify] at hm
          have := siftDown_heap _ _ h2 0 0 hm (le_refl _)
            (by
              intro j _ hj c hc hclt
              show slotFreq (h.arr.set 0 last) j ≤ slotFreq (h.arr.set 0 last) c
              rw [slotFreq_set _ _ _ _ hj, slotFreq_set _ _ _ _ (by omega)]
              have hclt1 : c < h.size - 1 := hclt
              exact hI j c hc (by omega))
            (fun p c _ hc _ _ => by omega)
          exact fun j => this.2 j (Nat.zero_le _)

/-- In a heap that satisfies the invariant, no slot below `size` has a frequency below the
one of slot 0. -/
theorem heap_root_min {h : minHeap} (hI : IsHeap h) :
    ∀ j, j < h.size → slotFreq h.arr 0 ≤ slotFreq h.arr j := by
  intro j
  induction j using Nat.strong_induction_on with
  | _ j ih =>
    intro hj
    by_cases hz : j = 0
    · subst hz; exact le_refl _
    · have h1 := ih ((j - 1) / 2) (by omega) (by omega)
      have h2 := hI ((j - 1) / 2) j (by omega) hj
      omega

/-- The sift-up loop of `insertNode` started at slot `i`: when every parent is at most each
of its children other than `i`, and the parent of `i` is at most the children of `i`, the
heap invariant holds afterwards. -/
theorem siftUp_heap : ∀ (fuel : Nat) (h h1 : minHeap) (i : Nat),
    siftUp fuel h i = some h1 →
    (∀ j c, (c = 2 * j + 1 ∨ c = 2 * j + 2) → c < h.size → c ≠ i →
      slotFreq h.arr j ≤ slotFreq h.arr c) →
    (∀ c, (c = 2 * i + 1 ∨ c = 2 * i + 2) → c < h.size → 0 < i →
      slotFreq h.arr ((i - 1) / 2) ≤ slotFreq h.arr c) →
    h1.size = h.size ∧ IsHeap h1
  | 0, h, h1, i, hs, _, _ => by simp [siftUp] at hs
  | fuel + 1, h, h1, i, hs, hpre, hpar => by
    rw [siftUp] at hs
    by_cases hz : i = 0
    · rw [if_pos hz] at hs
      simp only [Option.some.injEq] at hs
      subst hs
      exact ⟨rfl, fun j c hc hclt => hpre j c hc hclt (by omega)⟩
    · rw [if_neg hz] at hs
      cases hi : h.arr[i]? with
      | none => simp [hi] at hs
      | some x =>
        cases hp : h.arr[(i - 1) / 2]? with
        | none => cases x <;> simp [hi, hp] at hs
        | some y =>
          cases x with
          | null => simp [hi, hp] at hs
          | mk c1 fi l1 r1 =>
            cases y with
            | null => simp [hi, hp] at hs
            | mk c2 fp l2 r2 =>
              simp only [hi, hp] at hs
              have hfi : slotFreq h.arr i = fi := slotFreq_of_get hi
              have hfp : slotFreq h.arr ((i - 1) / 2) = fp := slotFreq_of_get hp
              by_cases hlt : fi < fp
              · rw [if_pos hlt] at hs
                cases hsw : swap_nodePtr h.arr i ((i - 1) / 2) with
                | none => simp [hsw] at hs
                | some arr1 =>
                  simp only [hsw] at hs
                  have hsf := slotFreq_swap hsw
                  have hres := siftUp_heap fuel { h with arr := arr1 } h1 ((i - 1) / 2) hs
                    (by
                      intro j c hc hclt hcp
                      show slotFreq arr1 j ≤ slotFreq arr1 c
                      have hclt1 : c < h.size := hclt
                      rw [hsf j, hsf c, if_neg hcp]
                      by_cases hci : c = i
                      · have hjp : j = (i - 1) / 2 := by omega
                        rw [if_pos hci, if_pos hjp]
                        omega
                      · rw [if_neg hci]
                        by_cases hjp : j = (i - 1) / 2
                        · rw [if_pos hjp]
                          have := hpre j c hc hclt1 hci
                          rw [hjp] at this
                          omega
                        · rw [if_neg hjp]
                          by_cases hji : j = i
                          · rw [if_pos hji]
                            subst hji
                            exact hpar c hc hclt1 (by omega)
                          · rw [if_neg hji]
                            exact hpre j c hc hclt1 hci)
                    (by
                      intro c hc hclt hppos
                      have hclt1 : c < h.size := hclt
                      show slotFreq arr1 (((i - 1) / 2 - 1) / 2) ≤ slotFreq arr1 c
                      rw [hsf (((i - 1) / 2 - 1) / 2), hsf c]
                      rw [if_neg (by omega), if_neg (by omega), if_neg (by omega)]
                      have e1 := hpre (((i - 1) / 2 - 1) / 2) ((i - 1) / 2) (by omega)
                        (by omega) (by omega)
                      by_cases hci : c = i
                      · rw [if_pos hci]; exact e1
                      · rw [if_neg hci]
                        have e2 := hpre ((i - 1) / 2) c hc hclt1 hci
                        omega)
                  exact ⟨hres.1, hres.2⟩
              · rw [if_neg hlt] at hs
                simp only [Option.some.injEq] at hs
                subst hs
                refine ⟨rfl, ?_⟩
                intro j c hc hclt
                by_cases hci : c = i
                · have hjp : j = (i - 1) / 2 := by omega
                  rw [hci, hjp]
                  omega
                · exact hpre j c hc hclt hci

/-- The function `insertNode` keeps the heap invariant. -/
theorem insertNode_heap {h h1 : minHeap} {n : Node} (he : insertNode h n = some h1)
    (hI : IsHeap h) : IsHeap h1 := by
  unfold insertNode at he
  by_cases hc : h.size < h.arr.length
  · rw [if_pos hc] at he
    have := siftUp_heap _ _ h1 h.size he
      (by
        intro j c hcj hclt hne
        have hclt1 : c < h.size + 1 := hclt
        show slotFreq (h.arr.set h.size n) j ≤ slotFreq (h.arr.set h.size n) c
        rw [slotFreq_set _ _ _ _ (by omega), slotFreq_set _ _ _ _ hne]
        exact hI j c hcj (by omega))
      (by
        intro c hcj hclt _
        have hclt1 : c < h.size + 1 := hclt
        omega)
    exact this.2
  · simp [hc] at he

/-- The heapify pass of `main` on an array of at least two nodes establishes the heap
invariant. -/
theorem heapifyPass_main_heap {node : List Node} {h : minHeap} (h2 : 2 ≤ node.length)
    (hp : heapifyPass (heapifyStart node.length)
      (createMinHeap_unsorted node node.length) = some h) :
    h.size = node.length ∧ IsHeap h := by
  have := heapifyPass_heap _ _ h hp (by
    intro j hj c hc hclt
    have hclt1 : c < node.length := hclt
    rw [heapifyStart, if_pos h2] at hj
    omega)
  exact ⟨this.1, this.2⟩
/-- A finite check of the heap invariant: it is enough to compare every slot below `size`
with the slots before it of which it is a child. -/
theorem isHeap_of_check (h : minHeap)
    (hc : ∀ c < h.size, ∀ j < c, (c = 2 * j + 1 ∨ c = 2 * j + 2) →
      slotFreq h.arr j ≤ slotFreq h.arr c) : IsHeap h := by
  intro j c hcj hclt
  exact hc c hclt j (by omega) hcj

/-- The node that `extractMin` returns has the least frequency of the heap. -/
theorem extractMin_min {h : minHeap} {x : Node} (hI : IsHeap h) (h0 : h.arr[0]? = some x) :
    ∀ n ∈ heapNodes h, x.freq ≤ n.freq := by
  intro n hn
  obtain ⟨j, hj, hjn⟩ := List.getElem_of_mem hn
  have hjs : j < h.size := by
    have : j < (h.arr.take h.size).length := hj
    rw [List.length_take] at this
    omega
  have e1 : h.arr[j]? = some n := by
    rw [← heapNodes_get hjs, List.getElem?_eq_getElem hj, hjn]
  have := heap_root_min hI j hjs
  rw [slotFreq_of_get h0, slotFreq_of_get e1] at this
  exact this
/-! ## The build loop -/

theorem Full_ne_null {t : Node} (h : Full t) : t ≠ .null := by
  cases t with
  | null => simp [Full] at h
  | mk c f l r => simp

theorem leaves_of_isLeaf {t : Node} (h : IsLeaf t) : leaves t = [t] ∧ Full t := by
  obtain ⟨c, f, rfl⟩ := (isLeaf_iff t).mp h
  simp [leaves, Full]

theorem flatMap_leaves_of_isLeaf : ∀ (node : List Node), (∀ n ∈ node, IsLeaf n) →
    node.flatMap leaves = node
  | [], _ => rfl
  | n :: rest, h => by
    rw [List.flatMap_cons, (leaves_of_isLeaf (h n (List.mem_cons_self _ _))).1,
      flatMap_leaves_of_isLeaf rest (fun m hm => h m (List.mem_cons_of_mem _ hm))]
    rfl

/-- One iteration of the build loop is two calls of `extractMin` and the insertion of a new
`'$'` node with the first node extracted as left child and the second as right child. -/
theorem buildStep_unfold {g g1 : minHeap} (hs : buildStep g = some g1) :
    ∃ left gA right gB, extractMin g = some (left, gA) ∧ extractMin gA = some (right, gB) ∧
      insertNode gB (.mk 36 ((left.freq + right.freq) % UINT_MOD) left right) = some g1 := by
  unfold buildStep at hs
  cases h1 : extractMin g with
  | none => simp [h1] at hs
  | some p1 =>
    obtain ⟨left, gA⟩ := p1
    simp only [h1] at hs
    cases h2 : extractMin gA with
    | none => simp [h2] at hs
    | some p2 =>
      obtain ⟨right, gB⟩ := p2
      simp only [h2] at hs
      cases left with
      | null => simp at hs
      | mk c1 f1 l1 r1 =>
        cases right with
        | null => simp at hs
        | mk c2 f2 l2 r2 =>
          exact ⟨_, gA, _, gB, rfl, h2, hs⟩

/-- The build loop runs exactly `size - 1` iterations: that many iterations give its
result, and after fewer the size is still `size - k`, which is not 1. -/
theorem buildLoop_iter : ∀ (fuel : Nat) (h h1 : minHeap), HeapOK h → 1 ≤ h.size →
    buildLoop fuel h = some h1 →
    buildIter (h.size - 1) h = some h1 ∧
      ∀ k, k < h.size - 1 → ∃ hk, buildIter k h = some hk ∧ hk.size = h.size - k
  | 0, h, h1, _, h1s, hl => by
    rw [buildLoop] at hl
    by_cases hs : h.size ≠ 1
    · simp [hs] at hl
    · rw [if_neg hs] at hl
      simp only [Option.some.injEq] at hl
      subst hl
      have : h.size = 1 := by omega
      rw [this]
      exact ⟨rfl, fun k hk => by omega⟩
  | fuel + 1, h, h1, hok, h1s, hl => by
    rw [buildLoop] at hl
    by_cases hs : h.size ≠ 1
    · rw [if_pos hs] at hl
      obtain ⟨_, _, _, g, hg, _, _, _, hgs, _, hgok⟩ := buildStep_spec h hok (by omega)
      simp only [hg] at hl
      obtain ⟨e1, e2⟩ := buildLoop_iter fuel g h1 hgok (by omega) hl
      have hsz : h.size - 1 = (g.size - 1) + 1 := by omega
      refine ⟨?_, ?_⟩
      · rw [hsz, buildIter]
        simp only [hg]
        exact e1
      · intro k hk
        cases k with
        | zero => exact ⟨h, rfl, by omega⟩
        | succ k =>
          obtain ⟨hk1, e3, e4⟩ := e2 k (by omega)
          refine ⟨hk1, ?_, by omega⟩
          rw [buildIter]
          simp only [hg]
          exact e3
    · rw [if_neg hs] at hl
      simp only [Option.some.injEq] at hl
      subst hl
      have : h.size = 1 := by omega
      rw [this]
      exact ⟨rfl, fun k hk => by omega⟩

/-- The tree that `main` builds from a table of childless nodes: every node has no child
or two, and the leaves are the entries of the table. -/
theorem main_buildHeap_leaves (node : List Node) (h2 : 2 ≤ node.length)
    (h128 : node.length ≤ NUM_ALPHABETS) (hleaf : ∀ n ∈ node, IsLeaf n) :
    ∃ h root, main_buildHeap node = some h ∧ h.size = 1 ∧ h.arr[0]? = some root ∧
      Full root ∧ (leaves root).Perm node ∧ root.ch = 36 ∧ root.left_node ≠ .null := by
  obtain ⟨h, root, e1, e2, e3, _, e5⟩ := main_buildHeap_spec
    (fun l => ((∀ t ∈ l, Full t) ∧ (l.flatMap leaves).Perm node) ∧
      (l.length = 1 → ∀ t ∈ l, t.ch = 36 ∧ t.left_node ≠ .null) ∧ l.length ≤ node.length ∧
      (l.length = node.length → l.Perm node))
    (by
      intro a b hab ⟨⟨ha1, ha2⟩, ha3, ha4, ha5⟩
      refine ⟨⟨fun t ht => ha1 t (hab.mem_iff.mpr ht),
        (List.Perm.flatMap_right leaves hab.symm).trans ha2⟩, ?_, ?_, ?_⟩
      · intro hl t ht
        exact ha3 (by rw [hab.length_eq]; exact hl) t (hab.mem_iff.mpr ht)
      · rw [← hab.length_eq]; exact ha4
      · intro hl
        exact hab.symm.trans (ha5 (by rw [hab.length_eq]; exact hl)))
    (by
      intro l r rest ⟨⟨ha1, ha2⟩, ha3, ha4, ha5⟩
      have hl := ha1 l (List.mem_cons_self _ _)
      have hr := ha1 r (List.mem_cons_of_mem _ (List.mem_cons_self _ _))
      refine ⟨⟨?_, ?_⟩, ?_, ?_, ?_⟩
      · intro t ht
        rcases List.mem_cons.mp ht with rfl | ht
        · exact Or.inr ⟨hl, hr⟩
        · exact ha1 t (List.mem_cons_of_mem _ (List.mem_cons_of_mem _ ht))
      · have : leaves (.mk 36 ((l.freq + r.freq) % UINT_MOD) l r) = leaves l ++ leaves r := by
          rw [leaves, if_neg (fun hc => Full_ne_null hl hc.1)]
        rw [List.flatMap_cons, this, List.append_assoc]
        simpa [List.flatMap_cons] using ha2
      · intro _ t ht
        rcases List.mem_cons.mp ht with rfl | ht
        · exact ⟨rfl, Full_ne_null hl⟩
        · simp only [List.length_cons] at *
          have : rest = [] := List.eq_nil_of_length_eq_zero (by omega)
          rw [this] at ht
          simp at ht
      · simp only [List.length_cons] at *
        omega
      · intro hlen
        simp only [List.length_cons] at *
        omega)
    node (fun n hn => by
      obtain ⟨c, f, rfl⟩ := (isLeaf_iff n).mp (hleaf n hn)
      simp) h2 h128
    ⟨⟨fun t ht => (leaves_of_isLeaf (hleaf t ht)).2, by
      rw [flatMap_leaves_of_isLeaf node hleaf]⟩, fun hl => by omega, le_refl _,
      fun _ => List.Perm.refl _⟩
  obtain ⟨⟨f1, f2⟩, f3, _, _⟩ := e5
  have hr := f3 rfl root (List.mem_singleton_self _)
  refine ⟨h, root, e1, e2, e3, f1 root (List.mem_singleton_self _), ?_, hr.1, hr.2⟩
  simpa using f2
/-! ## The assignment loop on tables of symbols greater than 9 and other than `'$'` -/

theorem Good_ne_null {t : Node} (h : Good t) : t ≠ .null := by
  cases t with
  | null => simp [Good] at h
  | mk c f l r => simp

theorem Good_ch {t : Node} (h : Good t) : t.ch = 0 ∨ 9 < t.ch := by
  cases t with
  | null => simp [Good] at h
  | mk c f l r =>
    rw [Good] at h
    show c = 0 ∨ 9 < c
    rcases h with ⟨_, _, h | h⟩ | ⟨_, _, h | h⟩
    · exact Or.inl h
    · exact Or.inr h.1
    · exact Or.inr (by omega)
    · exact Or.inl h.1

theorem Good_TreeInv : ∀ (t : Node), Good t → TreeInv t
  | .null, h => by simp [Good] at h
  | .mk c f l r, h => by
    rw [Good] at h
    rw [TreeInv]
    rcases h with ⟨hl, hr, hc⟩ | ⟨hl, hr, hc⟩
    · refine Or.inl ⟨hl, hr, ?_⟩
      unfold EOF
      omega
    · refine Or.inr ⟨?_, Good_TreeInv l hl, Good_TreeInv r hr⟩
      rcases hc with hc | hc
      · exact Or.inl hc
      · exact Or.inr hc.1

theorem Good_dead : ∀ (t : Node), Good t → t.ch = 0 → liveLeaves t = 0
  | .null, h, _ => by simp [Good] at h
  | .mk c f l r, h, h0 => by
    have h0a : c = 0 := h0
    rw [Good] at h
    rw [liveLeaves]
    rcases h with ⟨hl, hr, _⟩ | ⟨hl, hr, hc⟩
    · rw [if_pos ⟨hl, hr⟩, if_neg (by simpa using h0a)]
    · rw [if_neg (fun hh => Good_ne_null hl hh.1)]
      rcases hc with hc | hc
      · omega
      · rw [Good_dead l hl hc.2.1, Good_dead r hr hc.2.2]

theorem height_pos {t : Node} (h : t ≠ .null) : 1 ≤ height t := by
  cases t with
  | null => exact absurd rfl h
  | mk c f l r => rw [height]; omega

theorem liveLeaves_node (c : Int) (f : Nat) {l : Node} {r : Node} (hl : l ≠ .null) :
    liveLeaves (.mk c f l r) = liveLeaves l + liveLeaves r := by
  rw [liveLeaves, if_neg (fun hh => hl hh.1)]

/-- A call of `findCharCode` changes no `ch` other than to 0. -/
theorem findCharCode_frame : ∀ (t : Node) (arr0 : CharCode) (top : Nat) (t1 : Node)
    (arr1 : CharCode), findCharCode t arr0 top = some (t1, arr1) →
    ∀ q, (t1.sub q).ch = 0 ∨ (t1.sub q).ch = (t.sub q).ch
  | .null, _, _, _, _, h => by simp [findCharCode] at h
  | .mk ch freq l r, arr0, top, t1, arr1, h => by
    rw [findCharCode] at h
    simp only [] at h
    by_cases hL : l ≠ .null ∧ l.ch > 9
    · rw [if_pos hL] at h
      by_cases ht : top < 64
      · rw [if_pos ht] at h
        cases hrec : findCharCode l { (if top = 0 then { mallocCharCode with ch := 0 }
            else arr0) with code := (if top = 0 then { mallocCharCode with ch := 0 }
            else arr0).code.set top 0 } (top + 1) with
        | none => rw [hrec] at h; simp at h
        | some pr =>
          obtain ⟨l1, a1⟩ := pr
          rw [hrec] at h
          simp only [Option.some.injEq, Prod.mk.injEq] at h
          obtain ⟨rfl, rfl⟩ := h
          have ih := findCharCode_frame l _ _ l1 a1 hrec
          intro q
          cases q with
          | nil => exact Or.inr rfl
          | cons b q =>
            simp only [Node.sub]
            split
            · exact ih q
            · exact Or.inr rfl
      · rw [if_neg ht] at h; simp at h
    · rw [if_neg hL] at h
      by_cases hR : r ≠ .null ∧ r.ch > 9
      · rw [if_pos hR] at h
        by_cases ht : top < 64
        · rw [if_pos ht] at h
          cases hrec : findCharCode r { (if top = 0 then { mallocCharCode with ch := 0 }
              else arr0) with code := (if top = 0 then { mallocCharCode with ch := 0 }
              else arr0).code.set top 1 } (top + 1) with
          | none => rw [hrec] at h; simp at h
          | some pr =>
            obtain ⟨r1, a1⟩ := pr
            rw [hrec] at h
            simp only [Option.some.injEq, Prod.mk.injEq] at h
            obtain ⟨rfl, rfl⟩ := h
            have ih := findCharCode_frame r _ _ r1 a1 hrec
            intro q
            cases q with
            | nil => exact Or.inr rfl
            | cons b q =>
              simp only [Node.sub]
              split
              · exact Or.inr rfl
              · exact ih q
        · rw [if_neg ht] at h; simp at h
      · rw [if_neg hR] at h
        simp only [Option.some.injEq, Prod.mk.injEq] at h
        obtain ⟨rfl, _⟩ := h
        intro q
        cases q with
        | nil => exact Or.inl rfl
        | cons b q => exact Or.inr rfl

/-- The character that a call of `findCharCode` records is 0 (none recorded), or it is not
`'$'` and is greater than 9 or the character of the node the call started at. -/
theorem findCharCode_ch : ∀ (t : Node) (arr0 : CharCode) (top : Nat) (t1 : Node)
    (arr1 : CharCode), (top ≠ 0 → arr0.ch = 0) → findCharCode t arr0 top = some (t1, arr1) →
    arr1.ch = 0 ∨ (arr1.ch ≠ 36 ∧ (9 < arr1.ch ∨ arr1.ch = t.ch))
  | .null, _, _, _, _, _, h => by simp [findCharCode] at h
  | .mk ch freq l r, arr0, top, t1, arr1, harr, h => by
    rw [findCharCode] at h
    simp only [] at h
    have hA : ∃ arr, (if top = 0 then { mallocCharCode with ch := 0 } else arr0) = arr ∧
        arr.ch = 0 := by
      by_cases h0 : top = 0
      · exact ⟨_, rfl, by simp [h0]⟩
      · exact ⟨_, rfl, by simp [h0, harr h0]⟩
    obtain ⟨arr, hAe, hA1⟩ := hA
    rw [hAe] at h
    by_cases hL : l ≠ .null ∧ l.ch > 9
    · rw [if_pos hL] at h
      by_cases ht : top < 64
      · rw [if_pos ht] at h
        cases hrec : findCharCode l { arr with code := arr.code.set top 0 } (top + 1) with
        | none => rw [hrec] at h; simp at h
        | some pr =>
          obtain ⟨l1, a1⟩ := pr
          rw [hrec] at h
          simp only [Option.some.injEq, Prod.mk.injEq] at h
          obtain ⟨rfl, rfl⟩ := h
          rcases findCharCode_ch l { arr with code := arr.code.set top 0 } (top + 1) l1 a1
            (fun _ => hA1) hrec with ih | ih
          · exact Or.inl ih
          · refine Or.inr ⟨ih.1, Or.inl ?_⟩
            rcases ih.2 with h1 | h1
            · exact h1
            · rw [h1]; exact hL.2
      · rw [if_neg ht] at h; simp at h
    · rw [if_neg hL] at h
      by_cases hR : r ≠ .null ∧ r.ch > 9
      · rw [if_pos hR] at h
        by_cases ht : top < 64
        · rw [if_pos ht] at h
          cases hrec : findCharCode r { arr with code := arr.code.set top 1 } (top + 1) with
          | none => rw [hrec] at h; simp at h
          | some pr =>
            obtain ⟨r1, a1⟩ := pr
            rw [hrec] at h
            simp only [Option.some.injEq, Prod.mk.injEq] at h
            obtain ⟨rfl, rfl⟩ := h
            rcases findCharCode_ch r { arr with code := arr.code.set top 1 } (top + 1) r1 a1
              (fun _ => hA1) hrec with ih | ih
            · exact Or.inl ih
            · refine Or.inr ⟨ih.1, Or.inl ?_⟩
              rcases ih.2 with h1 | h1
              · exact h1
              · rw [h1]; exact hR.2
        · rw [if_neg ht] at h; simp at h
      · rw [if_neg hR] at h
        simp only [Option.some.injEq, Prod.mk.injEq] at h
        obtain ⟨_, rfl⟩ := h
        by_cases h36 : ch = 36
        · left
          simp [h36, hA1]
        · right
          simp [h36, Node.ch]

/-- On a tree of the kind `Good` whose root is not cleared and whose leaves are within
reach of the 64-slot buffer, a call of `findCharCode` returns; it clears exactly one node,
and it records a character exactly when that node is a leaf. -/
theorem findCharCode_progress : ∀ (t : Node) (arr0 : CharCode) (top : Nat), Good t →
    t.ch ≠ 0 → top + height t ≤ 65 → (top ≠ 0 → arr0.ch = 0) →
    ∃ t1 arr1, findCharCode t arr0 top = some (t1, arr1) ∧ Good t1 ∧
      live t1 + 1 = live t ∧ liveLeaves t1 + (if arr1.ch ≠ 0 then 1 else 0) = liveLeaves t
  | .null, _, _, hG, _, _, _ => by simp [Good] at hG
  | .mk ch freq l r, arr0, top, hG, hne, hh, harr => by
    have hne1 : ch ≠ 0 := hne
    rw [findCharCode]
    simp only []
    have hA : ∃ arr, (if top = 0 then { mallocCharCode with ch := 0 } else arr0) = arr ∧
        arr.ch = 0 := by
      by_cases h0 : top = 0
      · exact ⟨_, rfl, by simp [h0]⟩
      · exact ⟨_, rfl, by simp [h0, harr h0]⟩
    obtain ⟨arr, hAe, hA1⟩ := hA
    rw [hAe]
    rw [Good] at hG
    rcases hG with ⟨hl, hr, hc⟩ | ⟨hGl, hGr, hc⟩
    · subst hl hr
      have hc1 : 9 < ch ∧ ch ≠ 36 := by
        rcases hc with h | h
        · exact absurd h hne1
        · exact h
      rw [if_neg (by simp), if_neg (by simp)]
      refine ⟨_, _, rfl, ?_, ?_, ?_⟩
      · rw [Good]; exact Or.inl ⟨rfl, rfl, Or.inl rfl⟩
      · simp [live, hne1]
      · simp [liveLeaves, hne1, hc1.2]
    · have hc36 : ch = 36 := by
        rcases hc with h | h
        · exact h
        · exact absurd h.1 hne1
      have hln := Good_ne_null hGl
      have hrn := Good_ne_null hGr
      have hht : height (.mk ch freq l r) = 1 + max (height l) (height r) := rfl
      rw [hht] at hh
      have hl1 := height_pos hln
      have hr1 := height_pos hrn
      by_cases hL : l ≠ .null ∧ l.ch > 9
      · rw [if_pos hL, if_pos (by omega)]
        obtain ⟨l1, a1, e1, e2, e3, e4⟩ := findCharCode_progress l
          { arr with code := arr.code.set top 0 } (top + 1) hGl
          (by intro h; rw [h] at hL; omega) (by omega) (fun _ => hA1)
        rw [e1]
        refine ⟨_, _, rfl, ?_, ?_, ?_⟩
        · rw [Good]; exact Or.inr ⟨e2, hGr, Or.inl hc36⟩
        · simp only [live]; omega
        · rw [liveLeaves_node _ _ (Good_ne_null e2), liveLeaves_node _ _ hln]
          omega
      · rw [if_neg hL]
        have hl0 : l.ch = 0 := by
          rcases Good_ch hGl with h | h
          · exact h
          · exact absurd ⟨hln, h⟩ hL
        by_cases hR : r ≠ .null ∧ r.ch > 9
        · rw [if_pos hR, if_pos (by omega)]
          obtain ⟨r1, a1, e1, e2, e3, e4⟩ := findCharCode_progress r
            { arr with code := arr.code.set top 1 } (top + 1) hGr
            (by intro h; rw [h] at hR; omega) (by omega) (fun _ => hA1)
          rw [e1]
          refine ⟨_, _, rfl, ?_, ?_, ?_⟩
          · rw [Good]; exact Or.inr ⟨hGl, e2, Or.inl hc36⟩
          · simp only [live]; omega
          · rw [liveLeaves_node _ _ hln, liveLeaves_node _ _ hln]
            omega
        · rw [if_neg hR]
          have hr0 : r.ch = 0 := by
            rcases Good_ch hGr with h | h
            · exact h
            · exact absurd ⟨hrn, h⟩ hR
          refine ⟨_, _, rfl, ?_, ?_, ?_⟩
          · rw [Good]; exact Or.inr ⟨hGl, hGr, Or.inr ⟨rfl, hl0, hr0⟩⟩
          · simp [live, hne1]
            omega
          · rw [liveLeaves_node _ _ hln, liveLeaves_node _ _ hln]
            simp [hc36, hA1]
theorem isLeaf_mk (c : Int) (f : Nat) (l r : Node) :
    IsLeaf (.mk c f l r) ↔ l = .null ∧ r = .null := by
  rw [isLeaf_iff]
  constructor
  · rintro ⟨c1, f1, h⟩
    simp only [Node.mk.injEq] at h
    exact ⟨h.2.2.1, h.2.2.2⟩
  · rintro ⟨rfl, rfl⟩
    exact ⟨c, f, rfl⟩

theorem not_isLeaf_null : ¬ IsLeaf .null := by
  rw [isLeaf_iff]
  rintro ⟨c, f, h⟩
  cases h

theorem leafPaths_nodup : ∀ (t : Node), (leafPaths t).Nodup
  | .null => by simp [leafPaths]
  | .mk c f l r => by
    rw [leafPaths]
    split
    · simp
    · rw [List.nodup_append]
      refine ⟨(leafPaths_nodup l).map (fun a b h => by simpa using h),
        (leafPaths_nodup r).map (fun a b h => by simpa using h), ?_⟩
      intro p hp hq
      obtain ⟨a, _, rfl⟩ := List.mem_map.mp hp
      obtain ⟨b, _, hb⟩ := List.mem_map.mp hq
      simp at hb

theorem mem_leafPaths : ∀ (t : Node) (p : List Int), IsLeaf (t.sub p) →
    (∀ b ∈ p, b = 0 ∨ b = 1) → p ∈ leafPaths t
  | .null, p, h, _ => by
    rw [sub_null] at h
    exact absurd h not_isLeaf_null
  | .mk c f l r, [], h, _ => by
    rw [Node.sub, isLeaf_mk] at h
    rw [leafPaths, if_pos h]
    simp
  | .mk c f l r, b :: p, h, hb => by
    rw [Node.sub] at h
    have hnl : ¬ (l = .null ∧ r = .null) := by
      rintro ⟨rfl, rfl⟩
      simp only [sub_null, ite_self] at h
      exact not_isLeaf_null h
    rw [leafPaths, if_neg hnl, List.mem_append]
    have hp : ∀ x ∈ p, x = 0 ∨ x = 1 := fun x hx => hb x (List.mem_cons_of_mem _ hx)
    rcases hb b (List.mem_cons_self _ _) with rfl | rfl
    · rw [if_pos rfl] at h
      exact Or.inl (List.mem_map.mpr ⟨p, mem_leafPaths l p h hp, rfl⟩)
    · rw [if_neg (by decide)] at h
      exact Or.inr (List.mem_map.mpr ⟨p, mem_leafPaths r p h hp, rfl⟩)

theorem leafPaths_isLeaf : ∀ (t : Node) (p : List Int), p ∈ leafPaths t →
    IsLeaf (t.sub p) ∧ ∀ b ∈ p, b = 0 ∨ b = 1
  | .null, p, h => by simp [leafPaths] at h
  | .mk c f l r, p, h => by
    rw [leafPaths] at h
    by_cases hnl : l = .null ∧ r = .null
    · rw [if_pos hnl] at h
      simp only [List.mem_singleton] at h
      subst h
      exact ⟨by rw [Node.sub, isLeaf_mk]; exact hnl, by simp⟩
    · rw [if_neg hnl, List.mem_append] at h
      rcases h with h | h
      · obtain ⟨q, hq, rfl⟩ := List.mem_map.mp h
        have := leafPaths_isLeaf l q hq
        refine ⟨by rw [Node.sub, if_pos rfl]; exact this.1, ?_⟩
        intro b hb
        rcases List.mem_cons.mp hb with rfl | hb
        · exact Or.inl rfl
        · exact this.2 b hb
      · obtain ⟨q, hq, rfl⟩ := List.mem_map.mp h
        have := leafPaths_isLeaf r q hq
        refine ⟨by rw [Node.sub, if_neg (by decide)]; exact this.1, ?_⟩
        intro b hb
        rcases List.mem_cons.mp hb with rfl | hb
        · exact Or.inr rfl
        · exact this.2 b hb

theorem leafPaths_sub : ∀ (t : Node), (leafPaths t).map (fun p => t.sub p) = leaves t
  | .null => by simp [leafPaths, leaves]
  | .mk c f l r => by
    rw [leafPaths, leaves]
    by_cases hnl : l = .null ∧ r = .null
    · rw [if_pos hnl, if_pos hnl]
      simp [Node.sub]
    · rw [if_neg hnl, if_neg hnl, List.map_append, List.map_map, List.map_map,
        ← leafPaths_sub l, ← leafPaths_sub r]
      congr 1

theorem leafPaths_length (t : Node) : (leafPaths t).length = (leaves t).length := by
  rw [← leafPaths_sub, List.length_map]

theorem height_leaf_path : ∀ (t : Node) (p : List Int), IsLeaf (t.sub p) →
    p.length + 1 ≤ height t
  | .null, p, h => by
    rw [sub_null] at h
    exact absurd h not_isLeaf_null
  | .mk c f l r, [], _ => by
    rw [height]
    simp
  | .mk c f l r, b :: p, h => by
    rw [Node.sub] at h
    rw [height, List.length_cons]
    by_cases hb : b = 0
    · rw [if_pos hb] at h
      have := height_leaf_path l p h
      omega
    · rw [if_neg hb] at h
      have := height_leaf_path r p h
      omega

theorem Good_Full : ∀ (t : Node), Good t → Full t
  | .null, h => by simp [Good] at h
  | .mk c f l r, h => by
    rw [Good] at h
    rw [Full]
    rcases h with ⟨hl, hr, _⟩ | ⟨hl, hr, _⟩
    · exact Or.inl ⟨hl, hr⟩
    · exact Or.inr ⟨Good_Full l hl, Good_Full r hr⟩

theorem Full_counts : ∀ (t : Node), Full t →
    1 ≤ (leaves t).length ∧ height t ≤ (leaves t).length ∧ live t + 1 ≤ 2 * (leaves t).length
  | .null, h => by simp [Full] at h
  | .mk c f l r, h => by
    rw [Full] at h
    rw [leaves, height, live]
    rcases h with ⟨hl, hr⟩ | ⟨hl, hr⟩
    · subst hl hr
      rw [if_pos ⟨rfl, rfl⟩]
      simp only [List.length_singleton, height, live]
      split <;> simp
    · rw [if_neg (fun hh => Full_ne_null hl hh.1), List.length_append]
      have e1 := Full_counts l hl
      have e2 := Full_counts r hr
      split <;> omega

theorem height_shape : ∀ (t : Node), height t.shape = height t
  | .null => rfl
  | .mk c f l r => by
    rw [Node.shape, height, height, height_shape l, height_shape r]

theorem shape_eq_null (t : Node) : t.shape = .null ↔ t = .null := by
  cases t <;> simp [Node.shape]

theorem leaves_length_shape : ∀ (t : Node), (leaves t.shape).length = (leaves t).length
  | .null => rfl
  | .mk c f l r => by
    rw [Node.shape, leaves, leaves]
    simp only [shape_eq_null]
    split
    · simp
    · rw [List.length_append, List.length_append, leaves_length_shape l,
        leaves_length_shape r]
theorem isLeaf_of_shape {t t1 : Node} (h : t1.shape = t.shape) : IsLeaf t1 ↔ IsLeaf t := by
  have := isLeaf_sub_of_shape h []
  simpa [Node.sub] using this

theorem TreeInv_inner_ch {t : Node} (hT : TreeInv t) (hnl : ¬ IsLeaf t) :
    t.ch = 36 ∨ t.ch = 0 := by
  cases t with
  | null => simp [TreeInv] at hT
  | mk c f l r =>
    rw [TreeInv] at hT
    rcases hT with hT | hT
    · exact absurd ((isLeaf_mk c f l r).mpr ⟨hT.1, hT.2.1⟩) hnl
    · exact hT.1

/-- One iteration of the assignment loop keeps `AssignTrack`. -/
theorem assignStep_track {T : Node} {s s1 : AssignState} (hI : AssignTrack T s)
    (hnl : ¬ IsLeaf T) (h : assignStep s = some s1) : AssignTrack T s1 := by
  obtain ⟨hA, hsh, hfr, hE, hN⟩ := hI
  obtain ⟨hA1, hsh1, _⟩ := assignStep_inv hA h
  unfold assignStep at h
  cases hf : findCharCode s.root mallocCharCode 0 with
  | none => rw [hf] at h; simp at h
  | some pr =>
    obtain ⟨root1, e⟩ := pr
    rw [hf] at h
    simp only [] at h
    have hframe := findCharCode_frame s.root mallocCharCode 0 root1 e hf
    have hfr1 : ∀ q, (root1.sub q).ch = 0 ∨ (root1.sub q).ch = (T.sub q).ch := by
      intro q
      rcases hframe q with h1 | h1
      · exact Or.inl h1
      · rw [h1]; exact hfr q
    by_cases hne : e.ch ≠ 0
    · rw [if_pos hne] at h
      simp only [Option.some.injEq] at h
      subst h
      obtain ⟨_, _, _, _, i5⟩ := findCharCode_spec s.root mallocCharCode 0 root1 e hA.1
        (by omega) (fun h0 => absurd rfl h0) hf
      obtain ⟨p, j1, j2, j3, j4, j5, j6, j7⟩ := i5 hne
      have hbits : e.bits = p := by
        unfold CharCode.bits
        rw [j1, j3]
        simp
      refine ⟨hA1, hsh1.trans hsh, hfr1, ?_, ?_⟩
      swap
      · rw [List.map_append, List.nodup_append]
        refine ⟨hN, by simp, ?_⟩
        intro q hq hq1
        simp only [List.map_cons, List.map_nil, List.mem_singleton] at hq1
        obtain ⟨a, ha, rfl⟩ := List.mem_map.mp hq
        have := (hA.2.1 a ha).2.2.2.2.2.2
        rw [hq1, hbits, j6] at this
        exact hne this
      intro a ha
      rcases List.mem_append.mp ha with ha | ha
      · exact hE a ha
      · rw [List.mem_singleton] at ha
        subst ha
        have hch := findCharCode_ch s.root mallocCharCode 0 root1 a
          (fun h0 => absurd rfl h0) hf
        have hroot := TreeInv_inner_ch hA.1 (fun hl => hnl ((isLeaf_of_shape hsh).mp hl))
        refine ⟨?_, ?_, ?_⟩
        · rw [hbits]
          rcases hfr p with h1 | h1
          · rw [j6] at h1; exact absurd h1 hne
          · rw [← h1, j6]
        · rcases hch with h1 | ⟨_, h1 | h1⟩
          · exact absurd h1 hne
          · exact h1
          · rcases hroot with h2 | h2
            · rw [h1, h2]; decide
            · rw [h1] at hne; exact absurd h2 hne
        · rcases hch with h1 | ⟨h1, _⟩
          · exact absurd h1 hne
          · exact h1
    · rw [if_neg hne] at h
      simp only [Option.some.injEq] at h
      subst h
      exact ⟨hA1, hsh1.trans hsh, hfr1, hE, hN⟩

theorem assignIter_track {T : Node} (hnl : ¬ IsLeaf T) : ∀ (k : Nat) (s s1 : AssignState),
    AssignTrack T s → assignIter k s = some s1 → AssignTrack T s1
  | 0, s, s1, hI, h => by
    rw [assignIter] at h
    simp only [Option.some.injEq] at h
    subst h
    exact hI
  | k + 1, s, s1, hI, h => by
    rw [assignIter] at h
    cases hs : assignStep s with
    | none => simp [hs] at h
    | some s2 =>
      simp only [hs] at h
      exact assignIter_track hnl k s2 s1 (assignStep_track hI hnl hs) h

theorem assignLoop_track {T : Node} (hnl : ¬ IsLeaf T) :
    ∀ (fuel size : Nat) (s s1 : AssignState),
    AssignTrack T s → assignLoop fuel size s = some s1 → AssignTrack T s1
  | 0, size, s, s1, hI, h => by
    rw [assignLoop] at h
    split at h
    · simp at h
    · simp only [Option.some.injEq] at h
      subst h
      exact hI
  | fuel + 1, size, s, s1, hI, h => by
    rw [assignLoop] at h
    split at h
    · cases hs : assignStep s with
      | none => simp [hs] at h
      | some s2 =>
        simp only [hs] at h
        exact assignLoop_track hnl fuel size s2 s1 (assignStep_track hI hnl hs) h
    · simp only [Option.some.injEq] at h
      subst h
      exact hI

theorem AssignTrack_init {T : Node} (hT : TreeInv T) :
    AssignTrack T { root := T, table := [] } :=
  ⟨⟨hT, by simp, by simp⟩, rfl, fun _ => Or.inr rfl, by simp, by simp⟩

/-- The paths of the entries of a table are distinct paths to leaves of the tree. -/
theorem track_paths {T : Node} {s : AssignState} (hI : AssignTrack T s) :
    (s.table.map CharCode.bits).Nodup ∧
      ∀ p ∈ s.table.map CharCode.bits, p ∈ leafPaths T := by
  obtain ⟨⟨_, hE, _⟩, hsh, _, _, hN⟩ := hI
  refine ⟨hN, ?_⟩
  intro p hp
  obtain ⟨e, he, rfl⟩ := List.mem_map.mp hp
  obtain ⟨_, _, a3, _, _, a6, _⟩ := hE e he
  exact mem_leafPaths T e.bits ((isLeaf_sub_of_shape hsh _).mp a6) a3

/-- A table with as many entries as the tree has leaves has exactly the paths of the
leaves, and exactly the characters of the leaves. -/
theorem track_complete {T : Node} {s : AssignState} (hI : AssignTrack T s)
    (hlen : s.table.length = (leaves T).length) :
    (s.table.map CharCode.bits).Perm (leafPaths T) ∧
      (s.table.map CharCode.ch).Perm ((leaves T).map Node.ch) := by
  obtain ⟨hN, hsub⟩ := track_paths hI
  have hp : (s.table.map CharCode.bits).Perm (leafPaths T) :=
    (hN.subperm hsub).perm_of_length_le (by
      rw [leafPaths_length, List.length_map, hlen])
  refine ⟨hp, ?_⟩
  have h1 := hp.map (fun p => (T.sub p).ch)
  rw [List.map_map] at h1
  have h2 : (leafPaths T).map (fun p => (T.sub p).ch) = (leaves T).map Node.ch := by
    rw [← leafPaths_sub, List.map_map]
    rfl
  rw [h2] at h1
  refine List.Perm.trans (List.Perm.of_eq ?_) h1
  apply List.map_congr_left
  intro e he
  exact ((hI.2.2.2.1 e he).1).symm
theorem live_pos {t : Node} (hn : t ≠ .null) (hc : t.ch ≠ 0) : 1 ≤ live t := by
  cases t with
  | null => exact absurd rfl hn
  | mk c f l r =>
    have hc1 : c ≠ 0 := hc
    rw [live, if_pos hc1]
    omega

/-- One iteration of the assignment loop on a tree of the kind `Good` whose root is not
cleared: it returns, clears one node, and adds an entry exactly when that node is a
leaf. -/
theorem assignStep_good {s : AssignState} (hG : Good s.root) (hne : s.root.ch ≠ 0)
    (hh : height s.root ≤ 65) :
    ∃ s1, assignStep s = some s1 ∧ Good s1.root ∧ live s1.root + 1 = live s.root ∧
      s1.table.length + liveLeaves s1.root = s.table.length + liveLeaves s.root := by
  obtain ⟨t1, a1, e1, e2, e3, e4⟩ := findCharCode_progress s.root mallocCharCode 0 hG hne
    (by omega) (fun h0 => absurd rfl h0)
  unfold assignStep
  rw [e1]
  simp only []
  by_cases hc : a1.ch ≠ 0
  · rw [if_pos hc] at e4 ⊢
    refine ⟨_, rfl, e2, e3, ?_⟩
    simp only [List.length_append, List.length_singleton]
    omega
  · rw [if_neg hc] at e4 ⊢
    refine ⟨_, rfl, e2, e3, ?_⟩
    simp only
    omega

/-- The assignment loop on a tree of the kind `Good` with leaves no deeper than 64: with
fuel for every node that is not cleared yet, it returns with a complete table. -/
theorem assignLoop_good {T : Node} (hnl : ¬ IsLeaf T) (hh : height T ≤ 65) (n : Nat) :
    ∀ (fuel : Nat) (s : AssignState), AssignTrack T s → Good s.root →
      s.table.length + liveLeaves s.root = n → live s.root ≤ fuel →
      ∃ s1, assignLoop fuel n s = some s1 ∧ AssignTrack T s1 ∧ s1.table.length = n
  | 0, s, hI, hG, hc, hl => by
    rw [assignLoop]
    by_cases hlt : s.table.length < n
    · have hne : s.root.ch ≠ 0 := by
        intro h0
        have := Good_dead s.root hG h0
        omega
      have := live_pos (Good_ne_null hG) hne
      omega
    · rw [if_neg hlt]
      exact ⟨s, rfl, hI, by omega⟩
  | fuel + 1, s, hI, hG, hc, hl => by
    rw [assignLoop]
    by_cases hlt : s.table.length < n
    · rw [if_pos hlt]
      have hne : s.root.ch ≠ 0 := by
        intro h0
        have := Good_dead s.root hG h0
        omega
      have hhs : height s.root ≤ 65 := by
        rw [← height_shape, hI.2.1, height_shape]
        exact hh
      obtain ⟨s1, e1, e2, e3, e4⟩ := assignStep_good hG hne hhs
      rw [e1]
      exact assignLoop_good hnl hh n fuel s1 (assignStep_track hI hnl e1) e2 (by omega)
        (by omega)
    · rw [if_neg hlt]
      exact ⟨s, rfl, hI, by omega⟩

/-- The tree that `main` builds from a table of childless nodes with characters greater
than 9 and other than `'$'`. -/
theorem main_buildHeap_good (node : List Node) (h2 : 2 ≤ node.length)
    (h128 : node.length ≤ NUM_ALPHABETS)
    (hv : ∀ n ∈ node, ∃ c f, n = .mk c f .null .null ∧ 9 < c ∧ c ≠ 36) :
    ∃ h root, main_buildHeap node = some h ∧ h.arr[0]? = some root ∧ Good root ∧
      liveLeaves root = (leaves root).length ∧ Full root ∧ (leaves root).Perm node ∧
      root.ch = 36 ∧ ¬ IsLeaf root := by
  have hleaf : ∀ n ∈ node, IsLeaf n := by
    intro n hn
    obtain ⟨c, f, rfl, _⟩ := hv n hn
    trivial
  obtain ⟨h, root, e1, _, e3, e4, e5, e6, e7⟩ := main_buildHeap_leaves node h2 h128 hleaf
  obtain ⟨h', root', f1, _, f3, _, f5⟩ := main_buildHeap_spec
    (fun l => ∀ t ∈ l, Good t ∧ t.ch ≠ 0 ∧ liveLeaves t = (leaves t).length)
    (fun a b hab ha t ht => ha t (hab.mem_iff.mpr ht))
    (by
      intro l r rest ha t ht
      rcases List.mem_cons.mp ht with rfl | ht
      · obtain ⟨g1, _, g3⟩ := ha l (List.mem_cons_self _ _)
        obtain ⟨k1, _, k3⟩ := ha r (List.mem_cons_of_mem _ (List.mem_cons_self _ _))
        refine ⟨?_, by simp [Node.ch], ?_⟩
        · rw [Good]; exact Or.inr ⟨g1, k1, Or.inl rfl⟩
        · rw [liveLeaves_node _ _ (Good_ne_null g1), leaves,
            if_neg (fun hh => Good_ne_null g1 hh.1), List.length_append, g3, k3]
      · exact ha t (List.mem_cons_of_mem _ (List.mem_cons_of_mem _ ht)))
    node (fun n hn => by
      obtain ⟨c, f, rfl, _⟩ := hv n hn
      simp) h2 h128
    (by
      intro t ht
      obtain ⟨c, f, rfl, hc1, hc2⟩ := hv t ht
      refine ⟨?_, ?_, ?_⟩
      · rw [Good]; exact Or.inl ⟨rfl, rfl, Or.inr ⟨hc1, hc2⟩⟩
      · show c ≠ 0
        omega
      · have : c ≠ 0 := by omega
        simp [liveLeaves, leaves, this])
  rw [e1] at f1
  simp only [Option.some.injEq] at f1
  subst f1
  rw [e3] at f3
  simp only [Option.some.injEq] at f3
  subst f3
  obtain ⟨g1, _, g3⟩ := f5 root (List.mem_singleton_self _)
  refine ⟨h, root, e1, e3, g1, g3, e4, e5, e6, ?_⟩
  intro hl
  obtain ⟨c, f, rfl⟩ := (isLeaf_iff root).mp hl
  exact e7 rfl

/-- The assignment loop of `main` on a tree of the kind `Good` with leaves no deeper than
64 returns within `2 * n - 1` calls of `findCharCode`. -/
theorem codeTable_total (node : List Node) (h : minHeap) (root : Node)
    (hb : main_buildHeap node = some h) (h0 : h.arr[0]? = some root) (hG : Good root)
    (hl : liveLeaves root = (leaves root).length) (hn : (leaves root).length = node.length)
    (hnl : ¬ IsLeaf root) (hh : height root ≤ 65) :
    ∃ s, main_codeTable (2 * node.length - 1) node = some s.table ∧ AssignTrack root s ∧
      s.table.length = node.length := by
  obtain ⟨s, e1, e2, e3⟩ := assignLoop_good hnl hh node.length (2 * node.length - 1)
    { root := root, table := [] } (AssignTrack_init (Good_TreeInv root hG)) hG
    (by simp [hl, hn]) (by
      have := (Full_counts root (Good_Full root hG)).2.2
      show live root ≤ 2 * node.length - 1
      omega)
  refine ⟨s, ?_, e2, e3⟩
  unfold main_codeTable
  simp only [hb, h0, e1]

/-- Every table that the assignment loop of `main` returns satisfies `AssignTrack` for the
tree under `arr[0]` and has one entry for each entry of the symbol table. -/
theorem main_codeTable_track (fuel : Nat) (node : List Node) (table : List CharCode)
    (h : minHeap) (root : Node) (hb : main_buildHeap node = some h)
    (h0 : h.arr[0]? = some root) (hT : TreeInv root) (hnl : ¬ IsLeaf root)
    (ht : main_codeTable fuel node = some table) :
    ∃ root1, AssignTrack root { root := root1, table := table } ∧
      table.length = node.length := by
  unfold main_codeTable at ht
  simp only [hb, h0] at ht
  cases hl : assignLoop fuel node.length { root := root, table := [] } with
  | none => simp [hl] at ht
  | some s =>
    simp only [hl, Option.some.injEq] at ht
    subst ht
    have e1 := assignLoop_track hnl fuel node.length _ s (AssignTrack_init hT) hl
    have e2 := assignLoop_inv fuel node.length _ s (AssignTrack_init hT).1 (by simp) hl
    exact ⟨s.root, e1, e2.2⟩
/-- The entries of a table: the length of a code is the length of its path, the path ends
at a leaf, and the length is between 1 and the number of leaves less one. -/
theorem track_codeLen {T : Node} {s : AssignState} (hI : AssignTrack T s)
    (hnl : ¬ IsLeaf T) (hF : Full T) :
    ∀ e ∈ s.table, e.codeLen = e.bits.length ∧ IsLeaf (T.sub e.bits) ∧
      (∀ b ∈ e.bits, b = 0 ∨ b = 1) ∧ 1 ≤ e.codeLen ∧
      e.codeLen + 1 ≤ (leaves T).length ∧ e.codeLen ≤ 64 ∧ e.code.length = 64 := by
  intro e he
  obtain ⟨a1, a2, a3, _, _, a6, _⟩ := hI.1.2.1 e he
  have hl : IsLeaf (T.sub e.bits) := (isLeaf_sub_of_shape hI.2.1 _).mp a6
  have hlen : e.bits.length = e.codeLen := by
    unfold CharCode.bits
    rw [List.length_take]
    omega
  have h1 := height_leaf_path T e.bits hl
  have h2 := (Full_counts T hF).2.1
  refine ⟨hlen.symm, hl, a3, ?_, by omega, a2, a1⟩
  rcases Nat.eq_zero_or_pos e.codeLen with h0 | h0
  · rw [h0] at hlen
    have : e.bits = [] := List.eq_nil_of_length_eq_zero hlen
    rw [this, Node.sub] at hl
    exact absurd hl hnl
  · exact h0

/-- The symbol table of a file of bytes from 10 to 127 other than `'$'`. -/
theorem readFile_valid (file : List Nat) (hb : ∀ b ∈ file, 10 ≤ b ∧ b ≤ 127 ∧ b ≠ 36) :
    ∃ node, readFile file [] = some node ∧ SymInv file node ∧
      node.length = file.dedup.length ∧ node.length ≤ NUM_ALPHABETS ∧
      (∀ n ∈ node, ∃ c f, n = .mk c f .null .null ∧ 9 < c ∧ c ≠ 36 ∧ c ≤ 127 ∧
        toByte c ∈ file) := by
  have hsub : file ⊆ List.range 128 := by
    intro b hbm
    rw [List.mem_range]
    have := hb b hbm
    omega
  have h128 : file.dedup.length ≤ NUM_ALPHABETS := by
    have := dedup_length_le_of_subset hsub
    rw [(List.nodup_range 128).dedup, List.length_range] at this
    exact this
  obtain ⟨node, e1, e2⟩ := readFile_inv file [] [] SymInv_nil
    (fun b hbm => by have := hb b hbm; omega) (by simpa using h128)
  rw [List.nil_append] at e2
  have hl := SymInv_length e2
  refine ⟨node, e1, e2, hl, by omega, ?_⟩
  intro n hn
  have hmem : toByte n.ch ∈ file :=
    (e2.2.1 _).mp (List.mem_map.mpr ⟨n, hn, rfl⟩)
  have hr := hb _ hmem
  have hc : toChar (toByte n.ch) = (toByte n.ch : Int) := by
    unfold toChar
    omega
  have hn3 := e2.2.2.1 n hn
  rw [hc] at hn3
  refine ⟨(toByte n.ch : Int), _, hn3, by omega, by omega, by omega, ?_⟩
  have : n.ch = (toByte n.ch : Int) := by
    conv_lhs => rw [hn3]
    rfl
  rw [← this]
  exact hmem
/-! ## Symbols that `findCharCode` does not reach -/

/-- A call of `findCharCode` leaves every subtree untouched whose root is below the start
of the call and holds a character of 9 or less. -/
theorem findCharCode_untouched : ∀ (t : Node) (arr0 : CharCode) (top : Nat) (t1 : Node)
    (arr1 : CharCode), findCharCode t arr0 top = some (t1, arr1) →
    ∀ q, q ≠ [] → (t.sub q).ch ≤ 9 → t1.sub q = t.sub q
  | .null, _, _, _, _, h => by simp [findCharCode] at h
  | .mk ch freq l r, arr0, top, t1, arr1, h => by
    rw [findCharCode] at h
    simp only [] at h
    by_cases hL : l ≠ .null ∧ l.ch > 9
    · rw [if_pos hL] at h
      by_cases ht : top < 64
      · rw [if_pos ht] at h
        cases hrec : findCharCode l { (if top = 0 then { mallocCharCode with ch := 0 }
            else arr0) with code := (if top = 0 then { mallocCharCode with ch := 0 }
            else arr0).code.set top 0 } (top + 1) with
        | none => rw [hrec] at h; simp at h
        | some pr =>
          obtain ⟨l1, a1⟩ := pr
          rw [hrec] at h
          simp only [Option.some.injEq, Prod.mk.injEq] at h
          obtain ⟨rfl, rfl⟩ := h
          have ih := findCharCode_untouched l _ _ l1 a1 hrec
          intro q hq hc
          cases q with
          | nil => exact absurd rfl hq
          | cons b q =>
            simp only [Node.sub] at hc ⊢
            by_cases hb : b = 0
            · simp only [if_pos hb] at hc ⊢
              cases q with
              | nil =>
                simp only [Node.sub] at hc
                omega
              | cons b1 q1 => exact ih (b1 :: q1) (by simp) hc
            · simp only [if_neg hb]
      · rw [if_neg ht] at h; simp at h
    · rw [if_neg hL] at h
      by_cases hR : r ≠ .null ∧ r.ch > 9
      · rw [if_pos hR] at h
        by_cases ht : top < 64
        · rw [if_pos ht] at h
          cases hrec : findCharCode r { (if top = 0 then { mallocCharCode with ch := 0 }
              else arr0) with code := (if top = 0 then { mallocCharCode with ch := 0 }
              else arr0).code.set top 1 } (top + 1) with
          | none => rw [hrec] at h; simp at h
          | some pr =>
            obtain ⟨r1, a1⟩ := pr
            rw [hrec] at h
            simp only [Option.some.injEq, Prod.mk.injEq] at h
            obtain ⟨rfl, rfl⟩ := h
            have ih := findCharCode_untouched r _ _ r1 a1 hrec
            intro q hq hc
            cases q with
            | nil => exact absurd rfl hq
            | cons b q =>
              simp only [Node.sub] at hc ⊢
              by_cases hb : b = 0
              · simp only [if_pos hb]
              · simp only [if_neg hb] at hc ⊢
                cases q with
                | nil =>
                  simp only [Node.sub] at hc
                  omega
                | cons b1 q1 => exact ih (b1 :: q1) (by simp) hc
        · rw [if_neg ht] at h; simp at h
      · rw [if_neg hR] at h
        simp only [Option.some.injEq, Prod.mk.injEq] at h
        obtain ⟨rfl, _⟩ := h
        intro q hq _
        cases q with
        | nil => exact absurd rfl hq
        | cons b q => rfl

theorem assignIter_untouched {q : List Int} (hq : q ≠ []) : ∀ (k : Nat) (s s1 : AssignState),
    (s.root.sub q).ch ≤ 9 → assignIter k s = some s1 → s1.root.sub q = s.root.sub q
  | 0, s, s1, _, h => by
    rw [assignIter] at h
    simp only [Option.some.injEq] at h
    subst h
    rfl
  | k + 1, s, s1, hc, h => by
    rw [assignIter] at h
    cases hs : assignStep s with
    | none => simp [hs] at h
    | some s2 =>
      simp only [hs] at h
      have e : s2.root.sub q = s.root.sub q := by
        unfold assignStep at hs
        cases hf : findCharCode s.root mallocCharCode 0 with
        | none => rw [hf] at hs; simp at hs
        | some pr =>
          obtain ⟨root1, e⟩ := pr
          rw [hf] at hs
          simp only [] at hs
          have := findCharCode_untouched s.root mallocCharCode 0 root1 e hf q hq hc
          split at hs <;>
          · simp only [Option.some.injEq] at hs
            subst hs
            exact this
      rw [← e]
      exact assignIter_untouched hq k s2 s1 (by rw [e]; exact hc) h

/-- A table never has an entry for a leaf whose character is 9 or less or is `'$'`, and so
it stays shorter than the number of leaves when the tree has such a leaf. -/
theorem track_incomplete {T : Node} {s : AssignState} (hI : AssignTrack T s) {q : List Int}
    (hq : q ∈ leafPaths T) (hbad : (T.sub q).ch ≤ 9 ∨ (T.sub q).ch = 36) :
    (∀ e ∈ s.table, e.bits ≠ q) ∧ s.table.length + 1 ≤ (leaves T).length := by
  have hne : ∀ e ∈ s.table, e.bits ≠ q := by
    intro e he heq
    obtain ⟨k1, k2, k3⟩ := hI.2.2.2.1 e he
    rw [heq] at k1
    rcases hbad with hb | hb
    · omega
    · rw [hb] at k1; exact k3 k1.symm
  refine ⟨hne, ?_⟩
  obtain ⟨hN, hsub⟩ := track_paths hI
  have hsp : (s.table.map CharCode.bits).Subperm ((leafPaths T).erase q) :=
    hN.subperm (fun p hp => by
      obtain ⟨e, he, rfl⟩ := List.mem_map.mp hp
      exact (List.mem_erase_of_ne (hne e he)).mpr (hsub _ hp))
  have hl := hsp.length_le
  rw [List.length_map, List.length_erase_of_mem hq, leafPaths_length] at hl
  have : 1 ≤ (leaves T).length := by
    rw [← leafPaths_length]
    exact List.length_pos_of_mem hq
  omega
/-! ## Rebuilding the tree from the code table -/

theorem leafPaths_ne_nil : ∀ (t : Node), t ≠ .null → leafPaths t ≠ []
  | .null, h => absurd rfl h
  | .mk c f l r, _ => by
    rw [leafPaths]
    by_cases hnl : l = .null ∧ r = .null
    · rw [if_pos hnl]; simp
    · rw [if_neg hnl]
      by_cases hl : l = .null
      · have hr : r ≠ .null := fun hr => hnl ⟨hl, hr⟩
        have := leafPaths_ne_nil r hr
        simp [this]
      · have := leafPaths_ne_nil l hl
        simp [this]

/-- What `rebuildHuffmanTree` has built is not lost by a later insertion. -/
theorem rebuildInsert_mono : ∀ (p : List Int) (R : Node) (c : Int) (q : List Int),
    R.sub q ≠ .null → (rebuildInsert R p c).sub q ≠ .null
  | _, .null, _, q, h => by rw [sub_null] at h; exact absurd rfl h
  | [], .mk c0 f l r, c, q, h => by
    rw [rebuildInsert]
    cases q with
    | nil => simp [Node.sub]
    | cons b q => simpa [Node.sub] using h
  | b :: bs, .mk c0 f l r, c, q, h => by
    rw [rebuildInsert]
    cases q with
    | nil => split <;> simp [Node.sub]
    | cons x q =>
      simp only [Node.sub] at h
      by_cases hb : b = 48
      · rw [if_pos hb]
        simp only [Node.sub]
        by_cases hx : x = 0
        · rw [if_pos hx] at h ⊢
          have hl : l ≠ .null := fun hl => by rw [hl, sub_null] at h; exact h rfl
          rw [if_neg hl]
          exact rebuildInsert_mono bs l c q h
        · rw [if_neg hx] at h ⊢
          exact h
      · rw [if_neg hb]
        simp only [Node.sub]
        by_cases hx : x = 0
        · rw [if_pos hx] at h ⊢
          exact h
        · rw [if_neg hx] at h ⊢
          have hr : r ≠ .null := fun hr => by rw [hr, sub_null] at h; exact h rfl
          rw [if_neg hr]
          exact rebuildInsert_mono bs r c q h

/-- Inserting the code of a leaf of `T` into a part of `T`, or into a fresh node, gives a
part of `T` that has the leaf. -/
theorem rebuildInsert_part : ∀ (T R : Node) (p : List Int) (c : Int),
    (R = mallocNode ∨ Part R T) → IsLeaf (T.sub p) → (T.sub p).ch = c →
    (∀ b ∈ p, b = 0 ∨ b = 1) →
    Part (rebuildInsert R (p.map (fun b => b + 48)) c) T ∧
      (rebuildInsert R (p.map (fun b => b + 48)) c).sub p ≠ .null
  | .null, R, p, c, _, hl, _, _ => by
    rw [sub_null] at hl
    exact absurd hl not_isLeaf_null
  | .mk c0 f0 l r, R, [], c, hR, hl, hc, _ => by
    rw [Node.sub, isLeaf_mk] at hl
    have hc1 : c0 = c := hc
    have hR1 : R = .mk 0 0 .null .null ∨ R = .mk c0 0 .null .null := by
      rcases hR with hR | hR
      · exact Or.inl hR
      · rw [Part, if_pos hl] at hR
        exact Or.inr hR
    have : rebuildInsert R ([].map (fun b => b + 48)) c = .mk c 0 .null .null := by
      rcases hR1 with rfl | rfl <;> rfl
    rw [this]
    refine ⟨?_, by simp [Node.sub]⟩
    rw [Part, if_pos hl, hc1]
  | .mk c0 f0 l r, R, b :: p, c, hR, hl, hc, hb => by
    rw [Node.sub] at hl hc
    have hnl : ¬ (l = .null ∧ r = .null) := by
      rintro ⟨rfl, rfl⟩
      simp only [sub_null, ite_self] at hl
      exact not_isLeaf_null hl
    have hR1 : ∃ cR Rl Rr, R = .mk cR 0 Rl Rr ∧ (Rl = .null ∨ Part Rl l) ∧
        (Rr = .null ∨ Part Rr r) := by
      rcases hR with hR | hR
      · exact ⟨0, .null, .null, hR, Or.inl rfl, Or.inl rfl⟩
      · rw [Part, if_neg hnl] at hR
        obtain ⟨Rl, Rr, h1, h2, h3⟩ := hR
        exact ⟨36, Rl, Rr, h1, h2, h3⟩
    obtain ⟨cR, Rl, Rr, rfl, hRl, hRr⟩ := hR1
    have hp : ∀ x ∈ p, x = 0 ∨ x = 1 := fun x hx => hb x (List.mem_cons_of_mem _ hx)
    rcases hb b (List.mem_cons_self _ _) with rfl | rfl
    · rw [if_pos rfl] at hl hc
      have ih := rebuildInsert_part l (if Rl = .null then mallocNode else Rl) p c
        (by
          by_cases h0 : Rl = .null
          · rw [if_pos h0]; exact Or.inl rfl
          · rw [if_neg h0]
            rcases hRl with h1 | h1
            · exact absurd h1 h0
            · exact Or.inr h1) hl hc hp
      have e : rebuildInsert (.mk cR 0 Rl Rr) ((0 :: p).map (fun b => b + 48)) c =
          .mk 36 0 (rebuildInsert (if Rl = .null then mallocNode else Rl)
            (p.map (fun b => b + 48)) c) Rr := by
        rw [List.map_cons, rebuildInsert, if_pos (by decide)]
      rw [e]
      refine ⟨?_, ?_⟩
      · rw [Part, if_neg hnl]
        exact ⟨_, _, rfl, Or.inr ih.1, hRr⟩
      · rw [Node.sub, if_pos rfl]
        exact ih.2
    · rw [if_neg (by decide)] at hl hc
      have ih := rebuildInsert_part r (if Rr = .null then mallocNode else Rr) p c
        (by
          by_cases h0 : Rr = .null
          · rw [if_pos h0]; exact Or.inl rfl
          · rw [if_neg h0]
            rcases hRr with h1 | h1
            · exact absurd h1 h0
            · exact Or.inr h1) hl hc hp
      have e : rebuildInsert (.mk cR 0 Rl Rr) ((1 :: p).map (fun b => b + 48)) c =
          .mk 36 0 Rl (rebuildInsert (if Rr = .null then mallocNode else Rr)
            (p.map (fun b => b + 48)) c) := by
        rw [List.map_cons, rebuildInsert, if_neg (by decide)]
      rw [e]
      refine ⟨?_, ?_⟩
      · rw [Part, if_neg hnl]
        exact ⟨_, _, rfl, hRl, Or.inr ih.1⟩
      · rw [Node.sub, if_neg (by decide)]
        exact ih.2

theorem Part_ne_null {R T : Node} (h : Part R T) : R ≠ .null := by
  cases T with
  | null => simp [Part] at h
  | mk c f l r =>
    rw [Part] at h
    split at h
    · rw [h]; simp
    · obtain ⟨_, _, rfl, _⟩ := h
      simp

/-- A part of `T` that has every leaf of `T` is the relabelled tree `T`. -/
theorem part_complete : ∀ (T R : Node), Part R T → (∀ p ∈ leafPaths T, R.sub p ≠ .null) →
    R = T.labels
  | .null, R, h, _ => by simp [Part] at h
  | .mk c f l r, R, h, hall => by
    rw [Part] at h
    rw [Node.labels]
    by_cases hnl : l = .null ∧ r = .null
    · rw [if_pos hnl] at h ⊢
      exact h
    · rw [if_neg hnl] at h ⊢
      obtain ⟨Rl, Rr, rfl, hRl, hRr⟩ := h
      rw [leafPaths, if_neg hnl] at hall
      have el : Rl = l.labels := by
        by_cases hl : l = .null
        · subst hl
          rcases hRl with h1 | h1
          · rw [h1]; rfl
          · simp [Part] at h1
        · have hsub : ∀ p ∈ leafPaths l, Rl.sub p ≠ .null := by
            intro p hp
            have := hall (0 :: p) (List.mem_append_left _ (List.mem_map.mpr ⟨p, hp, rfl⟩))
            simpa [Node.sub] using this
          obtain ⟨p, hp⟩ := List.exists_mem_of_ne_nil _ (leafPaths_ne_nil l hl)
          have hRn : Rl ≠ .null := fun h0 => by
            have := hsub p hp
            rw [h0, sub_null] at this
            exact this rfl
          rcases hRl with h1 | h1
          · exact absurd h1 hRn
          · exact part_complete l Rl h1 hsub
      have er : Rr = r.labels := by
        by_cases hr : r = .null
        · subst hr
          rcases hRr with h1 | h1
          · rw [h1]; rfl
          · simp [Part] at h1
        · have hsub : ∀ p ∈ leafPaths r, Rr.sub p ≠ .null := by
            intro p hp
            have := hall (1 :: p) (List.mem_append_right _ (List.mem_map.mpr ⟨p, hp, rfl⟩))
            simpa [Node.sub] using this
          obtain ⟨p, hp⟩ := List.exists_mem_of_ne_nil _ (leafPaths_ne_nil r hr)
          have hRn : Rr ≠ .null := fun h0 => by
            have := hsub p hp
            rw [h0, sub_null] at this
            exact this rfl
          rcases hRr with h1 | h1
          · exact absurd h1 hRn
          · exact part_complete r Rr h1 hsub
      rw [el, er]

/-- Inserting the codes of leaves of `T` one after the other keeps a part of `T` and adds
the leaves. -/
theorem rebuild_fold (T : Node) : ∀ (es : List CharCode) (R : Node), Part R T →
    (∀ e ∈ es, IsLeaf (T.sub e.bits) ∧ (T.sub e.bits).ch = e.ch ∧
      ∀ b ∈ e.bits, b = 0 ∨ b = 1) →
    Part (es.foldl (fun root e => rebuildInsert root (e.bits.map (fun b => b + 48)) e.ch) R)
        T ∧
      (∀ q, R.sub q ≠ .null →
        (es.foldl (fun root e => rebuildInsert root (e.bits.map (fun b => b + 48)) e.ch)
          R).sub q ≠ .null) ∧
      ∀ e ∈ es,
        (es.foldl (fun root e => rebuildInsert root (e.bits.map (fun b => b + 48)) e.ch)
          R).sub e.bits ≠ .null
  | [], R, hP, _ => ⟨hP, fun _ h => h, by simp⟩
  | e :: es, R, hP, hE => by
    obtain ⟨h1, h2, h3⟩ := hE e (List.mem_cons_self _ _)
    obtain ⟨i1, i2⟩ := rebuildInsert_part T R e.bits e.ch (Or.inr hP) h1 h2 h3
    obtain ⟨j1, j2, j3⟩ := rebuild_fold T es _ i1
      (fun a ha => hE a (List.mem_cons_of_mem _ ha))
    rw [List.foldl_cons]
    refine ⟨j1, ?_, ?_⟩
    · intro q hq
      exact j2 q (rebuildInsert_mono _ R e.ch q hq)
    · intro a ha
      rcases List.mem_cons.mp ha with rfl | ha
      · exact j2 _ i2
      · exact j3 a ha

theorem sub_nil (t : Node) : t.sub [] = t := by
  cases t <;> rfl

theorem labels_sub : ∀ (t : Node) (q : List Int), t.labels.sub q = (t.sub q).labels
  | t, [] => by rw [sub_nil, sub_nil]
  | .null, b :: q => rfl
  | .mk c f l r, b :: q => by
    rw [Node.labels, Node.sub]
    by_cases hnl : l = .null ∧ r = .null
    · rw [if_pos hnl, hnl.1, hnl.2]
      simp [Node.sub, Node.labels, sub_null]
    · rw [if_neg hnl, Node.sub]
      split
      · exact labels_sub l q
      · exact labels_sub r q

theorem labels_shape : ∀ (t : Node), t.labels.shape = t.shape
  | .null => rfl
  | .mk c f l r => by
    rw [Node.labels]
    by_cases hnl : l = .null ∧ r = .null
    · rw [if_pos hnl, hnl.1, hnl.2]
      rfl
    · rw [if_neg hnl, Node.shape, Node.shape, labels_shape l, labels_shape r]

theorem labels_ch (t : Node) :
    (IsLeaf t → t.labels.ch = t.ch) ∧ (t ≠ .null → ¬ IsLeaf t → t.labels.ch = 36) := by
  cases t with
  | null => exact ⟨fun h => absurd h not_isLeaf_null, fun h => absurd rfl h⟩
  | mk c f l r =>
    rw [isLeaf_mk, Node.labels]
    refine ⟨fun h => by rw [if_pos h]; rfl, fun _ h => by rw [if_neg h]; rfl⟩

/-- The function `rebuildHuffmanTree` on the persisted form of a complete table of leaf
paths of `T` returns the relabelled tree `T`. -/
theorem rebuild_labels {T : Node} {s : AssignState} (hI : AssignTrack T s) (hT : TreeInv T)
    (hnl : ¬ IsLeaf T) (hlen : s.table.length = (leaves T).length) (arr : List CharCode)
    (harr : arr.map (fun e => (e.ch, e.bits)) =
      s.table.map (fun e => (e.ch, e.bits.map (fun b => b + 48)))) :
    rebuildHuffmanTree arr s.table.length = T.labels := by
  have hal : arr.length = s.table.length := by
    have := congrArg List.length harr
    simpa using this
  have hfold : rebuildHuffmanTree arr s.table.length =
      s.table.foldl (fun root e => rebuildInsert root (e.bits.map (fun b => b + 48)) e.ch)
        (.mk 36 0 .null .null) := by
    unfold rebuildHuffmanTree
    rw [← hal, List.take_length]
    have e1 : arr.foldl (fun root e => rebuildInsert root e.bits e.ch)
        (.mk 36 0 .null .null) =
        (arr.map (fun e => (e.ch, e.bits))).foldl
          (fun root pc => rebuildInsert root pc.2 pc.1) (.mk 36 0 .null .null) := by
      rw [List.foldl_map]
    rw [e1, harr, List.foldl_map]
  have hinit : Part (.mk 36 0 .null .null) T := by
    cases T with
    | null => simp [TreeInv] at hT
    | mk c f l r =>
      rw [Part, if_neg (fun hx => hnl ((isLeaf_mk c f l r).mpr hx))]
      exact ⟨.null, .null, rfl, Or.inl rfl, Or.inl rfl⟩
  obtain ⟨j1, _, j3⟩ := rebuild_fold T s.table _ hinit (by
    intro e he
    obtain ⟨_, _, a3, _, _, a6, _⟩ := hI.1.2.1 e he
    exact ⟨(isLeaf_sub_of_shape hI.2.1 _).mp a6, (hI.2.2.2.1 e he).1, a3⟩)
  rw [hfold]
  apply part_complete T _ j1
  intro p hp
  have hp1 : p ∈ s.table.map CharCode.bits := (track_complete hI hlen).1.mem_iff.mpr hp
  obtain ⟨e, he, rfl⟩ := List.mem_map.mp hp1
  exact j3 e he
/-! ## The bits of the body bytes -/

theorem unpackBits_bits7 : ∀ t < 128, unpackBits 7 t (List.replicate 7 0) = some (bits7 t) := by
  decide

theorem bits7_bitsVal_fin : ∀ (b0 b1 b2 b3 b4 b5 b6 : Fin 2),
    bits7 (toByte (bitsVal [(b0.val : Int), b1.val, b2.val, b3.val, b4.val, b5.val, b6.val])) =
      [b0.val, b1.val, b2.val, b3.val, b4.val, b5.val, b6.val] := by
  decide

theorem bit_fin {b : Int} (h : b = 0 ∨ b = 1) : ∃ f : Fin 2, b = (f.val : Int) := by
  rcases h with rfl | rfl
  · exact ⟨0, rfl⟩
  · exact ⟨1, rfl⟩

/-- The seven bits of the byte written for a group of seven code elements are those
elements. -/
theorem bits7_bitsVal (l : List Int) (hlen : l.length = 7) (hb : ∀ b ∈ l, b = 0 ∨ b = 1) :
    bits7 (toByte (bitsVal l)) = l.map Int.toNat := by
  match l, hlen with
  | [a0, a1, a2, a3, a4, a5, a6], _ =>
    obtain ⟨f0, rfl⟩ := bit_fin (hb a0 (by simp))
    obtain ⟨f1, rfl⟩ := bit_fin (hb a1 (by simp))
    obtain ⟨f2, rfl⟩ := bit_fin (hb a2 (by simp))
    obtain ⟨f3, rfl⟩ := bit_fin (hb a3 (by simp))
    obtain ⟨f4, rfl⟩ := bit_fin (hb a4 (by simp))
    obtain ⟨f5, rfl⟩ := bit_fin (hb a5 (by simp))
    obtain ⟨f6, rfl⟩ := bit_fin (hb a6 (by simp))
    rw [bits7_bitsVal_fin]
    simp

theorem bitsVal_zeros (l : List Int) : ∀ j : Nat,
    bitsVal (l ++ List.replicate j 0) = bitsVal l * 2 ^ j
  | 0 => by simp
  | j + 1 => by
    rw [List.replicate_succ', ← List.append_assoc, bitsVal_append_singleton,
      bitsVal_zeros l j, pow_succ]
    ring

/-- The bits of the first `m` body bytes are the first `7 * m` code elements. -/
theorem chunks_bits (E : List Int) (hb : ∀ b ∈ E, b = 0 ∨ b = 1) : ∀ m : Nat,
    7 * m ≤ E.length →
    ((List.range m).map (fun i => toByte (bitsVal ((E.drop (7 * i)).take 7)))).flatMap bits7 =
      (E.take (7 * m)).map Int.toNat
  | 0, _ => by simp
  | m + 1, h => by
    rw [List.range_succ, List.map_append, List.flatMap_append, chunks_bits E hb m (by omega)]
    simp only [List.map_cons, List.map_nil, List.flatMap_cons, List.flatMap_nil,
      List.append_nil]
    rw [bits7_bitsVal _ (by rw [List.length_take, List.length_drop]; omega)
      (fun b hbm => hb b (List.mem_of_mem_drop (List.mem_of_mem_take hbm)))]
    rw [← List.map_append]
    congr 1
    have : 7 * (m + 1) = 7 * m + 7 := by ring
    rw [this, List.take_add]

/-- The bits of the final body byte are the pending code elements followed by zeros. -/
theorem lastByte_bits (l : List Int) (hk : l.length ≤ 7) (hb : ∀ b ∈ l, b = 0 ∨ b = 1) :
    bits7 (toByte (bitsVal l * 2 ^ (7 - l.length))) =
      l.map Int.toNat ++ List.replicate (7 - l.length) 0 := by
  rw [← bitsVal_zeros, bits7_bitsVal _ (by simp; omega) (by
    intro b hbm
    rcases List.mem_append.mp hbm with h | h
    · exact hb b h
    · exact Or.inl (List.eq_of_mem_replicate h))]
  simp
/-! ## Walking the rebuilt tree -/

theorem walkBits_append (R : Node) : ∀ (a b : List Nat) (s : Node × List Nat),
    walkBits R (a ++ b) s = (walkBits R a s).bind (walkBits R b)
  | [], b, s => by simp [walkBits]
  | x :: a, b, s => by
    rw [List.cons_append, walkBits, walkBits]
    cases walkBit R s x with
    | none => rfl
    | some s1 => exact walkBits_append R a b s1

/-- One step of the walk from a node with children: to the child, or back to the root with
the character of the child written when the child is a leaf. -/
theorem walkBit_step {R : Node} (hD : Decodable R) (q : List Int) (out : List Nat) (b : Int)
    (hn : R.sub q ≠ .null) (hl : ¬ IsLeaf (R.sub q)) (hb : b = 0 ∨ b = 1) :
    R.sub (q ++ [b]) ≠ .null ∧
    (IsLeaf (R.sub (q ++ [b])) →
      walkBit R (R.sub q, out) b.toNat = some (R, out ++ [toByte (R.sub (q ++ [b])).ch])) ∧
    (¬ IsLeaf (R.sub (q ++ [b])) →
      walkBit R (R.sub q, out) b.toNat = some (R.sub (q ++ [b]), out)) := by
  obtain ⟨h36, hcl, hcr⟩ := (hD q).2 hn hl
  have hsub : R.sub (q ++ [b]) = if b = 0 then (R.sub q).left_node else (R.sub q).right_node := by
    rw [sub_append]
    cases hq : R.sub q with
    | null => exact absurd hq hn
    | mk c f l r =>
      rw [Node.sub]
      simp only [sub_nil, Node.left_node, Node.right_node]
  have hchild : R.sub (q ++ [b]) ≠ .null := by
    rw [hsub]
    split
    · exact hcl
    · exact hcr
  refine ⟨hchild, ?_⟩
  have hD1 := hD (q ++ [b])
  suffices hw : (IsLeaf (R.sub (q ++ [b])) →
      walkBit R (R.sub q, out) b.toNat = some (R, out ++ [toByte (R.sub (q ++ [b])).ch])) ∧
      (¬ IsLeaf (R.sub (q ++ [b])) →
        walkBit R (R.sub q, out) b.toNat = some (R.sub (q ++ [b]), out)) from hw
  cases hq : R.sub q with
  | null => exact absurd hq hn
  | mk c f l r =>
    rw [hq] at hsub
    simp only [Node.left_node, Node.right_node] at hsub
    have hpick : (if b.toNat ≠ 0 then r else l) = R.sub (q ++ [b]) := by
      rw [hsub]
      rcases hb with rfl | rfl <;> simp
    unfold walkBit
    simp only [hpick]
    cases hc : R.sub (q ++ [b]) with
    | null => exact absurd hc hchild
    | mk c1 f1 l1 r1 =>
      rw [hc] at hD1
      simp only []
      refine ⟨fun hlf => ?_, fun hlf => ?_⟩
      · have : c1 ≠ 36 := hD1.1 hlf
        rw [if_pos this]
        rfl
      · have : c1 = 36 := (hD1.2 (by simp) hlf).1
        rw [if_neg (by simpa using this)]

/-- Walking bits along a path on which every node has children moves to the end of the
path and writes nothing. -/
theorem walk_inner {R : Node} (hD : Decodable R) : ∀ (p q : List Int) (out : List Nat),
    (∀ p1, p1 <+: p → R.sub (q ++ p1) ≠ .null ∧ ¬ IsLeaf (R.sub (q ++ p1))) →
    (∀ b ∈ p, b = 0 ∨ b = 1) →
    walkBits R (p.map Int.toNat) (R.sub q, out) = some (R.sub (q ++ p), out)
  | [], q, out, _, _ => by simp [walkBits]
  | b :: p, q, out, hp, hb => by
    have h0 := hp [] (List.nil_prefix)
    rw [List.append_nil] at h0
    have h1 := hp [b] (by simp)
    obtain ⟨_, _, hstep0⟩ := walkBit_step hD q out b h0.1 h0.2
      (hb b (List.mem_cons_self _ _))
    have hstep := hstep0 h1.2
    rw [List.map_cons, walkBits, hstep]
    simp only []
    have := walk_inner hD p (q ++ [b]) out
      (fun p1 hp1 => by
        have := hp (b :: p1) (by simpa using hp1)
        simpa using this)
      (fun x hx => hb x (List.mem_cons_of_mem _ hx))
    simpa using this

/-- Walking the bits of a path from the root to a leaf writes the character of the leaf
and returns to the root. -/
theorem walk_code {R : Node} (hD : Decodable R) (p : List Int) (out : List Nat)
    (hne : p ≠ []) (hl : IsLeaf (R.sub p)) (hb : ∀ b ∈ p, b = 0 ∨ b = 1) :
    walkBits R (p.map Int.toNat) (R, out) = some (R, out ++ [toByte (R.sub p).ch]) := by
  obtain ⟨p0, b, rfl⟩ : ∃ p0 b, p = p0 ++ [b] :=
    ⟨p.dropLast, p.getLast hne, (List.dropLast_append_getLast hne).symm⟩
  have hpre : ∀ p1, p1 <+: p0 → R.sub ([] ++ p1) ≠ .null ∧ ¬ IsLeaf (R.sub ([] ++ p1)) := by
    intro p1 hp1
    obtain ⟨t, rfl⟩ := hp1
    rw [List.nil_append]
    refine ⟨?_, ?_⟩
    · intro h0
      rw [List.append_assoc, sub_append, h0, sub_null] at hl
      exact not_isLeaf_null hl
    · intro hl1
      have := leaf_path_append hl1 (by rw [← List.append_assoc]; exact hl)
      simp at this
  have h1 := walk_inner hD p0 [] out hpre (fun x hx => hb x (List.mem_append_left _ hx))
  rw [sub_nil, List.nil_append] at h1
  have h0 := hpre p0 (List.prefix_refl _)
  rw [List.nil_append] at h0
  obtain ⟨_, hstep0, _⟩ := walkBit_step hD p0 out b h0.1 h0.2
    (hb b (List.mem_append_right _ (List.mem_singleton_self _)))
  have hstep := hstep0 hl
  rw [List.map_append, walkBits_append, h1]
  simp only [List.map_cons, List.map_nil, walkBits]
  show (match walkBit R (R.sub p0, out) b.toNat with
    | none => none
    | some s1 => some s1) = _
  rw [hstep]

/-- Walking the first `j` bits of the encoding of an input writes the symbols whose codes
end within those bits and stops inside the code of the next symbol. -/
theorem decode_prefix {R : Node} (hD : Decodable R) (table : List CharCode) :
    ∀ (S : List Nat) (out : List Nat) (j : Nat),
    (∀ x ∈ S, codeOf table x ≠ [] ∧ IsLeaf (R.sub (codeOf table x)) ∧
      toByte (R.sub (codeOf table x)).ch = x ∧ ∀ b ∈ codeOf table x, b = 0 ∨ b = 1) →
    j ≤ (encodeBits table S).length →
    ∃ S1 S2 p1, S = S1 ++ S2 ∧
      walkBits R (((encodeBits table S).take j).map Int.toNat) (R, out) =
        some (R.sub p1, out ++ S1) ∧
      (encodeBits table S1).length + p1.length = j ∧
      (∀ x rest, S2 = x :: rest → p1.length < (codeOf table x).length) ∧
      (S2 = [] → p1 = [])
  | [], out, j, _, hj => by
    have : j = 0 := by simpa [encodeBits] using hj
    subst this
    exact ⟨[], [], [], rfl, by simp [walkBits, sub_nil], by simp [encodeBits], by simp,
      fun _ => rfl⟩
  | x :: rest, out, j, hH, hj => by
    obtain ⟨c1, c2, c3, c4⟩ := hH x (List.mem_cons_self _ _)
    rw [encodeBits_cons] at hj ⊢
    rw [List.length_append] at hj
    by_cases hlt : j < (codeOf table x).length
    · refine ⟨[], x :: rest, (codeOf table x).take j, rfl, ?_, ?_, ?_, by simp⟩
      · rw [List.take_append_of_le_length (by omega), List.append_nil]
        have hpre : ∀ p1, p1 <+: (codeOf table x).take j →
            R.sub ([] ++ p1) ≠ .null ∧ ¬ IsLeaf (R.sub ([] ++ p1)) := by
          intro p1 hp1
          obtain ⟨t, ht⟩ := hp1
          have hfull : p1 ++ (t ++ (codeOf table x).drop j) = codeOf table x := by
            rw [← List.append_assoc, ht, List.take_append_drop]
          have hnz : t ++ (codeOf table x).drop j ≠ [] := by
            intro h0
            have := congrArg List.length h0
            simp at this
            omega
          rw [List.nil_append]
          refine ⟨?_, ?_⟩
          · intro h0
            rw [← hfull, sub_append, h0, sub_null] at c2
            exact not_isLeaf_null c2
          · intro hl1
            exact hnz (leaf_path_append hl1 (by rw [hfull]; exact c2))
        have := walk_inner hD _ [] out hpre
          (fun b hbm => c4 b (List.mem_of_mem_take hbm))
        rw [sub_nil, List.nil_append] at this
        exact this
      · simp [encodeBits, List.length_take]
        omega
      · intro y r hy
        simp only [List.cons.injEq] at hy
        rw [← hy.1, List.length_take]
        omega
    · obtain ⟨S1, S2, p1, e1, e2, e3, e4, e5⟩ := decode_prefix hD table rest (out ++ [x])
        (j - (codeOf table x).length) (fun y hy => hH y (List.mem_cons_of_mem _ hy))
        (by omega)
      refine ⟨x :: S1, S2, p1, by rw [e1]; rfl, ?_, ?_, e4, e5⟩
      · rw [List.take_append_eq_append_take, List.take_of_length_le (by omega),
          List.map_append, walkBits_append, walk_code hD _ out c1 c2 c4, c3]
        show walkBits R _ (R, out ++ [x]) = _
        rw [e2]
        simp
      · rw [encodeBits_cons, List.length_append]
        omega
/-! ## Reading the header back and decompressing the body -/

theorem scanDigits_append (rest : List Nat) : ∀ (ds : List Nat) (acc : Nat),
    (∀ d ∈ ds, isDigit d = true) →
    scanDigits (ds ++ 10 :: rest) acc = ((scanDigits ds acc).1, 10 :: rest)
  | [], acc, _ => by
    simp [scanDigits, isDigit]
  | d :: ds, acc, h => by
    have hd := h d (List.mem_cons_self _ _)
    rw [List.cons_append, scanDigits, scanDigits, if_pos hd, if_pos hd]
    exact scanDigits_append rest ds _ (fun x hx => h x (List.mem_cons_of_mem _ hx))

/-- The call `fscanf(f, "%d", &x)` on a line of decimal digits reads their value and stops
at the newline. -/
theorem fscanf_d_digits (ds rest : List Nat) (hne : ds ≠ [])
    (hd : ∀ d ∈ ds, isDigit d = true) (hv : (scanDigits ds 0).1 ≤ INT_MAX) :
    fscanf_d (ds ++ 10 :: rest) = some (((scanDigits ds 0).1 : Int), 10 :: rest) := by
  cases ds with
  | nil => exact absurd rfl hne
  | cons d ds =>
    have hd0 := hd d (List.mem_cons_self _ _)
    have hrange : 48 ≤ d ∧ d ≤ 57 := by simpa [isDigit] using hd0
    have hsp : isSpace d = false := by
      simp [isSpace]
      omega
    have h45 : d ≠ 45 := by omega
    have h43 : d ≠ 43 := by omega
    have hs := scanDigits_append rest (d :: ds) 0 hd
    unfold fscanf_d
    rw [List.cons_append, List.dropWhile_cons, hsp]
    simp only [Bool.false_eq_true, if_false, if_neg h45, if_neg h43, if_pos hd0]
    rw [List.cons_append] at hs
    rw [hs]
    simp only []
    rw [if_pos hv]

theorem fprintf_d_small : ∀ n < 129, fprintf_d ((n : Nat) : Int) ≠ [] ∧
    (∀ d ∈ fprintf_d ((n : Nat) : Int), isDigit d = true) ∧
    (scanDigits (fprintf_d ((n : Nat) : Int)) 0).1 = n := by
  decide

/-- The loop of `decompressFile` over body bytes below 128: every byte but the last is
walked in full, the last for the number of bits on the first header line. -/
theorem decompress_body (file : List Nat) (R : Node) (cb : Int) (r : List Nat)
    (hf : fscanf_d file = some (cb, r)) (hcb : cb ≤ 7) :
    ∀ (cs : List Nat) (lastB : Nat) (s : Node × List Nat), (∀ c ∈ cs, c < 128) →
      lastB < 128 →
      decompressFile file R (cs ++ [lastB]) s =
        (walkBits R (cs.flatMap bits7 ++ (bits7 lastB).take cb.toNat) s).map
          (fun s1 => (s1.2, cb.toNat))
  | [], lastB, s, _, hl => by
    rw [List.nil_append, decompressFile, unpackBits_bits7 lastB hl]
    simp only [List.head?_nil, Option.map_none', Option.getD_none, List.flatMap_nil,
      List.nil_append]
    rw [if_pos (by decide), hf]
    simp only []
    rw [if_pos hcb]
    cases walkBits R ((bits7 lastB).take cb.toNat) s <;> rfl
  | c :: cs, lastB, s, hc, hl => by
    have hc0 := hc c (List.mem_cons_self _ _)
    rw [List.cons_append, decompressFile, unpackBits_bits7 c hc0]
    simp only []
    have hhead : ∃ x, (cs ++ [lastB]).head? = some x ∧ x < 128 := by
      cases cs with
      | nil => exact ⟨lastB, rfl, hl⟩
      | cons y ys => exact ⟨y, rfl, hc y (by simp)⟩
    obtain ⟨x, hx, hx128⟩ := hhead
    have hne : ¬ toChar ((((cs ++ [lastB]).head?).map Int.ofNat).getD EOF) = EOF := by
      rw [hx]
      simp only [Option.map_some', Option.getD_some]
      unfold toChar EOF
      show ¬ ((x : Int) + 128) % 256 - 128 = -1
      omega
    rw [if_neg hne, List.flatMap_cons, List.append_assoc, walkBits_append]
    cases hw : walkBits R (bits7 c) s with
    | none => rfl
    | some s1 =>
      simp only [Option.bind_some]
      exact decompress_body file R cb r hf hcb cs lastB s1
        (fun y hy => hc y (List.mem_cons_of_mem _ hy)) hl
/-! ## The compressed file of a valid input and its decompression -/

theorem Good_sub : ∀ (t : Node) (q : List Int), Good t → t.sub q ≠ .null → Good (t.sub q)
  | t, [], h, _ => by rw [sub_nil]; exact h
  | .null, _ :: _, h, _ => by simp [Good] at h
  | .mk c f l r, b :: q, h, hn => by
    rw [Node.sub] at hn ⊢
    rw [Good] at h
    rcases h with ⟨hl, hr, _⟩ | ⟨hl, hr, _⟩
    · rw [hl, hr] at hn
      simp [sub_null] at hn
    · split
      · rename_i hb
        rw [if_pos hb] at hn
        exact Good_sub l q hl hn
      · rename_i hb
        rw [if_neg hb] at hn
        exact Good_sub r q hr hn

theorem labels_eq_null (t : Node) : t.labels = .null ↔ t = .null := by
  cases t with
  | null => simp [Node.labels]
  | mk c f l r =>
    rw [Node.labels]
    split <;> simp

/-- The relabelled tree of a tree of the kind `Good` can be walked by `decompressFile`. -/
theorem Good_decodable {T : Node} (hG : Good T) : Decodable T.labels := by
  intro q
  rw [labels_sub]
  refine ⟨?_, ?_⟩
  · intro hl
    have hl1 : IsLeaf (T.sub q) := (isLeaf_of_shape (labels_shape _)).mp hl
    rw [(labels_ch _).1 hl1]
    have hn : T.sub q ≠ .null := fun h0 => by rw [h0] at hl1; exact not_isLeaf_null hl1
    have hg := Good_sub T q hG hn
    obtain ⟨c, f, hc⟩ := (isLeaf_iff _).mp hl1
    rw [hc] at hg ⊢
    rw [Good] at hg
    show c ≠ 36
    rcases hg with ⟨_, _, h | h⟩ | ⟨h, _, _⟩
    · omega
    · exact h.2
    · simp [Good] at h
  · intro hn hl
    have hn1 : T.sub q ≠ .null := fun h0 => hn ((labels_eq_null _).mpr h0)
    have hl1 : ¬ IsLeaf (T.sub q) := fun h0 => hl ((isLeaf_of_shape (labels_shape _)).mpr h0)
    have hg := Good_sub T q hG hn1
    cases hq : T.sub q with
    | null => exact absurd hq hn1
    | mk c f l r =>
      rw [hq] at hg hl1
      rw [isLeaf_mk] at hl1
      rw [Good] at hg
      rcases hg with ⟨h1, h2, _⟩ | ⟨h1, h2, _⟩
      · exact absurd ⟨h1, h2⟩ hl1
      · rw [Node.labels, if_neg hl1]
        exact ⟨rfl, fun h0 => Good_ne_null h1 ((labels_eq_null _).mp h0),
          fun h0 => Good_ne_null h2 ((labels_eq_null _).mp h0)⟩

theorem encodeBits_append (arr : List CharCode) (a b : List Nat) :
    encodeBits arr (a ++ b) = encodeBits arr a ++ encodeBits arr b := by
  simp [encodeBits]

/-- What holds of every code table that the assignment loop returns for the symbol table
of a file of bytes from 10 to 127 other than `'$'`. -/
theorem valid_table_facts (file : List Nat) (hb : ∀ b ∈ file, 10 ≤ b ∧ b ≤ 127 ∧ b ≠ 36)
    (h2 : 2 ≤ file.dedup.length) (node : List Node) (hr : readFile file [] = some node)
    (fuel : Nat) (table : List CharCode) (ht : main_codeTable fuel node = some table) :
    ∃ h root root1, main_buildHeap node = some h ∧ h.arr[0]? = some root ∧ Good root ∧
      ¬ IsLeaf root ∧ AssignTrack root { root := root1, table := table } ∧
      table.length = node.length ∧ node.length ≤ NUM_ALPHABETS ∧
      (leaves root).length = node.length ∧ TableOK table ∧ (∀ e ∈ table, EntryOK e) ∧
      (∀ x ∈ file, ∃ e ∈ table, e.ch = toChar x) ∧
      ∀ x ∈ file, codeOf table x ≠ [] ∧ IsLeaf (root.labels.sub (codeOf table x)) ∧
        toByte (root.labels.sub (codeOf table x)).ch = x ∧
        ∀ b ∈ codeOf table x, b = 0 ∨ b = 1 := by
  obtain ⟨node', r1, r2, r3, r4, r5⟩ := readFile_valid file hb
  rw [hr] at r1
  simp only [Option.some.injEq] at r1
  subst r1
  obtain ⟨h, root, e1, e2, e3, _, e5, e6, _, e8⟩ := main_buildHeap_good node (by omega) r4
    (fun n hn => by
      obtain ⟨c, f, q1, q2, q3, _⟩ := r5 n hn
      exact ⟨c, f, q1, q2, q3⟩)
  have hT := Good_TreeInv root e3
  obtain ⟨root1, hI, hlen⟩ := main_codeTable_track fuel node table h root e1 e2 hT e8 ht
  have hn : (leaves root).length = node.length := e6.length_eq
  have hperm : (table.map CharCode.ch).Perm (node.map Node.ch) :=
    (track_complete hI (by show table.length = (leaves root).length; omega)).2.trans
      (e6.map Node.ch)
  have hcov : ∀ x ∈ file, ∃ e ∈ table, e.ch = toChar x := by
    intro x hx
    obtain ⟨n, hn1, hnx⟩ := List.mem_map.mp ((r2.2.1 x).mpr hx)
    obtain ⟨c, f, q1, q2, q3, q4, _⟩ := r5 n hn1
    have hc : n.ch = toChar x := by
      have h3 := r2.2.2.1 n hn1
      rw [hnx] at h3
      conv_lhs => rw [h3]
      rfl
    have : n.ch ∈ table.map CharCode.ch := hperm.mem_iff.mpr (List.mem_map.mpr ⟨n, hn1, rfl⟩)
    obtain ⟨e, he, hec⟩ := List.mem_map.mp this
    exact ⟨e, he, hec.trans hc⟩
  have hEnt : ∀ e ∈ table, EntryOK e := by
    intro e he
    obtain ⟨a1, a2, a3, _⟩ := hI.1.2.1 e he
    have : e.ch ∈ node.map Node.ch := hperm.mem_iff.mp (List.mem_map.mpr ⟨e, he, rfl⟩)
    obtain ⟨n, hn1, hnc⟩ := List.mem_map.mp this
    obtain ⟨c, f, q1, q2, q3, q4, _⟩ := r5 n hn1
    rw [q1] at hnc
    have hc : c = e.ch := hnc
    exact ⟨a1, a2, a3, by omega, by omega⟩
  refine ⟨h, root, root1, e1, e2, e3, e8, hI, hlen, r4, hn, TableOK_of_inv hI.1, hEnt, hcov,
    ?_⟩
  intro x hx
  obtain ⟨e0, he0, hc0⟩ := hcov x hx
  have hx256 : x < 256 := by have := hb x hx; omega
  cases hfind : table.find? (fun e => e.ch == toChar x) with
  | none =>
    have := List.find?_eq_none.mp hfind e0 he0
    simp [hc0] at this
  | some e =>
    have hmem : e ∈ table := List.mem_of_find?_eq_some hfind
    have hech : e.ch = toChar x := by
      have := List.find?_some hfind
      simpa using this
    have hcode : codeOf table x = e.bits := by
      unfold codeOf
      rw [hfind]
    obtain ⟨k1, k2, k3, k4, _⟩ := track_codeLen hI e8 e5 e hmem
    rw [hcode, labels_sub]
    refine ⟨?_, (isLeaf_of_shape (labels_shape _)).mpr k2, ?_, k3⟩
    · intro h0
      rw [h0] at k1
      simp at k1
      omega
    · rw [(labels_ch _).1 k2, (hI.2.2.2.1 e hmem).1, hech]
      exact toByte_toChar x hx256
/-- The compressed file: the digit of the first line, the number of symbols, the code
lines and the body bytes. -/
theorem main_compress_out (fuel : Nat) (file : List Nat) (node : List Node)
    (table : List CharCode) (hr : readFile file [] = some node)
    (ht : main_codeTable fuel node = some table) (hT : TableOK table)
    (hE : ∀ e ∈ table, EntryOK e) (hlen : table.length = node.length)
    (h128 : node.length ≤ NUM_ALPHABETS) (hcov : ∀ b ∈ file, ∃ e ∈ table, e.ch = toChar b) :
    main_compress fuel file = some
      ((if (encodeBits table file).length % 7 = 0 then 48
          else 49 + (encodeBits table file).length % 7) :: 10 ::
        (fprintf_d node.length ++ 10 :: ((table.map codeLine).flatten ++
          ((List.range ((encodeBits table file).length / 7)).map
            (fun i => toByte (bitsVal (((encodeBits table file).drop (7 * i)).take 7))) ++
          (if (encodeBits table file).length % 7 = 0 then []
           else [toByte (bitsVal ((encodeBits table file).drop
              (7 * ((encodeBits table file).length / 7))) *
                2 ^ (7 - (encodeBits table file).length % 7))]))))) := by
  have hw := (write_extract_from [] table 0 hE (by omega)).1
  rw [hlen] at hw
  unfold main_compress
  simp only [hr, ht, hw]
  have hh : headerLines node.length ++ (table.map codeLine).flatten =
      48 :: 10 :: (fprintf_d node.length ++ 10 :: (table.map codeLine).flatten) := by
    have : fprintf_d 0 = [48] := by decide
    unfold headerLines
    rw [this]
    simp
  rw [compressFile_spec file _ table hT hcov (by rw [hh]; simp), hh]
  split <;> simp

theorem scanDigits_one (j : Nat) (hj : j ≤ 9) :
    [48 + j] ≠ [] ∧ (∀ d ∈ [48 + j], isDigit d = true) ∧ (scanDigits [48 + j] 0).1 = j := by
  refine ⟨by simp, ?_, ?_⟩
  · intro d hd
    rw [List.mem_singleton] at hd
    subst hd
    simp [isDigit]
    omega
  · have : isDigit (48 + j) = true := by
      simp [isDigit]
      omega
    simp [scanDigits, this]

/-- Decompressing a file made of a first line with one digit `j`, the number of entries of
a complete code table, its code lines and body bytes below 128: the walk of the relabelled
tree over the bits of the body bytes, `j` bits of the last one. -/
theorem main_decompressTrace_out {root root1 : Node} {table : List CharCode}
    (hI : AssignTrack root { root := root1, table := table }) (hT : TreeInv root)
    (hnl : ¬ IsLeaf root) (hlen : table.length = (leaves root).length)
    (hE : ∀ e ∈ table, EntryOK e) (h128 : table.length ≤ NUM_ALPHABETS) (j : Nat)
    (hj : j ≤ 7) (cs : List Nat) (lastB : Nat) (hcs : ∀ c ∈ cs, c < 128)
    (hl : lastB < 128) :
    main_decompressTrace ((48 + j) :: 10 :: (fprintf_d table.length ++
        10 :: ((table.map codeLine).flatten ++ (cs ++ [lastB])))) =
      (walkBits root.labels (cs.flatMap bits7 ++ (bits7 lastB).take j)
        (root.labels, [])).map (fun s1 => (s1.2, j)) := by
  have hN : table.length < 129 := by unfold NUM_ALPHABETS at h128; omega
  obtain ⟨p1, p2, p3⟩ := fprintf_d_small table.length hN
  have hs1 := fscanf_d_digits (fprintf_d table.length)
    ((table.map codeLine).flatten ++ (cs ++ [lastB])) p1 p2
    (by rw [p3]; unfold INT_MAX; omega)
  rw [p3] at hs1
  obtain ⟨q1, q2, q3⟩ := scanDigits_one j (by omega)
  have hs2 := fscanf_d_digits [48 + j] (fprintf_d table.length ++
    10 :: ((table.map codeLine).flatten ++ (cs ++ [lastB]))) q1 q2
    (by rw [q3]; unfold INT_MAX; omega)
  rw [q3] at hs2
  obtain ⟨_, tbl, hx1, hx2⟩ := write_extract_from (cs ++ [lastB]) table 0 hE (by omega)
  have harr : tbl.map (fun e => (e.ch, e.bits)) =
      table.map (fun e => (e.ch, e.bits.map (fun b => b + 48))) := by
    have := congrArg (List.map (fun (t : Int × Nat × List Int) => (t.1, t.2.2))) hx2
    simpa [List.map_map] using this
  have hreb := rebuild_labels hI hT hnl hlen tbl harr
  have hrh : main_readHeader ((48 + j) :: 10 :: (fprintf_d table.length ++
      10 :: ((table.map codeLine).flatten ++ (cs ++ [lastB])))) =
      some (tbl, root.labels, cs ++ [lastB]) := by
    unfold main_readHeader
    simp only [List.drop_succ_cons, List.drop_zero]
    rw [hs1]
    simp only [List.drop_succ_cons, List.drop_zero]
    unfold extractCodesFromCompressedFile
    rw [Int.toNat_ofNat, hx1]
    simp only []
    rw [hreb]
  unfold main_decompressTrace
  rw [hrh]
  simp only []
  have := decompress_body ((48 + j) :: 10 :: (fprintf_d table.length ++
      10 :: ((table.map codeLine).flatten ++ (cs ++ [lastB])))) root.labels (j : Int) _
      hs2 (by omega) cs lastB (root.labels, []) hcs hl
  rw [this, Int.toNat_ofNat]
theorem sub_zero (t : Node) : t.sub [0] = t.left_node := by
  cases t with
  | null => rfl
  | mk c f l r => simp [Node.sub, sub_nil, Node.left_node]

theorem splitLines_first (d : Nat) (rest : List Nat) (hd : d ≠ 10) :
    (splitLines (d :: 10 :: rest))[0]? = some [d] := by
  simp [splitLines, hd]

/-- The bytes that `compressFile` writes for groups of seven code elements are below
128, and so is the final byte. -/
theorem body_bytes_small (E : List Int) (hb : ∀ b ∈ E, b = 0 ∨ b = 1) :
    (∀ m, ∀ c ∈ (List.range m).map (fun i => toByte (bitsVal ((E.drop (7 * i)).take 7))),
      c < 128) ∧
    (E.length % 7 ≠ 0 →
      toByte (bitsVal (E.drop (7 * (E.length / 7))) * 2 ^ (7 - E.length % 7)) < 128) := by
  refine ⟨?_, ?_⟩
  · intro m c hc
    obtain ⟨i, _, rfl⟩ := List.mem_map.mp hc
    exact (toByte_bitsVal (fun b hbm => hb b (List.mem_of_mem_drop (List.mem_of_mem_take hbm)))
      (by rw [List.length_take]; omega)).2
  · intro hk
    have hlen : (E.drop (7 * (E.length / 7))).length = E.length % 7 := by
      rw [List.length_drop]
      omega
    have hbd := bitsVal_bound (E.drop (7 * (E.length / 7)))
      (fun b hbm => hb b (List.mem_of_mem_drop hbm))
    rw [hlen] at hbd
    exact (lastByte_bound _ (E.length % 7) hbd.1 hbd.2 hk (Nat.mod_lt _ (by omega))).2

/-- Walking all the bits of the encoding of an input writes the input and ends at the
root. -/
theorem decode_all {R : Node} (hD : Decodable R) (table : List CharCode) (S : List Nat)
    (hH : ∀ x ∈ S, codeOf table x ≠ [] ∧ IsLeaf (R.sub (codeOf table x)) ∧
      toByte (R.sub (codeOf table x)).ch = x ∧ ∀ b ∈ codeOf table x, b = 0 ∨ b = 1) :
    walkBits R ((encodeBits table S).map Int.toNat) (R, []) = some (R, S) := by
  obtain ⟨S1, S2, p1, e1, e2, e3, e4, e5⟩ := decode_prefix hD table S []
    (encodeBits table S).length hH (le_refl _)
  rw [List.take_length] at e2
  have hS2 : S2 = [] := by
    cases S2 with
    | nil => rfl
    | cons x rest =>
      have h1 := e4 x rest rfl
      have h2 : (encodeBits table S).length =
          (encodeBits table S1).length + (encodeBits table (x :: rest)).length := by
        rw [e1, encodeBits_append, List.length_append]
      rw [encodeBits_cons, List.length_append] at h2
      omega
  rw [e5 hS2, sub_nil] at e2
  rw [hS2, List.append_nil] at e1
  rw [e2, e1]
  simp
/-! ## Reading a header whose line count is wrong -/

/-- The inner loop of `extractCodesFromCompressedFile` takes every byte up to the next
newline as a code element, whatever the byte is. -/
theorem extractCode_line (rest : List Nat) : ∀ (bs : List Nat) (code : List Int) (j : Nat),
    (∀ b ∈ bs, toChar b ≠ 10) → code.length = 64 → j + bs.length ≤ 64 →
    ∃ code1, extractCode (bs ++ 10 :: rest) code j = some (code1, j + bs.length, rest) ∧
      code1.length = 64 ∧
      code1.take (j + bs.length) = code.take j ++ bs.map (fun b => toChar b)
  | [], code, j, _, hc, _ => by
    refine ⟨code, ?_, hc, by simp⟩
    simp [extractCode, toChar]
  | b :: bs, code, j, hb, hc, hj => by
    have hj1 : j < 64 := by simp at hj; omega
    have hne := hb b (List.mem_cons_self _ _)
    obtain ⟨code1, e1, e2, e3⟩ := extractCode_line rest bs (code.set j (toChar b)) (j + 1)
      (fun x hx => hb x (List.mem_cons_of_mem _ hx)) (by simpa using hc)
      (by simp at hj; omega)
    refine ⟨code1, ?_, e2, ?_⟩
    · rw [List.cons_append, extractCode]
      simp only [if_neg hne, if_pos hj1]
      rw [e1]
      simp; omega
    · have : j + (b :: bs).length = j + 1 + bs.length := by simp; omega
      rw [this, e3, take_set_succ _ _ _ (by omega)]
      simp

/-- The function `extractCodesFromCompressedFile` makes one entry of every line it is asked
for: the first byte as character, the bytes up to the newline as code. -/
theorem extract_lines (rest : List Nat) : ∀ (lines : List (Nat × List Nat)) (i : Nat),
    (∀ l ∈ lines, l.2.length ≤ 64 ∧ ∀ b ∈ l.2, toChar b ≠ 10) →
    i + lines.length ≤ NUM_ALPHABETS →
    ∃ arr, extractCodesFrom lines.length
        ((lines.map (fun l => l.1 :: (l.2 ++ [10]))).flatten ++ rest) i = some (arr, rest) ∧
      arr.map (fun e => (e.ch, e.codeLen, e.bits)) =
        lines.map (fun l => (toChar l.1, l.2.length, l.2.map (fun b => toChar b)))
  | [], i, _, _ => ⟨[], by simp [extractCodesFrom], rfl⟩
  | l :: lines, i, hl, hi => by
    obtain ⟨w1, w2⟩ := hl l (List.mem_cons_self _ _)
    obtain ⟨arr, ih1, ih2⟩ := extract_lines rest lines (i + 1)
      (fun x hx => hl x (List.mem_cons_of_mem _ hx)) (by simp at hi; omega)
    obtain ⟨code1, e1, e2, e3⟩ := extractCode_line
      ((lines.map (fun l => l.1 :: (l.2 ++ [10]))).flatten ++ rest)
      l.2 mallocCharCode.code 0 w2 (by simp [mallocCharCode]) (by omega)
    refine ⟨{ ch := toChar l.1, code := code1, codeLen := l.2.length } :: arr, ?_, ?_⟩
    · simp only [List.length_cons, extractCodesFrom]
      rw [if_pos (by simp at hi; omega)]
      simp only [List.map_cons, List.flatten_cons, List.cons_append,
        List.tail_cons, List.append_assoc, List.headD_cons, List.nil_append]
      rw [e1]
      simp only [ih1]
      simp
    · simp only [List.map_cons, ih2, List.cons.injEq, and_true, Prod.mk.injEq, true_and]
      unfold CharCode.bits
      simp only
      have := e3
      rw [Nat.zero_add] at this
      rw [this]
      simp

/-- The compressed file and its decompression when the encoding, made with a code table
that the assignment loop returned, does not fill its last byte. -/
theorem padding_bit_core (file : List Nat)
    (hb : ∀ b ∈ file, 10 ≤ b ∧ b ≤ 127 ∧ b ≠ 36) (h2 : 2 ≤ file.dedup.length)
    (fuel : Nat) (node : List Node) (table : List CharCode)
    (hr : readFile file [] = some node) (ht : main_codeTable fuel node = some table)
    (hB : (encodeBits table file).length % 7 ≠ 0) :
    ∃ h root out pre lastB, main_buildHeap node = some h ∧ h.arr[0]? = some root ∧
      main_compress fuel file = some out ∧
      (splitLines out)[0]? =
        some (fprintf_d ((((encodeBits table file).length % 7 : Nat) : Int) + 1)) ∧
      out = pre ++ [lastB] ∧
      (unpackBits 7 lastB (List.replicate 7 0)).bind
        (fun bits => bits[(encodeBits table file).length % 7]?) = some 0 ∧
      (¬ IsLeaf root.left_node → (∀ e ∈ table, e.bits ≠ [0]) ∧
        main_decompressTrace out = some (file, (encodeBits table file).length % 7 + 1) ∧
        main_decompress out = some file) ∧
      (IsLeaf root.left_node →
        (∃ e ∈ table, e.bits = [0] ∧ e.ch = root.left_node.ch) ∧
        main_decompressTrace out = some (file ++ [toByte root.left_node.ch],
          (encodeBits table file).length % 7 + 1) ∧
        main_decompress out = some (file ++ [toByte root.left_node.ch])) := by
  obtain ⟨h, root, root1, e1, e2, e3, e4, hI, hlen, h128, hn, hT, hE, hcov, hH⟩ :=
    valid_table_facts file hb h2 node hr fuel table ht
  have hTree := Good_TreeInv root e3
  have hD := Good_decodable e3
  have hbits := encodeBits_bits hT file
  have hout := main_compress_out fuel file node table hr ht hT hE hlen h128 hcov
  rw [if_neg hB, if_neg hB] at hout
  have hk7 : (encodeBits table file).length % 7 < 7 := Nat.mod_lt _ (by omega)
  obtain ⟨hsm1, hsm2⟩ := body_bytes_small (encodeBits table file) hbits
  have hl := hsm2 hB
  have hdrop : ((encodeBits table file).drop (7 * ((encodeBits table file).length / 7))).length =
      (encodeBits table file).length % 7 := by
    rw [List.length_drop]
    omega
  have hlb := lastByte_bits ((encodeBits table file).drop
    (7 * ((encodeBits table file).length / 7))) (by omega)
    (fun b hbm => hbits b (List.mem_of_mem_drop hbm))
  rw [hdrop] at hlb
  have htr := main_decompressTrace_out hI hTree e4 (by omega) hE (by omega)
    ((encodeBits table file).length % 7 + 1) (by omega) _ _
    (hsm1 ((encodeBits table file).length / 7)) hl
  have hd : 48 + ((encodeBits table file).length % 7 + 1) =
      49 + (encodeBits table file).length % 7 := by omega
  rw [hd, hlen] at htr
  have hbitsAll : ((List.range ((encodeBits table file).length / 7)).map
      (fun i => toByte (bitsVal (((encodeBits table file).drop (7 * i)).take 7)))).flatMap
        bits7 ++ (bits7 (toByte (bitsVal ((encodeBits table file).drop
          (7 * ((encodeBits table file).length / 7))) *
            2 ^ (7 - (encodeBits table file).length % 7)))).take
              ((encodeBits table file).length % 7 + 1) =
      (encodeBits table file).map Int.toNat ++ [0] := by
    rw [chunks_bits _ hbits _ (by omega), hlb]
    have ht1 : (List.map Int.toNat ((encodeBits table file).drop
        (7 * ((encodeBits table file).length / 7))) ++
        List.replicate (7 - (encodeBits table file).length % 7) 0).take
          ((encodeBits table file).length % 7 + 1) =
        List.map Int.toNat ((encodeBits table file).drop
          (7 * ((encodeBits table file).length / 7))) ++ [0] := by
      have h7 : 7 - (encodeBits table file).length % 7 =
          (6 - (encodeBits table file).length % 7) + 1 := by omega
      rw [h7, List.replicate_succ]
      have hlm : (List.map Int.toNat ((encodeBits table file).drop
          (7 * ((encodeBits table file).length / 7)))).length =
          (encodeBits table file).length % 7 := by
        rw [List.length_map, hdrop]
      rw [← hlm, List.take_append]
      simp
    rw [ht1, ← List.append_assoc, ← List.map_append, List.take_append_drop]
  rw [hbitsAll, walkBits_append, decode_all hD table file hH] at htr
  simp only [Option.some_bind, walkBits] at htr
  have hroot : root.labels.sub [] ≠ .null ∧ ¬ IsLeaf (root.labels.sub []) := by
    rw [sub_nil]
    exact ⟨fun h0 => Good_ne_null e3 ((labels_eq_null _).mp h0),
      fun h0 => e4 ((isLeaf_of_shape (labels_shape _)).mp h0)⟩
  obtain ⟨_, hw1, hw2⟩ := walkBit_step hD [] file 0 hroot.1 hroot.2 (Or.inl rfl)
  rw [sub_nil, List.nil_append, labels_sub, sub_zero] at hw1 hw2
  have hz : (0 : Int).toNat = 0 := rfl
  rw [hz] at hw1 hw2
  refine ⟨h, root, _, ((49 + (encodeBits table file).length % 7) :: 10 ::
    (fprintf_d node.length ++ 10 :: ((table.map codeLine).flatten ++
      (List.range ((encodeBits table file).length / 7)).map
        (fun i => toByte (bitsVal (((encodeBits table file).drop (7 * i)).take 7)))))),
    toByte (bitsVal ((encodeBits table file).drop
      (7 * ((encodeBits table file).length / 7))) *
        2 ^ (7 - (encodeBits table file).length % 7)), e1, e2, hout, ?_, ?_, ?_, ?_, ?_⟩
  · rw [fprintf_d_digit ((encodeBits table file).length % 7) (by omega)]
    exact splitLines_first _ _ (by omega)
  · simp
  · rw [unpackBits_bits7 _ hl, Option.some_bind, hlb]
    have hlm : (List.map Int.toNat ((encodeBits table file).drop
        (7 * ((encodeBits table file).length / 7)))).length =
        (encodeBits table file).length % 7 := by
      rw [List.length_map, hdrop]
    rw [List.getElem?_append_right (by omega), hlm, Nat.sub_self]
    have h7 : 7 - (encodeBits table file).length % 7 =
        (6 - (encodeBits table file).length % 7) + 1 := by omega
    rw [h7, List.replicate_succ]
    simp
  · intro hnl
    have hnl1 : ¬ IsLeaf root.left_node.labels :=
      fun h0 => hnl ((isLeaf_of_shape (labels_shape _)).mp h0)
    rw [hw2 hnl1] at htr
    refine ⟨?_, htr, by rw [main_decompress, htr]; rfl⟩
    intro e he hbe
    have := (track_codeLen hI e4 (Good_Full root e3) e he).2.1
    rw [hbe, sub_zero] at this
    exact hnl this
  · intro hlf
    have hlf1 : IsLeaf root.left_node.labels := (isLeaf_of_shape (labels_shape _)).mpr hlf
    rw [hw1 hlf1, (labels_ch _).1 hlf] at htr
    refine ⟨?_, htr, by rw [main_decompress, htr]; rfl⟩
    have hmem : [0] ∈ leafPaths root :=
      mem_leafPaths root [0] (by rw [sub_zero]; exact hlf) (by simp)
    have hmem1 : [0] ∈ table.map CharCode.bits :=
      (track_complete hI (by show table.length = (leaves root).length; omega)).1.mem_iff.mpr
        hmem
    obtain ⟨e, he, hbe⟩ := List.mem_map.mp hmem1
    refine ⟨e, he, hbe, ?_⟩
    have := (hI.2.2.2.1 e he).1
    rw [hbe, sub_zero] at this
    exact this.symm

/-- The compressed file and its decompression when the encoding, made with a code table
that the assignment loop returned, fills its last byte. -/
theorem full_last_byte_core (file : List Nat)
    (hb : ∀ b ∈ file, 10 ≤ b ∧ b ≤ 127 ∧ b ≠ 36) (h2 : 2 ≤ file.dedup.length)
    (fuel : Nat) (node : List Node) (table : List CharCode)
    (hr : readFile file [] = some node) (ht : main_codeTable fuel node = some table)
    (hB0 : (encodeBits table file).length % 7 = 0)
    (hBpos : 0 < (encodeBits table file).length) :
    ∃ out S1 S2, main_compress fuel file = some out ∧
      (splitLines out)[0]? = some (fprintf_d 0) ∧
      file = S1 ++ S2 ∧ S2 ≠ [] ∧
      main_decompressTrace out = some (S1, 0) ∧ main_decompress out = some S1 ∧
      main_decompress out ≠ some file ∧
      (encodeBits table S1).length ≤ (encodeBits table file).length - 7 ∧
      ∀ x rest, S2 = x :: rest →
        (encodeBits table file).length - 7 < (encodeBits table (S1 ++ [x])).length := by
  obtain ⟨h, root, root1, e1, e2, e3, e4, hI, hlen, h128, hn, hT, hE, hcov, hH⟩ :=
    valid_table_facts file hb h2 node hr fuel table ht
  have hTree := Good_TreeInv root e3
  have hD := Good_decodable e3
  have hbits := encodeBits_bits hT file
  have hout := main_compress_out fuel file node table hr ht hT hE hlen h128 hcov
  rw [if_pos hB0, if_pos hB0, List.append_nil] at hout
  obtain ⟨m, hm⟩ : ∃ m, (encodeBits table file).length / 7 = m + 1 :=
    ⟨(encodeBits table file).length / 7 - 1, by omega⟩
  rw [hm, List.range_succ, List.map_append] at hout
  simp only [List.map_cons, List.map_nil] at hout
  obtain ⟨hsm1, _⟩ := body_bytes_small (encodeBits table file) hbits
  have hl : toByte (bitsVal (((encodeBits table file).drop (7 * m)).take 7)) < 128 :=
    hsm1 (m + 1) _ (List.mem_map.mpr ⟨m, by simp, rfl⟩)
  have htr := main_decompressTrace_out hI hTree e4 (by omega) hE (by omega) 0 (by omega)
    _ _ (hsm1 m) hl
  rw [hlen, List.take_zero, List.append_nil, chunks_bits _ hbits m (by omega)] at htr
  obtain ⟨S1, S2, p1, f1, f2, f3, f4, f5⟩ := decode_prefix hD table file [] (7 * m) hH
    (by omega)
  rw [f2] at htr
  simp only [Option.map_some', List.nil_append] at htr
  have hS2 : S2 ≠ [] := by
    intro h0
    rw [h0, List.append_nil] at f1
    rw [f5 h0, ← f1] at f3
    simp at f3
    omega
  refine ⟨_, S1, S2, hout, ?_, f1, hS2, htr, by rw [main_decompress, htr]; rfl, ?_, by omega,
    ?_⟩
  · have : fprintf_d 0 = [48] := by decide
    rw [this]
    exact splitLines_first _ _ (by omega)
  · rw [main_decompress, htr]
    simp only [Option.map_some', ne_eq, Option.some.injEq]
    intro h0
    rw [← h0] at f1
    exact hS2 (List.append_right_eq_self.mp f1.symm)
  · intro x rest hx
    have := f4 x rest hx
    rw [encodeBits_append, List.length_append]
    have hx1 : (encodeBits table [x]).length = (codeOf table x).length := by
      simp [encodeBits]
    omega

/-- The symbol table and the tree of a file of bytes from 10 to 127 other than `'$'` with
at least two distinct byte values; with at most 65 distinct byte values the assignment
loop returns a code table within `2 * n - 1` calls of `findCharCode`. -/
theorem valid_file_tree (file : List Nat) (hb : ∀ b ∈ file, 10 ≤ b ∧ b ≤ 127 ∧ b ≠ 36)
    (h2 : 2 ≤ file.dedup.length) :
    ∃ node h root, readFile file [] = some node ∧ node.length = file.dedup.length ∧
      main_buildHeap node = some h ∧ h.arr[0]? = some root ∧
      (node.length ≤ 65 →
        ∃ table, main_codeTable (2 * node.length - 1) node = some table) := by
  obtain ⟨node, r1, _, r3, r4, r5⟩ := readFile_valid file hb
  obtain ⟨h, root, e1, e2, e3, e4, e5, e6, _, e8⟩ := main_buildHeap_good node (by omega) r4
    (fun n hn => by
      obtain ⟨c, f, q1, q2, q3, _⟩ := r5 n hn
      exact ⟨c, f, q1, q2, q3⟩)
  refine ⟨node, h, root, r1, r3, e1, e2, ?_⟩
  intro h65
  have hn : (leaves root).length = node.length := e6.length_eq
  have hh : height root ≤ 65 := by
    have := (Full_counts root e5).2.1
    omega
  obtain ⟨s, f1, _, _⟩ := codeTable_total node h root e1 e2 e3 e4 hn e8 hh
  exact ⟨s.table, f1⟩

/-! ## The depth of the tree when no frequency wraps around -/

/-- One iteration of the build loop on a heap with the heap invariant: the first node
extracted is at most every other node, the second at most every node left. -/
theorem buildStep_min (h : minHeap) (hok : HeapOK h) (h2 : 2 ≤ h.size) (hI : IsHeap h) :
    ∃ left right rest h1, buildStep h = some h1 ∧
      (left :: right :: rest).Perm (heapNodes h) ∧
      (heapNodes h1).Perm (.mk 36 ((left.freq + right.freq) % UINT_MOD) left right :: rest) ∧
      h1.size = h.size - 1 ∧ HeapOK h1 ∧ IsHeap h1 ∧
      (∀ x ∈ right :: rest, left.freq ≤ x.freq) ∧ (∀ x ∈ rest, right.freq ≤ x.freq) := by
  obtain ⟨x, ha, e1, e0, e2, e3, e4, e5⟩ := extractMin_spec h hok (by omega)
  have hIa : IsHeap ha := extractMin_heap e1 hI
  have hminx := extractMin_min hI e0
  obtain ⟨y, hb, f1, f0, f2, f3, f4, f5⟩ := extractMin_spec ha e5 (by omega)
  have hIb : IsHeap hb := extractMin_heap f1 hIa
  have hminy := extractMin_min hIa f0
  have hx : x ≠ .null := hok.2.1 x (e4.subset (List.mem_cons_self _ _))
  have hy : y ≠ .null := e5.2.1 y (f4.subset (List.mem_cons_self _ _))
  obtain ⟨h1, g1, g2, g3, g4, g5⟩ := insertNode_spec hb
    (.mk 36 ((x.freq + y.freq) % UINT_MOD) x y) f5 (by have := hok.1; omega) (by simp)
    (by have := hok.2.2; omega)
  refine ⟨x, y, heapNodes hb, h1, ?_, ((f4.cons x).trans e4), g4, by omega, g5,
    insertNode_heap g1 hIb, ?_, ?_⟩
  · unfold buildStep
    rw [e1]
    simp only [f1]
    cases x with
    | null => exact absurd rfl hx
    | mk lc lf ll lr =>
      cases y with
      | null => exact absurd rfl hy
      | mk rc rf rl rr => simpa [newNode, Node.ch, Node.freq] using g1
  · intro n hn
    exact hminx n (e4.subset (List.mem_cons_of_mem _ (f4.subset hn)))
  · intro n hn
    exact hminy n (f4.subset (List.mem_cons_of_mem _ hn))

/-- The build loop under an invariant of the heap contents that is stable under
reordering and under a merge of two least nodes. -/
theorem buildLoop_min (I : List Node → Prop) (hperm : ∀ a b, a.Perm b → I a → I b)
    (hmerge : ∀ l r rest, I (l :: r :: rest) → (∀ x ∈ r :: rest, l.freq ≤ x.freq) →
      (∀ x ∈ rest, r.freq ≤ x.freq) →
      I (.mk 36 ((l.freq + r.freq) % UINT_MOD) l r :: rest)) :
    ∀ (fuel : Nat) (h : minHeap), HeapOK h → IsHeap h → 1 ≤ h.size → h.size ≤ fuel + 1 →
      I (heapNodes h) →
      ∃ h1, buildLoop fuel h = some h1 ∧ h1.size = 1 ∧ I (heapNodes h1) ∧ HeapOK h1
  | 0, h, hok, _, h1, hf, hI => by
    have : h.size = 1 := by omega
    exact ⟨h, by simp [buildLoop, this], this, hI, hok⟩
  | fuel + 1, h, hok, hH, h1, hf, hI => by
    rw [buildLoop]
    by_cases hs : h.size = 1
    · exact ⟨h, by simp [hs], hs, hI, hok⟩
    · obtain ⟨l, r, rest, hn, e1, e2, e3, e4, e5, e6, e7, e8⟩ :=
        buildStep_min h hok (by omega) hH
      have hI1 : I (heapNodes hn) :=
        hperm _ _ e3.symm (hmerge l r rest (hperm _ _ e2.symm hI) e7 e8)
      obtain ⟨hr, f1, f2, f3, f4⟩ := buildLoop_min I hperm hmerge fuel hn e5 e6 (by omega)
        (by omega) hI1
      refine ⟨hr, ?_, f2, f3, f4⟩
      rw [if_pos hs, e1]
      exact f1

/-- The heapify pass and the build loop of `main` under an invariant of the heap contents
that is stable under reordering and under a merge of two least nodes. -/
theorem main_buildHeap_min (I : List Node → Prop) (hperm : ∀ a b, a.Perm b → I a → I b)
    (hmerge : ∀ l r rest, I (l :: r :: rest) → (∀ x ∈ r :: rest, l.freq ≤ x.freq) →
      (∀ x ∈ rest, r.freq ≤ x.freq) →
      I (.mk 36 ((l.freq + r.freq) % UINT_MOD) l r :: rest))
    (node : List Node) (hnn : ∀ n ∈ node, n ≠ .null) (h2 : 2 ≤ node.length)
    (h128 : node.length ≤ NUM_ALPHABETS) (hI : I node) :
    ∃ h root, main_buildHeap node = some h ∧ h.arr[0]? = some root ∧ I [root] := by
  unfold NUM_ALPHABETS at h128
  have hok : HeapOK (createMinHeap_unsorted node node.length) := by
    refine ⟨by simp [createMinHeap_unsorted], ?_, ?_⟩
    · simpa [heapNodes, createMinHeap_unsorted] using hnn
    · show 2 * node.length ≤ INT_MAX
      unfold INT_MAX; omega
  have hstart : 2 * heapifyStart node.length + 2 ≤ INT_MAX := by
    unfold heapifyStart INT_MAX
    rw [if_pos h2]
    omega
  obtain ⟨h1, e1, e2, e3, e4, e5⟩ := heapifyPass_spec _ _ hok hstart
  have hH := (heapifyPass_main_heap h2 e1).2
  have hsz : h1.size = node.length := e2
  have hI1 : I (heapNodes h1) := by
    apply hperm _ _ e4.symm
    simpa [heapNodes, createMinHeap_unsorted] using hI
  obtain ⟨hr, f1, f2, f3, f4⟩ := buildLoop_min I hperm hmerge node.length h1 e5 hH
    (by omega) (by omega) hI1
  obtain ⟨c, f, l, r, hroot⟩ := heap_slot f4.1 f4.2.1 (k := 0) (by omega)
  have hnodes : heapNodes hr = [.mk c f l r] := by
    apply List.ext_getElem?
    intro k
    by_cases hk : k = 0
    · subst hk
      rw [heapNodes_get (by omega), hroot]; rfl
    · have : (heapNodes hr).length = 1 := by
        unfold heapNodes; rw [List.length_take]; have := f4.1; omega
      rw [List.getElem?_eq_none (by omega), List.getElem?_eq_none (by simp; omega)]
  refine ⟨hr, .mk c f l r, ?_, hroot, hnodes ▸ f3⟩
  unfold main_buildHeap
  dsimp only
  rw [e1]
  exact f1

/-- In a tree with ordered merges the frequency of a node is at least the Fibonacci
number of its height plus one. -/
theorem mergeOrdered_fib : ∀ (t : Node), t ≠ .null → MergeOrdered t →
    Nat.fib (height t + 1) ≤ t.freq ∧
      (Nat.fib (height t) ≤ max t.left_node.freq t.right_node.freq ∨ height t = 1)
  | .null, h, _ => absurd rfl h
  | .mk c f l r, _, hM => by
    rw [MergeOrdered] at hM
    rcases hM with ⟨hl, hr, hf⟩ | ⟨hl, hr, hf, a1, a2, a3, a4, hMl, hMr⟩
    · subst hl hr
      refine ⟨?_, Or.inr rfl⟩
      show Nat.fib 2 ≤ f
      rw [Nat.fib_two]
      exact hf
    · obtain ⟨il1, il2⟩ := mergeOrdered_fib l hl hMl
      obtain ⟨ir1, ir2⟩ := mergeOrdered_fib r hr hMr
      have hlp := height_pos hl
      have hrp := height_pos hr
      have hl1 : 1 ≤ l.freq := le_trans (Nat.fib_pos.mpr (by omega)) il1
      have hr1 : 1 ≤ r.freq := le_trans (Nat.fib_pos.mpr (by omega)) ir1
      have hht : height (.mk c f l r) = 1 + max (height l) (height r) := rfl
      have hfl : (Node.mk c f l r).left_node = l := rfl
      have hfr : (Node.mk c f l r).right_node = r := rfl
      have hff : (Node.mk c f l r).freq = f := rfl
      rw [hht, hfl, hfr, hff]
      have hlow_l : Nat.fib (height l) ≤ r.freq := by
        rcases il2 with h0 | h0
        · exact le_trans h0 (max_le a1 a2)
        · rw [h0, Nat.fib_one]; exact hr1
      have hlow_r : Nat.fib (height r) ≤ l.freq := by
        rcases ir2 with h0 | h0
        · exact le_trans h0 (max_le a3 a4)
        · rw [h0, Nat.fib_one]; exact hl1
      rcases le_total (height r) (height l) with hle | hle
      · rw [max_eq_left hle]
        refine ⟨?_, Or.inl ?_⟩
        · have : 1 + height l + 1 = height l + 2 := by omega
          rw [this, Nat.fib_add_two, hf]
          omega
        · have : 1 + height l = height l + 1 := by omega
          rw [this]
          exact le_trans il1 (le_max_left _ _)
      · rw [max_eq_right hle]
        refine ⟨?_, Or.inl ?_⟩
        · have : 1 + height r + 1 = height r + 2 := by omega
          rw [this, Nat.fib_add_two, hf]
          omega
        · have : 1 + height r = height r + 1 := by omega
          rw [this]
          exact le_trans ir1 (le_max_right _ _)

theorem fib_48 : UINT_MOD < Nat.fib 48 := by
  unfold UINT_MOD
  norm_num [Nat.fib_add_two]

/-- The tree that `main` builds from a table of childless nodes with frequencies of at
least 1 whose sum is below 2^32 has no leaf deeper than 45. -/
theorem main_buildHeap_shallow (node : List Node) (h2 : 2 ≤ node.length)
    (h128 : node.length ≤ NUM_ALPHABETS)
    (hleaf : ∀ n ∈ node, IsLeaf n ∧ 1 ≤ n.freq)
    (hsum : (node.map Node.freq).sum < UINT_MOD) :
    ∃ h root, main_buildHeap node = some h ∧ h.arr[0]? = some root ∧ height root ≤ 46 := by
  obtain ⟨h, root, e1, e2, e3⟩ := main_buildHeap_min
    (fun l => (∀ t ∈ l, t ≠ .null ∧ MergeOrdered t) ∧
      (∀ t ∈ l, ∀ x ∈ l, t.left_node.freq ≤ x.freq ∧ t.right_node.freq ≤ x.freq) ∧
      (l.map Node.freq).sum < UINT_MOD)
    (by
      intro a b hab ⟨k1, k2, k3⟩
      refine ⟨fun t ht => k1 t (hab.mem_iff.mpr ht),
        fun t ht x hx => k2 t (hab.mem_iff.mpr ht) x (hab.mem_iff.mpr hx), ?_⟩
      rw [← (hab.map Node.freq).sum_eq]
      exact k3)
    (by
      intro l r rest ⟨k1, k2, k3⟩ m1 m2
      have hl := k1 l (List.mem_cons_self _ _)
      have hr := k1 r (List.mem_cons_of_mem _ (List.mem_cons_self _ _))
      have hlm : l ∈ l :: r :: rest := List.mem_cons_self _ _
      have hrm : r ∈ l :: r :: rest := List.mem_cons_of_mem _ (List.mem_cons_self _ _)
      simp only [List.map_cons, List.sum_cons] at k3
      have hmod : (l.freq + r.freq) % UINT_MOD = l.freq + r.freq :=
        Nat.mod_eq_of_lt (by omega)
      rw [hmod]
      refine ⟨?_, ?_, ?_⟩
      · intro t ht
        rcases List.mem_cons.mp ht with rfl | ht
        · refine ⟨by simp, ?_⟩
          rw [MergeOrdered]
          exact Or.inr ⟨hl.1, hr.1, rfl, (k2 l hlm r hrm).1, (k2 l hlm r hrm).2,
            (k2 r hrm l hlm).1, (k2 r hrm l hlm).2, hl.2, hr.2⟩
        · exact k1 t (List.mem_cons_of_mem _ (List.mem_cons_of_mem _ ht))
      · intro t ht x hx
        have hxl : l.freq ≤ x.freq := by
          rcases List.mem_cons.mp hx with rfl | hx
          · show l.freq ≤ l.freq + r.freq
            omega
          · exact m1 x (List.mem_cons_of_mem _ hx)
        rcases List.mem_cons.mp ht with rfl | ht
        · show l.freq ≤ x.freq ∧ r.freq ≤ x.freq
          refine ⟨hxl, ?_⟩
          rcases List.mem_cons.mp hx with rfl | hx
          · show r.freq ≤ l.freq + r.freq
            omega
          · exact m2 x hx
        · have := k2 t (List.mem_cons_of_mem _ (List.mem_cons_of_mem _ ht)) l hlm
          exact ⟨le_trans this.1 hxl, le_trans this.2 hxl⟩
      · simp only [List.map_cons, List.sum_cons]
        show l.freq + r.freq + (rest.map Node.freq).sum < UINT_MOD
        omega)
    node (fun n hn => by
      obtain ⟨c, f, rfl⟩ := (isLeaf_iff n).mp (hleaf n hn).1
      simp) h2 h128
    (by
      refine ⟨?_, ?_, hsum⟩
      · intro t ht
        obtain ⟨c, f, rfl⟩ := (isLeaf_iff t).mp (hleaf t ht).1
        refine ⟨by simp, ?_⟩
        rw [MergeOrdered]
        exact Or.inl ⟨rfl, rfl, (hleaf _ ht).2⟩
      · intro t ht x _
        obtain ⟨c, f, rfl⟩ := (isLeaf_iff t).mp (hleaf t ht).1
        exact ⟨Nat.zero_le _, Nat.zero_le _⟩)
  refine ⟨h, root, e1, e2, ?_⟩
  obtain ⟨k1, _, k3⟩ := e3
  obtain ⟨hn, hM⟩ := k1 root (List.mem_singleton_self _)
  have hfib := (mergeOrdered_fib root hn hM).1
  simp only [List.map_cons, List.map_nil, List.sum_cons, List.sum_nil, Nat.add_zero] at k3
  by_contra hc
  have h48 : 48 ≤ height root + 1 := by omega
  have := Nat.fib_mono h48
  have := fib_48
  omega

/-! ## The claims -/

/-- Claim C1 (round trip), evaluated at the specification's own input `"aaabbc"`:
whatever fuel the assignment loop is given beyond the 3 calls it needs, compression
writes `exampleFile` and decompressing that file yields `"aaabbca"`, the input followed by
one more `a`. The round trip law does not hold of the program. -/
theorem roundtrip_fails_on_aaabbc (k : Nat) :
    main_compress (3 + k) exampleInput = some exampleFile ∧
      main_decompress exampleFile = some [97, 97, 97, 98, 98, 99, 97] ∧
      main_decompress exampleFile ≠ some exampleInput :=
  ⟨main_compress_mono 3 k exampleInput exampleFile (by decide), by decide, by decide⟩

/-- Claim C2 (input of one repeated byte): for every byte `b`, every length `L` and every
fuel, compression produces no file, because the heapify pass of `main` starts at index
2147483647 and `minHeapify` leaves defined behaviour there. Were the pass skipped,
`findCharCode` would give the only leaf the code length 0, and the file then written,
`0`, `1`, `a` and no body, decompresses to the empty output. -/
theorem single_symbol_input_not_compressed :
    (∀ (fuel b L : Nat), main_compress fuel (List.replicate L b) = none) ∧
      (findCharCode (.mk 97 3 .null .null) mallocCharCode 0).map
        (fun p => (p.2.ch, p.2.codeLen)) = some (97, 0) ∧
      writeCharCode [{ ch := 97, code := List.replicate 64 0, codeLen := 0 }] 1 =
        some [97, 10] ∧
      main_decompress (headerLines 1 ++ [97, 10]) = some [] := by
  refine ⟨?_, by decide, by decide, by decide⟩
  intro fuel b L
  unfold main_compress
  cases hr : readFile (List.replicate L b) [] with
  | none => rfl
  | some node =>
    have hlen := readFile_one_value b L [] node (by simp) (by simp) hr
    simp only [main_codeTable, main_buildHeap_small node (by omega)]

/-- Claim C3 (bits taken from the final byte), evaluated at `"aaabbc"`: the 9 code bits
leave `k = 2` bits for the final body byte, `compressFile` stores 3 in the first header
line, and `decompressFile` walks 3 bits of the final byte, not 2. -/
theorem final_byte_walks_one_bit_more (k : Nat) :
    (encodeBits exampleTable exampleInput).length % 7 = 2 ∧
      main_codeTable (3 + k) exampleNode = some exampleTable ∧
      main_compress (3 + k) exampleInput = some exampleFile ∧
      (splitLines exampleFile)[0]? = some [51] ∧
      main_decompressTrace exampleFile = some ([97, 97, 97, 98, 98, 99, 97], 3) :=
  ⟨by decide, main_codeTable_mono 3 k exampleNode exampleTable (by decide),
    main_compress_mono 3 k exampleInput exampleFile (by decide), by decide, by decide⟩

/-- Claim C4 (prefix-free code table): in every code table that the compression path
produces (the symbol table of a file, the heap, the tree and the assignment loop, with
any fuel), the code of an entry is not a prefix of the code of an entry for another
symbol. -/
theorem codeTable_prefix_free (fuel : Nat) (file : List Nat) (node : List Node)
    (table : List CharCode) (hr : readFile file [] = some node)
    (ht : main_codeTable fuel node = some table) :
    ∀ a ∈ table, ∀ b ∈ table, a.ch ≠ b.ch → ¬ a.bits <+: b.bits := by
  obtain ⟨root, hI, _, _⟩ := main_codeTable_inv fuel file node table hr ht
  exact AssignInv_prefix_free hI

/-- Witness of C4: the code table of `"aaabbc"`. -/
theorem codeTable_prefix_free_witness :
    readFile exampleInput [] = some exampleNode ∧
      main_codeTable 3 exampleNode = some exampleTable ∧
      ∀ a ∈ exampleTable, ∀ b ∈ exampleTable, a.ch ≠ b.ch → ¬ a.bits <+: b.bits :=
  ⟨by decide, by decide,
    codeTable_prefix_free 3 exampleInput exampleNode exampleTable (by decide) (by decide)⟩

/-- Claim C5 as stated fails: the file `a`, `b`, 0xFF has three bytes and three distinct
byte values, but `readFile` takes the byte 0xFF for the end of the file, and the root of
the tree has frequency 2. -/
theorem build_tree_root_stops_at_sentinel :
    ((readFile [97, 98, 255] []).bind main_buildHeap).bind (fun h => h.arr[0]?) =
        some (.mk 36 2 (.mk 97 1 .null .null) (.mk 98 1 .null .null)) ∧
      [97, 98, 255].length = 3 ∧ 2 ≤ [97, 98, 255].dedup.length := by
  decide

/-- Claim C5 (amended): for every file of bytes other than 0xFF with at least 2 and at
most `NUM_ALPHABETS` distinct byte values and fewer than 2^32 bytes, the build loop ends
with one tree in the heap; in it every node with a child has the sum of its children's
frequencies as frequency, and the frequency of the root is the number of bytes of the
file. -/
theorem build_tree_frequencies (file : List Nat) (hb : ∀ b ∈ file, b < 256 ∧ b ≠ 255)
    (h2 : 2 ≤ file.dedup.length) (h128 : file.dedup.length ≤ NUM_ALPHABETS)
    (hlen : file.length < UINT_MOD) :
    ∃ node h root, readFile file [] = some node ∧ main_buildHeap node = some h ∧
      h.size = 1 ∧ h.arr[0]? = some root ∧ FreqSum root ∧ root.freq = file.length := by
  obtain ⟨node, e1, e2⟩ := readFile_inv file [] [] SymInv_nil hb (by simpa using h128)
  rw [List.nil_append] at e2
  have hl := SymInv_length e2
  obtain ⟨h, root, f1, f2, f3, f4, f5⟩ := main_buildHeap_freq file node e2 (by omega)
    (by omega) hlen
  exact ⟨node, h, root, e1, f1, f2, f3, f4, f5⟩

/-- Witness of C5: the file `"aaabbc"`. -/
theorem build_tree_frequencies_witness :
    (∀ b ∈ exampleInput, b < 256 ∧ b ≠ 255) ∧ 2 ≤ exampleInput.dedup.length ∧
      exampleInput.dedup.length ≤ NUM_ALPHABETS ∧ exampleInput.length < UINT_MOD ∧
      ∃ node h root, readFile exampleInput [] = some node ∧ main_buildHeap node = some h ∧
        h.size = 1 ∧ h.arr[0]? = some root ∧ FreqSum root ∧
        root.freq = exampleInput.length :=
  ⟨by decide, by decide, by decide, by decide,
    build_tree_frequencies exampleInput (by decide) (by decide) (by decide) (by decide)⟩

/-- Claim C6 (the scenario `"aaabbc"`): `readFile` yields a:3, b:2, c:1, three symbols;
the code table has the lengths 1 for a, 2 for b and 2 for c, so
len(a) ≤ len(b) ≤ len(c); and the second line of the compressed file is `3`. -/
theorem example_aaabbc_table_and_header (k : Nat) :
    readFile exampleInput [] = some exampleNode ∧ exampleNode.length = 3 ∧
      main_codeTable (3 + k) exampleNode = some exampleTable ∧
      exampleTable.map (fun e => (e.ch, e.codeLen)) = [(97, 1), (99, 2), (98, 2)] ∧
      main_compress (3 + k) exampleInput = some exampleFile ∧
      (splitLines exampleFile)[1]? = some [51] :=
  ⟨by decide, by decide, main_codeTable_mono 3 k exampleNode exampleTable (by decide),
    by decide, main_compress_mono 3 k exampleInput exampleFile (by decide), by decide⟩

/-- Claim C7 as stated fails: in a file of 2^32 bytes `a` the byte occurs 2^32 times, and
the entry that `readFile` makes for it has the frequency 0, since `freq` is an `unsigned`
that wraps around. -/
theorem readFile_frequency_wraps :
    (∀ b ∈ List.replicate UINT_MOD 97, b < 256 ∧ b ≠ 255) ∧
      (List.replicate UINT_MOD 97).dedup.length ≤ NUM_ALPHABETS ∧
      readFile (List.replicate UINT_MOD 97) [] = some [.mk 97 0 .null .null] ∧
      (List.replicate UINT_MOD 97).count 97 = UINT_MOD ∧ UINT_MOD ≠ 0 := by
  refine ⟨?_, ?_, ?_, List.count_replicate_self 97 UINT_MOD, by decide⟩
  · intro b hb
    rw [List.eq_of_mem_replicate hb]
    decide
  · have h1 : (List.replicate UINT_MOD 97).dedup.length ≤ [97].dedup.length :=
      dedup_length_le_of_subset (fun x hx => by
        rw [List.eq_of_mem_replicate hx]; exact List.mem_singleton_self 97)
    have h2 : [97].dedup.length = 1 := by decide
    unfold NUM_ALPHABETS
    omega
  · have hM : UINT_MOD = (UINT_MOD - 1) + 1 := by decide
    have hc : toChar (97 : Nat) = 97 := by decide
    have hne : toChar (97 : Nat) ≠ EOF := by decide
    rw [hM, List.replicate_succ, readFile]
    simp only [if_neg hne, List.findIdx?_nil, List.length_nil, List.nil_append]
    rw [if_pos (by decide)]
    rcases readFile_run 97 hne (UINT_MOD - 1) ((0 + 1) % UINT_MOD) with h | h
    · rw [h, hc]
      have : ((0 + 1) % UINT_MOD + (UINT_MOD - 1)) % UINT_MOD = 0 := by decide
      rw [this]
    · exact absurd h (by decide)

/-- Claim C7 (amended): for every file of bytes other than 0xFF with at most
`NUM_ALPHABETS` distinct byte values, `readFile` fills the symbol table with one entry
per distinct byte value of the file, in the order in which the values first appear; the
number of entries is the number of distinct byte values; and each entry is a childless
node whose frequency is the number of occurrences of its byte modulo 2^32. -/
theorem readFile_symbol_table (file : List Nat) (hb : ∀ b ∈ file, b < 256 ∧ b ≠ 255)
    (h128 : file.dedup.length ≤ NUM_ALPHABETS) :
    ∃ node, readFile file [] = some node ∧ node.length = file.dedup.length ∧
      (node.map (fun n => toByte n.ch)).Nodup ∧
      (∀ b, b ∈ node.map (fun n => toByte n.ch) ↔ b ∈ file) ∧
      (node.map (fun n => file.indexOf (toByte n.ch))).Pairwise (fun i j => i < j) ∧
      ∀ n ∈ node, n = .mk (toChar (toByte n.ch)) (file.count (toByte n.ch) % UINT_MOD)
        .null .null := by
  obtain ⟨node, e1, e2⟩ := readFile_inv file [] [] SymInv_nil hb (by simpa using h128)
  rw [List.nil_append] at e2
  exact ⟨node, e1, SymInv_length e2, e2.1, e2.2.1, e2.2.2.2, e2.2.2.1⟩

/-- Witness of C7: the file `"aaabbc"`. -/
theorem readFile_symbol_table_witness :
    (∀ b ∈ exampleInput, b < 256 ∧ b ≠ 255) ∧ exampleInput.dedup.length ≤ NUM_ALPHABETS ∧
      ∃ node, readFile exampleInput [] = some node ∧
        node.length = exampleInput.dedup.length ∧
        (node.map (fun n => toByte n.ch)).Nodup ∧
        (∀ b, b ∈ node.map (fun n => toByte n.ch) ↔ b ∈ exampleInput) ∧
        (node.map (fun n => exampleInput.indexOf (toByte n.ch))).Pairwise
          (fun i j => i < j) ∧
        ∀ n ∈ node, n = .mk (toChar (toByte n.ch))
          (exampleInput.count (toByte n.ch) % UINT_MOD) .null .null :=
  ⟨by decide, by decide, readFile_symbol_table exampleInput (by decide) (by decide)⟩

/-- Claim C8 (code table in the header): for every code table of at most `NUM_ALPHABETS`
entries, each with a character in the range of `char` and a code of at most 64 elements
0 and 1 in its 64-slot buffer, `writeCharCode` writes one line `codeLine` per entry (the
symbol byte, the code as characters `'0'` and `'1'`, a newline), and
`extractCodesFromCompressedFile`, reading these lines with anything after them, returns
entries with the same symbols, the same code lengths and the same codes as characters,
and leaves the stream after the lines. -/
theorem header_roundtrip (arr : List CharCode) (rest : List Nat)
    (hwf : ∀ e ∈ arr, e.code.length = 64 ∧ e.codeLen ≤ 64 ∧
      (∀ b ∈ e.bits, b = 0 ∨ b = 1) ∧ -128 ≤ e.ch ∧ e.ch ≤ 127)
    (hN : arr.length ≤ NUM_ALPHABETS) :
    writeCharCode arr arr.length = some (arr.map codeLine).flatten ∧
    ∃ table, extractCodesFromCompressedFile ((arr.map codeLine).flatten ++ rest) arr.length =
        some (table, rest) ∧
      table.map (fun e => (e.ch, e.codeLen, e.bits)) =
        arr.map (fun e => (e.ch, e.codeLen, e.bits.map (fun b => b + 48))) := by
  have h := write_extract_from rest arr 0 hwf (by omega)
  unfold extractCodesFromCompressedFile
  rw [Int.toNat_ofNat]
  exact h

/-- Witness of C8: the code table of `"aaabbc"`, followed by the body bytes 15 and 64. -/
theorem header_roundtrip_witness :
    (∀ e ∈ exampleTable, e.code.length = 64 ∧ e.codeLen ≤ 64 ∧
      (∀ b ∈ e.bits, b = 0 ∨ b = 1) ∧ -128 ≤ e.ch ∧ e.ch ≤ 127) ∧
    exampleTable.length ≤ NUM_ALPHABETS ∧
    writeCharCode exampleTable exampleTable.length =
      some (exampleTable.map codeLine).flatten ∧
    ∃ table, extractCodesFromCompressedFile
        ((exampleTable.map codeLine).flatten ++ [15, 64]) exampleTable.length =
        some (table, [15, 64]) ∧
      table.map (fun e => (e.ch, e.codeLen, e.bits)) =
        exampleTable.map (fun e => (e.ch, e.codeLen, e.bits.map (fun b => b + 48))) :=
  ⟨by decide, by decide, header_roundtrip exampleTable [15, 64] (by decide) (by decide)⟩

/-- Claim C9 (packing in groups of 7 bits): for every code table that the compression
path produces and every input whose bytes all have an entry in it, let `bits` be the
concatenation of the codes of the input bytes and `B` its length; `compressFile`,
called on a file that holds the header, adds `ceil(B / 7)` body bytes, every body byte is
below 128, and for every `i < B / 7` body byte `i` is the number whose 7 binary digits,
most significant first, are `bits[7 i .. 7 i + 7)`. -/
theorem compressFile_packs_seven_bits (fuel : Nat) (file : List Nat) (node : List Node)
    (arr : List CharCode) (input output : List Nat)
    (hr : readFile file [] = some node) (ht : main_codeTable fuel node = some arr)
    (hcov : ∀ b ∈ input, ∃ e ∈ arr, e.ch = toChar b) (hout : output ≠ []) :
    ∃ result, compressFile input output arr = some result ∧
      (result.drop output.length).length = ((encodeBits arr input).length + 6) / 7 ∧
      (∀ x ∈ result.drop output.length, x < 128) ∧
      ∀ i, i < (encodeBits arr input).length / 7 →
        ∃ x, (result.drop output.length)[i]? = some x ∧
          (x : Int) = bitsVal (((encodeBits arr input).drop (7 * i)).take 7) := by
  obtain ⟨root, hI, _, _⟩ := main_codeTable_inv fuel file node arr hr ht
  have hT : TableOK arr := TableOK_of_inv hI
  obtain ⟨result, e1, e2⟩ := compressFile_body input output arr hT hcov hout
  have hbits := encodeBits_bits hT input
  have hchunk : ∀ i, (toByte (bitsVal (((encodeBits arr input).drop (7 * i)).take 7)) : Int) =
        bitsVal (((encodeBits arr input).drop (7 * i)).take 7) ∧
      toByte (bitsVal (((encodeBits arr input).drop (7 * i)).take 7)) < 128 :=
    fun i => toByte_bitsVal
      (fun b hb => hbits b (List.mem_of_mem_drop (List.mem_of_mem_take hb)))
      (by rw [List.length_take]; omega)
  have hmod := Nat.mod_lt (encodeBits arr input).length (show 0 < 7 by omega)
  refine ⟨result, e1, ?_, ?_, ?_⟩
  · rw [e2, List.length_append, List.length_map, List.length_range]
    split <;> simp <;> omega
  · intro x hx
    rw [e2, List.mem_append] at hx
    rcases hx with hx | hx
    · obtain ⟨i, _, rfl⟩ := List.mem_map.mp hx
      exact (hchunk i).2
    · split at hx
      · simp at hx
      · rename_i hk
        rw [List.mem_singleton] at hx
        rw [hx]
        have hpl : ((encodeBits arr input).drop
            (7 * ((encodeBits arr input).length / 7))).length =
            (encodeBits arr input).length % 7 := by
          rw [List.length_drop]
          have := Nat.div_add_mod (encodeBits arr input).length 7
          omega
        have hb := bitsVal_bound ((encodeBits arr input).drop
          (7 * ((encodeBits arr input).length / 7)))
          (fun b hb => hbits b (List.mem_of_mem_drop hb))
        rw [hpl] at hb
        exact (lastByte_bound _ _ hb.1 hb.2 hk hmod).2
  · intro i hi
    refine ⟨_, ?_, (hchunk i).1⟩
    rw [e2, List.getElem?_append_left (by simpa using hi), List.getElem?_map,
      List.getElem?_range hi]
    rfl

/-- Witness of C9: `"aaabbc"` and its code table, after a one-line header. -/
theorem compressFile_packs_seven_bits_witness :
    readFile exampleInput [] = some exampleNode ∧
    main_codeTable 3 exampleNode = some exampleTable ∧
    (∀ b ∈ exampleInput, ∃ e ∈ exampleTable, e.ch = toChar b) ∧ [48, 10] ≠ [] ∧
    ∃ result, compressFile exampleInput [48, 10] exampleTable = some result ∧
      (result.drop [48, 10].length).length =
        ((encodeBits exampleTable exampleInput).length + 6) / 7 ∧
      (∀ x ∈ result.drop [48, 10].length, x < 128) ∧
      ∀ i, i < (encodeBits exampleTable exampleInput).length / 7 →
        ∃ x, (result.drop [48, 10].length)[i]? = some x ∧
          (x : Int) = bitsVal (((encodeBits exampleTable exampleInput).drop (7 * i)).take 7) :=
  ⟨by decide, by decide, by decide, by decide,
    compressFile_packs_seven_bits 3 exampleInput exampleNode exampleTable exampleInput
      [48, 10] (by decide) (by decide) (by decide) (by decide)⟩

/-- Claim C10 as stated fails: for `"aaabbc"` the 9 code bits leave the group `1 0` of
`k = 2` bits; the final body byte is 64, binary 1000000; its low 2 bits are 0 0, not the
group, which has the value 2. -/
theorem final_byte_low_bits_are_padding :
    main_compress 3 exampleInput = some exampleFile ∧
      encodeBits exampleTable exampleInput = [0, 0, 0, 1, 1, 1, 1, 1, 0] ∧
      (encodeBits exampleTable exampleInput).drop 7 = [1, 0] ∧
      exampleFile.getLast? = some 64 ∧ (64 : Int) % 2 ^ 2 = 0 ∧ bitsVal [1, 0] = 2 := by
  decide

/-- Claim C10 (amended): for every code table that the compression path produces and
every input covered by it whose code bits leave a group of `k` bits, `1 ≤ k ≤ 6`, after
the last full group of 7, the final body byte written by `compressFile` is the value of
that group times `2 ^ (7 - k)`: the group is in the `k` bits below bit 7, and the `7 - k`
low bits are zero padding. -/
theorem compressFile_final_byte_top_aligned (fuel : Nat) (file : List Nat) (node : List Node)
    (arr : List CharCode) (input output : List Nat)
    (hr : readFile file [] = some node) (ht : main_codeTable fuel node = some arr)
    (hcov : ∀ b ∈ input, ∃ e ∈ arr, e.ch = toChar b) (hout : output ≠ [])
    (hk : (encodeBits arr input).length % 7 ≠ 0) :
    ∃ result x, compressFile input output arr = some result ∧
      (result.drop output.length).getLast? = some x ∧
      (x : Int) = bitsVal ((encodeBits arr input).drop
          (7 * ((encodeBits arr input).length / 7))) *
        2 ^ (7 - (encodeBits arr input).length % 7) ∧
      (x : Int) / 2 ^ (7 - (encodeBits arr input).length % 7) =
        bitsVal ((encodeBits arr input).drop (7 * ((encodeBits arr input).length / 7))) ∧
      (x : Int) % 2 ^ (7 - (encodeBits arr input).length % 7) = 0 := by
  obtain ⟨root, hI, _, _⟩ := main_codeTable_inv fuel file node arr hr ht
  have hT : TableOK arr := TableOK_of_inv hI
  obtain ⟨result, e1, e2⟩ := compressFile_body input output arr hT hcov hout
  have hbits := encodeBits_bits hT input
  have hmod := Nat.mod_lt (encodeBits arr input).length (show 0 < 7 by omega)
  have hpl : ((encodeBits arr input).drop
      (7 * ((encodeBits arr input).length / 7))).length =
      (encodeBits arr input).length % 7 := by
    rw [List.length_drop]
    have := Nat.div_add_mod (encodeBits arr input).length 7
    omega
  have hb := bitsVal_bound ((encodeBits arr input).drop
    (7 * ((encodeBits arr input).length / 7)))
    (fun b hb => hbits b (List.mem_of_mem_drop hb))
  rw [hpl] at hb
  have hlast := (lastByte_bound _ _ hb.1 hb.2 hk hmod).1
  refine ⟨result, _, e1, ?_, hlast, ?_, ?_⟩
  · rw [e2, if_neg hk, List.getLast?_append]
    rfl
  · rw [hlast]
    exact Int.mul_ediv_cancel _ (by positivity)
  · rw [hlast]
    exact Int.mul_emod_left _ _

/-- Witness of C10: `"aaabbc"` and its code table, after a one-line header. -/
theorem compressFile_final_byte_top_aligned_witness :
    readFile exampleInput [] = some exampleNode ∧
    main_codeTable 3 exampleNode = some exampleTable ∧
    (∀ b ∈ exampleInput, ∃ e ∈ exampleTable, e.ch = toChar b) ∧ [48, 10] ≠ [] ∧
    (encodeBits exampleTable exampleInput).length % 7 ≠ 0 ∧
    ∃ result x, compressFile exampleInput [48, 10] exampleTable = some result ∧
      (result.drop [48, 10].length).getLast? = some x ∧
      (x : Int) = bitsVal ((encodeBits exampleTable exampleInput).drop
          (7 * ((encodeBits exampleTable exampleInput).length / 7))) *
        2 ^ (7 - (encodeBits exampleTable exampleInput).length % 7) ∧
      (x : Int) / 2 ^ (7 - (encodeBits exampleTable exampleInput).length % 7) =
        bitsVal ((encodeBits exampleTable exampleInput).drop
          (7 * ((encodeBits exampleTable exampleInput).length / 7))) ∧
      (x : Int) % 2 ^ (7 - (encodeBits exampleTable exampleInput).length % 7) = 0 :=
  ⟨by decide, by decide, by decide, by decide, by decide,
    compressFile_final_byte_top_aligned 3 exampleInput exampleNode exampleTable exampleInput
      [48, 10] (by decide) (by decide) (by decide) (by decide) (by decide)⟩

/-- Claim C17 (heap invariant): for every node array of size n ≥ 2 (of non-null nodes, with
child indices that fit an `int`), the bottom-up pass of `main`, which calls `minHeapify`
for i = (n-2)/2 down to 0, returns a heap in which every slot is at most each of its
children below `size` in frequency; `extractMin` on a non-empty heap with that invariant
returns a heap with the invariant; and so does `insertNode` on a heap that has a free
slot. -/
theorem heap_invariant_established_and_kept :
    (∀ node : List Node, 2 ≤ node.length → 2 * node.length ≤ INT_MAX →
      (∀ n ∈ node, n ≠ .null) →
      ∃ h, heapifyPass (heapifyStart node.length)
          (createMinHeap_unsorted node node.length) = some h ∧ h.size = node.length ∧
        IsHeap h) ∧
    (∀ h : minHeap, HeapOK h → 0 < h.size → IsHeap h →
      ∃ x h1, extractMin h = some (x, h1) ∧ IsHeap h1) ∧
    (∀ (h : minHeap) (n : Node), HeapOK h → h.size < h.arr.length → n ≠ .null →
      2 * (h.size + 1) ≤ INT_MAX → IsHeap h →
      ∃ h1, insertNode h n = some h1 ∧ IsHeap h1) := by
  refine ⟨?_, ?_, ?_⟩
  · intro node h2 hmax hnn
    have hok : HeapOK (createMinHeap_unsorted node node.length) := by
      refine ⟨by simp [createMinHeap_unsorted], ?_, hmax⟩
      intro n hn
      simp only [heapNodes, createMinHeap_unsorted, List.take_length] at hn
      exact hnn n hn
    obtain ⟨h, hp, _⟩ := heapifyPass_spec (heapifyStart node.length) _ hok (by
      rw [heapifyStart, if_pos h2]
      omega)
    have := heapifyPass_main_heap h2 hp
    exact ⟨h, hp, this.1, this.2⟩
  · intro h hok hpos hI
    obtain ⟨x, h1, he, _⟩ := extractMin_spec h hok hpos
    exact ⟨x, h1, he, extractMin_heap he hI⟩
  · intro h n hok hcap hn hmax hI
    obtain ⟨h1, he, _⟩ := insertNode_spec h n hok hcap hn hmax
    exact ⟨h1, he, insertNode_heap he hI⟩

/-- Witness of C17: the symbol table of `"aaabbc"`, the heap c:1, b:2, a:3 that the pass
makes of it, and the insertion of a node of frequency 0 into the heap b:2, a:3. -/
theorem heap_invariant_established_and_kept_witness :
    (∃ h, heapifyPass (heapifyStart exampleNode.length)
        (createMinHeap_unsorted exampleNode exampleNode.length) = some h ∧
      h.size = exampleNode.length ∧ IsHeap h) ∧
    (∃ x h1, extractMin { size := 3, arr := [.mk 99 1 .null .null, .mk 98 2 .null .null,
        .mk 97 3 .null .null] } = some (x, h1) ∧ IsHeap h1) ∧
    (∃ h1, insertNode { size := 2, arr := [.mk 98 2 .null .null, .mk 97 3 .null .null,
        .mk 97 3 .null .null] } (.mk 36 0 .null .null) = some h1 ∧ IsHeap h1) :=
  ⟨heap_invariant_established_and_kept.1 exampleNode (by decide) (by decide) (by decide),
    heap_invariant_established_and_kept.2.1 _
      ⟨by decide, by decide, by decide⟩ (by decide) (isHeap_of_check _ (by decide)),
    heap_invariant_established_and_kept.2.2 _ _
      ⟨by decide, by decide, by decide⟩ (by decide) (by decide) (by decide)
      (isHeap_of_check _ (by decide))⟩

/-- Claim C18 (`extractMin`): on a non-empty heap that satisfies the heap invariant,
`extractMin` returns a node whose frequency is at most the frequency of every node of the
heap, the logical size goes down by exactly one, and the returned node together with the
nodes left in the heap is a rearrangement of the nodes the heap held. -/
theorem extractMin_returns_minimum (h : minHeap) (hok : HeapOK h) (hpos : 0 < h.size)
    (hI : IsHeap h) :
    ∃ x h1, extractMin h = some (x, h1) ∧ (∀ n ∈ heapNodes h, x.freq ≤ n.freq) ∧
      h1.size = h.size - 1 ∧ (x :: heapNodes h1).Perm (heapNodes h) := by
  obtain ⟨x, h1, he, h0, hs, _, hp, _⟩ := extractMin_spec h hok hpos
  exact ⟨x, h1, he, extractMin_min hI h0, hs, hp⟩

/-- Witness of C18: the heap c:1, b:2, a:3 of `"aaabbc"`. -/
theorem extractMin_returns_minimum_witness :
    ∃ x h1, extractMin { size := 3, arr := [.mk 99 1 .null .null, .mk 98 2 .null .null,
        .mk 97 3 .null .null] } = some (x, h1) ∧
      (∀ n ∈ heapNodes { size := 3, arr := [.mk 99 1 .null .null, .mk 98 2 .null .null,
        .mk 97 3 .null .null] }, x.freq ≤ n.freq) ∧
      h1.size = 3 - 1 ∧
      (x :: heapNodes h1).Perm (heapNodes { size := 3, arr := [.mk 99 1 .null .null,
        .mk 98 2 .null .null, .mk 97 3 .null .null] }) :=
  extractMin_returns_minimum _ ⟨by decide, by decide, by decide⟩ (by decide)
    (isHeap_of_check _ (by decide))

/-- Claim C19 (tree builder): for every symbol table of n ≥ 2 childless entries (n at most
`NUM_ALPHABETS`), the heapify pass and the build loop return; the loop runs exactly n-1
merges (after k < n-1 iterations the heap size is n-k, after n-1 iterations it is 1 and
that heap is the result); every iteration extracts two nodes and inserts a new `'$'` node
with the first as left child and the second as right child; and in the resulting root
every node has no child or two, and the leaves are the n entries of the table, each
once. -/
theorem build_loop_merges (node : List Node) (h2 : 2 ≤ node.length)
    (h128 : node.length ≤ NUM_ALPHABETS) (hleaf : ∀ n ∈ node, IsLeaf n) :
    (∃ h0 h root, heapifyPass (heapifyStart node.length)
          (createMinHeap_unsorted node node.length) = some h0 ∧
        main_buildHeap node = some h ∧ buildIter (node.length - 1) h0 = some h ∧
        h.size = 1 ∧
        (∀ k, k < node.length - 1 →
          ∃ hk, buildIter k h0 = some hk ∧ hk.size = node.length - k) ∧
        h.arr[0]? = some root ∧ Full root ∧ (leaves root).Perm node) ∧
      ∀ g g1, buildStep g = some g1 →
        ∃ left gA right gB, extractMin g = some (left, gA) ∧
          extractMin gA = some (right, gB) ∧
          insertNode gB (.mk 36 ((left.freq + right.freq) % UINT_MOD) left right) =
            some g1 := by
  refine ⟨?_, fun g g1 hs => buildStep_unfold hs⟩
  obtain ⟨h, root, e1, e2, e3, e4, e5, _⟩ := main_buildHeap_leaves node h2 h128 hleaf
  have hok : HeapOK (createMinHeap_unsorted node node.length) := by
    refine ⟨by simp [createMinHeap_unsorted], ?_, ?_⟩
    swap
    · show 2 * node.length ≤ INT_MAX
      unfold NUM_ALPHABETS at h128
      unfold INT_MAX
      omega
    intro n hn
    simp only [heapNodes, createMinHeap_unsorted, List.take_length] at hn
    obtain ⟨c, f, rfl⟩ := (isLeaf_iff n).mp (hleaf n hn)
    simp
  obtain ⟨h0, hp, hs0, _, _, hok0⟩ := heapifyPass_spec (heapifyStart node.length) _ hok (by
    rw [heapifyStart, if_pos h2]
    unfold NUM_ALPHABETS at h128
    unfold INT_MAX
    omega)
  have hs0a : h0.size = node.length := hs0
  have hl : buildLoop node.length h0 = some h := by
    have := e1
    unfold main_buildHeap at this
    simp only [hp] at this
    exact this
  obtain ⟨f1, f2⟩ := buildLoop_iter node.length h0 h hok0 (by omega) hl
  rw [hs0a] at f1 f2
  exact ⟨h0, h, root, hp, e1, f1, e2, f2, e3, e4, e5⟩

/-- Witness of C19: the symbol table of `"aaabbc"`. -/
theorem build_loop_merges_witness :
    (∃ h0 h root, heapifyPass (heapifyStart exampleNode.length)
          (createMinHeap_unsorted exampleNode exampleNode.length) = some h0 ∧
        main_buildHeap exampleNode = some h ∧
        buildIter (exampleNode.length - 1) h0 = some h ∧ h.size = 1 ∧
        (∀ k, k < exampleNode.length - 1 →
          ∃ hk, buildIter k h0 = some hk ∧ hk.size = exampleNode.length - k) ∧
        h.arr[0]? = some root ∧ Full root ∧ (leaves root).Perm exampleNode) ∧
      ∀ g g1, buildStep g = some g1 →
        ∃ left gA right gB, extractMin g = some (left, gA) ∧
          extractMin gA = some (right, gB) ∧
          insertNode gB (.mk 36 ((left.freq + right.freq) % UINT_MOD) left right) =
            some g1 :=
  build_loop_merges exampleNode (by decide) (by decide) (by simp [exampleNode, IsLeaf])

/-- Claim C14 as stated fails: `deepNode` is a table of 69 symbols, all greater than 9 and
other than `'$'`, each with the frequency 2^32 - 1. The frequency of a merged node wraps
around and is below that of every symbol, so the tree is a chain, and the leaf of the
symbol 40 is at depth 68, at the end of the path of 68 zeros. The buffer `code` has 64
slots: with the array bound enforced, the first call of `findCharCode` writes `code[64]`
outside it and the loop returns no table, whatever the fuel. On the bytes of the object
as the ABI lays it out, `code[67]` is the first byte of `codeLen`: the call records the
symbol 40 with `codeLen` 68, and the code then read from the object is 67 zeros followed
by 68, not the path. -/
theorem code_beyond_buffer_is_not_the_path :
    deepNode.length = 69 ∧
      (∀ n ∈ deepNode, IsLeaf n ∧ 9 < n.ch ∧ n.ch ≠ 36) ∧
      ((main_buildHeap deepNode).bind (fun h => h.arr[0]?)).map
        (fun root => (height root, root.sub (List.replicate 68 0),
          findCharCode root mallocCharCode 0)) =
        some (69, .mk 40 4294967295 .null .null, none) ∧
      ((main_buildHeap deepNode).bind (fun h => h.arr[0]?)).bind
        (fun root => (findCharCodeObj root (List.replicate 72 0) 0).map
          (fun p => (objCh p.2, objCodeLen p.2, (List.range 68).map (objCode p.2)))) =
        some (40, 68, List.replicate 67 0 ++ [68]) ∧
      ∀ fuel, main_codeTable fuel deepNode = none := by
  have key : ((main_buildHeap deepNode).bind (fun h => h.arr[0]?)).map
      (fun root => (height root, root.sub (List.replicate 68 0),
        findCharCode root mallocCharCode 0)) =
      some (69, .mk 40 4294967295 .null .null, none) := by
    set_option maxRecDepth 100000 in decide
  have obj : ((main_buildHeap deepNode).bind (fun h => h.arr[0]?)).bind
      (fun root => (findCharCodeObj root (List.replicate 72 0) 0).map
        (fun p => (objCh p.2, objCodeLen p.2, (List.range 68).map (objCode p.2)))) =
      some (40, 68, List.replicate 67 0 ++ [68]) := by
    set_option maxRecDepth 100000 in decide
  refine ⟨by decide, ?_, key, obj, ?_⟩
  · intro n hn
    obtain ⟨i, _, rfl⟩ := List.mem_map.mp hn
    refine ⟨trivial, ?_, ?_⟩
    · show (9 : Int) < 40 + Int.ofNat i
      have : (0 : Int) ≤ Int.ofNat i := Int.ofNat_nonneg i
      omega
    · show (40 : Int) + Int.ofNat i ≠ 36
      have : (0 : Int) ≤ Int.ofNat i := Int.ofNat_nonneg i
      omega
  · intro fuel
    cases hb : main_buildHeap deepNode with
    | none => simp [main_codeTable, hb]
    | some h =>
      cases h0 : h.arr[0]? with
      | none => simp [main_codeTable, hb, h0]
      | some root =>
        rw [hb] at key
        simp [h0] at key
        have hlen : deepNode.length = 69 := by decide
        cases fuel with
        | zero => simp [main_codeTable, hb, h0, assignLoop, hlen]
        | succ fuel =>
          simp [main_codeTable, hb, h0, assignLoop, assignStep, key.2.2, hlen]

/-- Claim C14 (amended): for every symbol table of n ≥ 2 childless entries (n at most
`NUM_ALPHABETS`) with characters greater than 9 and other than `'$'`, when n ≤ 65, or when
the frequencies are at least 1 and their sum is below 2^32 (as in the symbol table of
every file of fewer than 2^32 bytes), or when no leaf of the tree is deeper than 64, the
loop of `main` that calls `findCharCode` on the root returns within 2n-1 calls with
exactly n entries; the characters of the entries are those of the table, each once; the
paths of the entries are the paths of the leaves of the tree, each once; and each entry's
code is the path from the root to the leaf with the entry's character (0 left, 1 right),
with `codeLen` the length of that path. -/
theorem codeTable_assigns_leaf_paths (node : List Node) (h2 : 2 ≤ node.length)
    (h128 : node.length ≤ NUM_ALPHABETS)
    (hv : ∀ n ∈ node, ∃ c f, n = .mk c f .null .null ∧ 9 < c ∧ c ≠ 36)
    (hd : node.length ≤ 65 ∨
      ((∀ n ∈ node, 1 ≤ n.freq) ∧ (node.map Node.freq).sum < UINT_MOD) ∨
      ∀ h root, main_buildHeap node = some h → h.arr[0]? = some root → height root ≤ 65) :
    ∃ h root table, main_buildHeap node = some h ∧ h.arr[0]? = some root ∧
      main_codeTable (2 * node.length - 1) node = some table ∧
      table.length = node.length ∧
      (table.map CharCode.ch).Perm (node.map Node.ch) ∧
      (table.map CharCode.bits).Perm (leafPaths root) ∧
      ∀ e ∈ table, (∀ b ∈ e.bits, b = 0 ∨ b = 1) ∧ IsLeaf (root.sub e.bits) ∧
        (root.sub e.bits).ch = e.ch ∧ e.codeLen = e.bits.length := by
  obtain ⟨h, root, e1, e2, e3, e4, e5, e6, _, e8⟩ := main_buildHeap_good node h2 h128 hv
  have hn : (leaves root).length = node.length := e6.length_eq
  have hh : height root ≤ 65 := by
    rcases hd with hd | ⟨hd1, hd2⟩ | hd
    · have := (Full_counts root e5).2.1
      omega
    · obtain ⟨h', root', f1, f2, f3⟩ := main_buildHeap_shallow node h2 h128
        (fun n hn1 => by
          obtain ⟨c, f, rfl, _⟩ := hv n hn1
          exact ⟨trivial, hd1 _ hn1⟩) hd2
      rw [e1] at f1
      simp only [Option.some.injEq] at f1
      subst f1
      rw [e2] at f2
      simp only [Option.some.injEq] at f2
      subst f2
      omega
    · exact hd h root e1 e2
  obtain ⟨s, f1, f2, f3⟩ := codeTable_total node h root e1 e2 e3 e4 hn e8 hh
  obtain ⟨g1, g2⟩ := track_complete f2 (by rw [f3, hn])
  refine ⟨h, root, s.table, e1, e2, f1, f3, g2.trans (e6.map Node.ch), g1, ?_⟩
  intro e he
  obtain ⟨k1, k2, k3, _⟩ := track_codeLen f2 e8 e5 e he
  exact ⟨k3, k2, (f2.2.2.2.1 e he).1, k1⟩

/-- Witness of C14: the symbol table of `"aaabbc"`, whose frequencies 3, 2 and 1 are at
least 1 and sum to 6. -/
theorem codeTable_assigns_leaf_paths_witness :
    ∃ h root table, main_buildHeap exampleNode = some h ∧ h.arr[0]? = some root ∧
      main_codeTable (2 * exampleNode.length - 1) exampleNode = some table ∧
      table.length = exampleNode.length ∧
      (table.map CharCode.ch).Perm (exampleNode.map Node.ch) ∧
      (table.map CharCode.bits).Perm (leafPaths root) ∧
      ∀ e ∈ table, (∀ b ∈ e.bits, b = 0 ∨ b = 1) ∧ IsLeaf (root.sub e.bits) ∧
        (root.sub e.bits).ch = e.ch ∧ e.codeLen = e.bits.length :=
  codeTable_assigns_leaf_paths exampleNode (by decide) (by decide)
    (by simp [exampleNode]) (Or.inr (Or.inl ⟨by decide, by decide⟩))

/-- Claim C20 (code length bound): for every file of bytes from 10 to 127 other than `'$'`
with n ≥ 2 distinct byte values, the symbol table has n entries and the tree is built;
every entry that the assignment loop holds after any number of calls of `findCharCode`,
and every entry of a table that the loop returns, has a code length between 1 and n-1;
and when n ≤ 65 the loop returns the table within 2n-1 calls, every code within the
64 slots of the buffer. -/
theorem code_lengths_bounded (file : List Nat)
    (hb : ∀ b ∈ file, 10 ≤ b ∧ b ≤ 127 ∧ b ≠ 36) (h2 : 2 ≤ file.dedup.length) :
    ∃ node h root, readFile file [] = some node ∧ node.length = file.dedup.length ∧
      main_buildHeap node = some h ∧ h.arr[0]? = some root ∧
      (∀ k s, assignIter k { root := root, table := [] } = some s →
        ∀ e ∈ s.table, 1 ≤ e.codeLen ∧ e.codeLen ≤ node.length - 1) ∧
      (∀ fuel table, main_codeTable fuel node = some table →
        ∀ e ∈ table, 1 ≤ e.codeLen ∧ e.codeLen ≤ node.length - 1) ∧
      (node.length ≤ 65 →
        ∃ table, main_codeTable (2 * node.length - 1) node = some table ∧
          table.length = node.length ∧
          ∀ e ∈ table, e.codeLen ≤ 64 ∧ e.code.length = 64) := by
  obtain ⟨node, r1, _, r3, r4, r5⟩ := readFile_valid file hb
  have hv : ∀ n ∈ node, ∃ c f, n = .mk c f .null .null ∧ 9 < c ∧ c ≠ 36 := by
    intro n hn
    obtain ⟨c, f, q1, q2, q3, _⟩ := r5 n hn
    exact ⟨c, f, q1, q2, q3⟩
  obtain ⟨h, root, e1, e2, e3, e4, e5, e6, _, e8⟩ :=
    main_buildHeap_good node (by omega) r4 hv
  have hn : (leaves root).length = node.length := e6.length_eq
  have hT := Good_TreeInv root e3
  refine ⟨node, h, root, r1, r3, e1, e2, ?_, ?_, ?_⟩
  · intro k s hs e he
    have hI := assignIter_track e8 k _ s (AssignTrack_init hT) hs
    obtain ⟨_, _, _, k4, k5, _⟩ := track_codeLen hI e8 e5 e he
    exact ⟨k4, by omega⟩
  · intro fuel table ht e he
    obtain ⟨root1, hI, _⟩ := main_codeTable_track fuel node table h root e1 e2 hT e8 ht
    obtain ⟨_, _, _, k4, k5, _⟩ := track_codeLen hI e8 e5 e he
    exact ⟨k4, by omega⟩
  · intro h65
    have hh : height root ≤ 65 := by
      have := (Full_counts root e5).2.1
      omega
    obtain ⟨s, f1, f2, f3⟩ := codeTable_total node h root e1 e2 e3 e4 hn e8 hh
    refine ⟨s.table, f1, f3, ?_⟩
    intro e he
    obtain ⟨_, _, _, _, _, k6, k7⟩ := track_codeLen f2 e8 e5 e he
    exact ⟨k6, k7⟩

/-- Witness of C20: the file `"aaabbc"`. -/
theorem code_lengths_bounded_witness :
    ∃ node h root, readFile exampleInput [] = some node ∧
      node.length = exampleInput.dedup.length ∧
      main_buildHeap node = some h ∧ h.arr[0]? = some root ∧
      (∀ k s, assignIter k { root := root, table := [] } = some s →
        ∀ e ∈ s.table, 1 ≤ e.codeLen ∧ e.codeLen ≤ node.length - 1) ∧
      (∀ fuel table, main_codeTable fuel node = some table →
        ∀ e ∈ table, 1 ≤ e.codeLen ∧ e.codeLen ≤ node.length - 1) ∧
      (node.length ≤ 65 →
        ∃ table, main_codeTable (2 * node.length - 1) node = some table ∧
          table.length = node.length ∧
          ∀ e ∈ table, e.codeLen ≤ 64 ∧ e.code.length = 64) :=
  code_lengths_bounded exampleInput (by decide) (by decide)

/-- Claim C15 as stated fails: the file `a`, `b`, 0xFF, tab has three distinct symbols
before its tab, but `readFile` takes the byte 0xFF for the end of the file, the symbol
table is a:1, b:1, and the assignment loop completes its table of two entries. -/
theorem tab_after_sentinel_is_not_read :
    9 ∈ [97, 98, 255, 9] ∧ 2 ≤ [97, 98, 255, 9].dedup.length ∧
      readFile [97, 98, 255, 9] [] = some [.mk 97 1 .null .null, .mk 98 1 .null .null] ∧
      (main_codeTable 3 [.mk 97 1 .null .null, .mk 98 1 .null .null]).map
        (fun table => table.map (fun e => (e.ch, e.bits))) =
        some [(97, [0]), (98, [1])] := by
  decide

/-- Claim C15 (amended): for every file of bytes other than 0xFF with at least 2 and at
most `NUM_ALPHABETS` distinct byte values that contains a byte `x` of value 9 or less, or
the byte `'$'`, the tree is built and has a leaf for `x`; after any number of calls of
`findCharCode` the table has no entry with the path of that leaf and none with the
character `x`, and it has fewer entries than there are symbols; the assignment loop
returns no table, whatever the fuel; and when `x` is 9 or less, the leaf of `x` is never
changed, as `findCharCode` does not descend into it. -/
theorem low_symbol_never_coded (file : List Nat) (hb : ∀ b ∈ file, b < 256 ∧ b ≠ 255)
    (h2 : 2 ≤ file.dedup.length) (h128 : file.dedup.length ≤ NUM_ALPHABETS) (x : Nat)
    (hx : x ∈ file) (hbad : x ≤ 9 ∨ x = 36) :
    ∃ node h root q, readFile file [] = some node ∧ node.length = file.dedup.length ∧
      main_buildHeap node = some h ∧ h.arr[0]? = some root ∧
      IsLeaf (root.sub q) ∧ (root.sub q).ch = toChar x ∧
      (∀ k s, assignIter k { root := root, table := [] } = some s →
        (∀ e ∈ s.table, e.bits ≠ q ∧ e.ch ≠ toChar x) ∧ s.table.length < node.length ∧
        (x ≤ 9 → s.root.sub q = root.sub q)) ∧
      ∀ fuel, main_codeTable fuel node = none := by
  obtain ⟨node, r1, r2⟩ := readFile_inv file [] [] SymInv_nil hb (by simpa using h128)
  rw [List.nil_append] at r2
  have hl := SymInv_length r2
  have hleaf : ∀ n ∈ node, IsLeaf n := by
    intro n hn
    obtain ⟨c, f, rfl, _⟩ := readFile_leaves file [] node (by simp) r1 n hn
    trivial
  obtain ⟨h, root, e1, _, e3, e4, e5, _, e7⟩ :=
    main_buildHeap_leaves node (by omega) (by omega) hleaf
  obtain ⟨h', root', f1, _, f3, hT⟩ := main_buildHeap_tree file node r1 (by omega)
  rw [e1] at f1
  simp only [Option.some.injEq] at f1
  subst f1
  rw [e3] at f3
  simp only [Option.some.injEq] at f3
  subst f3
  have hnl : ¬ IsLeaf root := by
    intro hlf
    obtain ⟨c, f, rfl⟩ := (isLeaf_iff root).mp hlf
    exact e7 rfl
  obtain ⟨n, hn, hnx⟩ := List.mem_map.mp ((r2.2.1 x).mpr hx)
  have hnch : n.ch = toChar x := by
    have := r2.2.2.1 n hn
    rw [hnx] at this
    conv_lhs => rw [this]
    rfl
  have hnl2 : n ∈ (leafPaths root).map (fun p => root.sub p) := by
    rw [leafPaths_sub]
    exact e5.mem_iff.mpr hn
  obtain ⟨q, hq, hqn⟩ := List.mem_map.mp hnl2
  have hqn1 : root.sub q = n := hqn
  have hbadc : toChar x ≤ 9 ∨ toChar x = 36 := by
    unfold toChar
    omega
  have hqne : q ≠ [] := by
    rintro rfl
    have := (leafPaths_isLeaf root [] hq).1
    rw [Node.sub] at this
    exact hnl this
  have hn5 : (leaves root).length = node.length := e5.length_eq
  have hstep : ∀ k s, assignIter k { root := root, table := [] } = some s →
      (∀ e ∈ s.table, e.bits ≠ q ∧ e.ch ≠ toChar x) ∧ s.table.length < node.length ∧
      (x ≤ 9 → s.root.sub q = root.sub q) := by
    intro k s hs
    have hI := assignIter_track hnl k _ s (AssignTrack_init hT) hs
    obtain ⟨k1, k2⟩ := track_incomplete hI hq (by rw [hqn1, hnch]; exact hbadc)
    refine ⟨?_, by omega, ?_⟩
    · intro e he
      refine ⟨k1 e he, ?_⟩
      obtain ⟨_, m2, m3⟩ := hI.2.2.2.1 e he
      rcases hbadc with hc | hc
      · omega
      · rw [hc]; exact m3
    · intro hx9
      exact assignIter_untouched hqne k _ s (by
        show (root.sub q).ch ≤ 9
        rw [hqn1, hnch]
        unfold toChar
        omega) hs
  refine ⟨node, h, root, q, r1, hl, e1, e3, (leafPaths_isLeaf root q hq).1,
    by rw [hqn1, hnch], hstep, ?_⟩
  intro fuel
  cases ht : main_codeTable fuel node with
  | none => rfl
  | some table =>
    obtain ⟨root1, hI, hlen⟩ := main_codeTable_track fuel node table h root e1 e3 hT hnl ht
    obtain ⟨_, k2⟩ := track_incomplete hI hq (by rw [hqn1, hnch]; exact hbadc)
    have : table.length + 1 ≤ (leaves root).length := k2
    omega

/-- Witness of C15: the file `a`, tab, `a`, `b`. -/
theorem low_symbol_never_coded_witness :
    ∃ node h root q, readFile [97, 9, 97, 98] [] = some node ∧
      node.length = [97, 9, 97, 98].dedup.length ∧
      main_buildHeap node = some h ∧ h.arr[0]? = some root ∧
      IsLeaf (root.sub q) ∧ (root.sub q).ch = toChar (9 : Nat) ∧
      (∀ k s, assignIter k { root := root, table := [] } = some s →
        (∀ e ∈ s.table, e.bits ≠ q ∧ e.ch ≠ toChar (9 : Nat)) ∧
        s.table.length < node.length ∧ ((9 : Nat) ≤ 9 → s.root.sub q = root.sub q)) ∧
      ∀ fuel, main_codeTable fuel node = none :=
  low_symbol_never_coded [97, 9, 97, 98] (by decide) (by decide) (by decide) 9 (by decide)
    (Or.inl (by decide))

/-- Claim C16 (tree rebuild): for every symbol table of n ≥ 2 childless entries with
characters from 10 to 127 other than `'$'`, the tree `root` built from it and a code table
that the assignment loop returns for it, `rebuildHuffmanTree` applied to the persisted
table (the same characters, the code elements as the characters `'0'` and `'1'`) returns
`root` relabelled: the same shape, at every leaf the character of that leaf of `root`, at
every node with children `'$'`. Walking the code of an entry from the rebuilt root ends
on a leaf with the entry's character, and every node passed before holds `'$'`. -/
theorem rebuild_gives_same_tree (node : List Node) (h2 : 2 ≤ node.length)
    (h128 : node.length ≤ NUM_ALPHABETS)
    (hv : ∀ n ∈ node, ∃ c f, n = .mk c f .null .null ∧ 9 < c ∧ c ≤ 127 ∧ c ≠ 36)
    (fuel : Nat) (table arr : List CharCode) (ht : main_codeTable fuel node = some table)
    (harr : arr.map (fun e => (e.ch, e.bits)) =
      table.map (fun e => (e.ch, e.bits.map (fun b => b + 48)))) :
    ∃ h root, main_buildHeap node = some h ∧ h.arr[0]? = some root ∧
      rebuildHuffmanTree arr node.length = root.labels ∧
      (rebuildHuffmanTree arr node.length).shape = root.shape ∧
      (∀ q, IsLeaf (root.sub q) → IsLeaf ((rebuildHuffmanTree arr node.length).sub q) ∧
        ((rebuildHuffmanTree arr node.length).sub q).ch = (root.sub q).ch) ∧
      (∀ q, root.sub q ≠ .null → ¬ IsLeaf (root.sub q) →
        ((rebuildHuffmanTree arr node.length).sub q).ch = 36) ∧
      ∀ e ∈ table, IsLeaf ((rebuildHuffmanTree arr node.length).sub e.bits) ∧
        ((rebuildHuffmanTree arr node.length).sub e.bits).ch = e.ch ∧
        ∀ q, q <+: e.bits → q ≠ e.bits →
          ((rebuildHuffmanTree arr node.length).sub q).ch = 36 := by
  obtain ⟨h, root, e1, e2, e3, _, _, e6, _, e8⟩ := main_buildHeap_good node h2 h128
    (fun n hn => by
      obtain ⟨c, f, q1, q2, _, q4⟩ := hv n hn
      exact ⟨c, f, q1, q2, q4⟩)
  have hT := Good_TreeInv root e3
  obtain ⟨root1, hI, hlen⟩ := main_codeTable_track fuel node table h root e1 e2 hT e8 ht
  have hn : (leaves root).length = node.length := e6.length_eq
  have hR : rebuildHuffmanTree arr node.length = root.labels := by
    have := rebuild_labels hI hT e8 (by
      show table.length = (leaves root).length
      omega) arr harr
    rw [← hlen]
    exact this
  have hleaf : ∀ q, IsLeaf (root.sub q) → IsLeaf (root.labels.sub q) ∧
      (root.labels.sub q).ch = (root.sub q).ch := by
    intro q hq
    rw [labels_sub]
    exact ⟨(isLeaf_of_shape (labels_shape _)).mpr hq, (labels_ch _).1 hq⟩
  have hin : ∀ q, root.sub q ≠ .null → ¬ IsLeaf (root.sub q) →
      (root.labels.sub q).ch = 36 := by
    intro q h1 h2
    rw [labels_sub]
    exact (labels_ch _).2 h1 h2
  rw [hR]
  refine ⟨h, root, e1, e2, rfl, labels_shape root, hleaf, hin, ?_⟩
  intro e he
  obtain ⟨_, _, a3, _, _, a6, _⟩ := hI.1.2.1 e he
  have hl : IsLeaf (root.sub e.bits) := (isLeaf_sub_of_shape hI.2.1 _).mp a6
  refine ⟨(hleaf _ hl).1, ?_, ?_⟩
  · rw [(hleaf _ hl).2]
    exact (hI.2.2.2.1 e he).1
  · intro q hq hne
    obtain ⟨t, ht⟩ := hq
    have hsub : (root.sub q).sub t = root.sub e.bits := by
      rw [← sub_append, ht]
    apply hin
    · intro h0
      rw [h0, sub_null] at hsub
      rw [← hsub] at hl
      exact not_isLeaf_null hl
    · intro hlq
      have := leaf_path_append hlq (by rw [ht]; exact hl)
      rw [this, List.append_nil] at ht
      exact hne ht

/-- Witness of C16: the symbol table and the code table of `"aaabbc"`, and the table as it
is read back from the compressed file. -/
theorem rebuild_gives_same_tree_witness :
    (main_readHeader exampleFile).map (fun r => r.1) = some exampleRead ∧
    ∃ h root, main_buildHeap exampleNode = some h ∧ h.arr[0]? = some root ∧
      rebuildHuffmanTree exampleRead exampleNode.length = root.labels ∧
      (rebuildHuffmanTree exampleRead exampleNode.length).shape = root.shape ∧
      (∀ q, IsLeaf (root.sub q) →
        IsLeaf ((rebuildHuffmanTree exampleRead exampleNode.length).sub q) ∧
        ((rebuildHuffmanTree exampleRead exampleNode.length).sub q).ch = (root.sub q).ch) ∧
      (∀ q, root.sub q ≠ .null → ¬ IsLeaf (root.sub q) →
        ((rebuildHuffmanTree exampleRead exampleNode.length).sub q).ch = 36) ∧
      ∀ e ∈ exampleTable,
        IsLeaf ((rebuildHuffmanTree exampleRead exampleNode.length).sub e.bits) ∧
        ((rebuildHuffmanTree exampleRead exampleNode.length).sub e.bits).ch = e.ch ∧
        ∀ q, q <+: e.bits → q ≠ e.bits →
          ((rebuildHuffmanTree exampleRead exampleNode.length).sub q).ch = 36 :=
  ⟨by decide, rebuild_gives_same_tree exampleNode (by decide) (by decide)
    (by simp [exampleNode]) 3 exampleTable exampleRead (by decide) (by decide)⟩

/-- Claim C12 (round trip when the encoding does not fill its last byte): for every file
of bytes from 10 to 127 other than `'$'` with at least two distinct byte values, the
symbol table and the tree are built, and with at most 65 distinct byte values the
assignment loop returns a code table. For every code table that the loop returns, if the
encoding has a length B that is not a multiple of 7, with k = B mod 7: compression writes
a file whose first line holds k+1 and whose last byte has the bit 0 right after its k
payload bits; `decompressFile` walks k+1 bits of that byte; when the left child of the
root has children (no entry has the code 0) the decompressed output is the input; when
the left child of the root is a leaf (some entry has the code 0, with the character `x` of
that leaf) the output is the input followed by `x`. -/
theorem roundtrip_with_padding_bit (file : List Nat)
    (hb : ∀ b ∈ file, 10 ≤ b ∧ b ≤ 127 ∧ b ≠ 36) (h2 : 2 ≤ file.dedup.length) :
    ∃ node h root, readFile file [] = some node ∧ main_buildHeap node = some h ∧
      h.arr[0]? = some root ∧
      (node.length ≤ 65 →
        ∃ table, main_codeTable (2 * node.length - 1) node = some table) ∧
      ∀ fuel table, main_codeTable fuel node = some table →
        (encodeBits table file).length % 7 ≠ 0 →
        ∃ out pre lastB, main_compress fuel file = some out ∧
          (splitLines out)[0]? =
            some (fprintf_d ((((encodeBits table file).length % 7 : Nat) : Int) + 1)) ∧
          out = pre ++ [lastB] ∧
          (unpackBits 7 lastB (List.replicate 7 0)).bind
            (fun bits => bits[(encodeBits table file).length % 7]?) = some 0 ∧
          (¬ IsLeaf root.left_node → (∀ e ∈ table, e.bits ≠ [0]) ∧
            main_decompressTrace out =
              some (file, (encodeBits table file).length % 7 + 1) ∧
            main_decompress out = some file) ∧
          (IsLeaf root.left_node →
            (∃ e ∈ table, e.bits = [0] ∧ e.ch = root.left_node.ch) ∧
            main_decompressTrace out = some (file ++ [toByte root.left_node.ch],
              (encodeBits table file).length % 7 + 1) ∧
            main_decompress out = some (file ++ [toByte root.left_node.ch])) := by
  obtain ⟨node, h, root, r1, _, r3, r4, r5⟩ := valid_file_tree file hb h2
  refine ⟨node, h, root, r1, r3, r4, r5, ?_⟩
  intro fuel table ht hB
  obtain ⟨h', root', out, pre, lastB, e1, e2, e3, e4, e5, e6, e7, e8⟩ :=
    padding_bit_core file hb h2 fuel node table r1 ht hB
  rw [r3] at e1
  simp only [Option.some.injEq] at e1
  subst e1
  rw [r4] at e2
  simp only [Option.some.injEq] at e2
  subst e2
  exact ⟨out, pre, lastB, e3, e4, e5, e6, e7, e8⟩

/-- Witness of C12: the file `"aaabbc"`, with 9 code bits, k = 2: the first line is `3`,
the left child of the root is the leaf of `a`, and the decompressed output is
`"aaabbca"`. -/
theorem roundtrip_with_padding_bit_witness :
    ∃ h root, main_buildHeap exampleNode = some h ∧ h.arr[0]? = some root ∧
      (∃ table, main_codeTable (2 * exampleNode.length - 1) exampleNode = some table) ∧
      ∃ out pre lastB, main_compress 3 exampleInput = some out ∧
        (splitLines out)[0]? = some (fprintf_d
          ((((encodeBits exampleTable exampleInput).length % 7 : Nat) : Int) + 1)) ∧
        out = pre ++ [lastB] ∧
        (unpackBits 7 lastB (List.replicate 7 0)).bind
          (fun bits => bits[(encodeBits exampleTable exampleInput).length % 7]?) = some 0 ∧
        (¬ IsLeaf root.left_node → (∀ e ∈ exampleTable, e.bits ≠ [0]) ∧
          main_decompressTrace out =
            some (exampleInput, (encodeBits exampleTable exampleInput).length % 7 + 1) ∧
          main_decompress out = some exampleInput) ∧
        (IsLeaf root.left_node →
          (∃ e ∈ exampleTable, e.bits = [0] ∧ e.ch = root.left_node.ch) ∧
          main_decompressTrace out = some (exampleInput ++ [toByte root.left_node.ch],
            (encodeBits exampleTable exampleInput).length % 7 + 1) ∧
          main_decompress out = some (exampleInput ++ [toByte root.left_node.ch])) := by
  obtain ⟨node, h, root, r1, r3, r4, r5, r6⟩ :=
    roundtrip_with_padding_bit exampleInput (by decide) (by decide)
  have hn : node = exampleNode := by
    have : readFile exampleInput [] = some exampleNode := by decide
    rw [this] at r1
    exact (Option.some.inj r1).symm
  subst hn
  exact ⟨h, root, r3, r4, r5 (by decide), r6 3 exampleTable (by decide) (by decide)⟩

/-- Claim C13 (the encoding fills its last byte): for every file of bytes from 10 to 127
other than `'$'` with at least two distinct byte values, the symbol table is built, and
with at most 65 distinct byte values the assignment loop returns a code table. For every
code table that the loop returns, if the encoding has a length B that is a positive
multiple of 7: compression leaves the placeholder `0` on the first line;
`decompressFile` walks 0 bits of the last body byte; and the decompressed output is a
proper prefix of the input, made of the symbols whose codes end within the first B-7 bits
(the code of the next symbol ends after them). The round trip fails. -/
theorem roundtrip_fails_on_full_last_byte (file : List Nat)
    (hb : ∀ b ∈ file, 10 ≤ b ∧ b ≤ 127 ∧ b ≠ 36) (h2 : 2 ≤ file.dedup.length) :
    ∃ node, readFile file [] = some node ∧
      (node.length ≤ 65 →
        ∃ table, main_codeTable (2 * node.length - 1) node = some table) ∧
      ∀ fuel table, main_codeTable fuel node = some table →
        (encodeBits table file).length % 7 = 0 → 0 < (encodeBits table file).length →
        ∃ out S1 S2, main_compress fuel file = some out ∧
          (splitLines out)[0]? = some (fprintf_d 0) ∧
          file = S1 ++ S2 ∧ S2 ≠ [] ∧
          main_decompressTrace out = some (S1, 0) ∧ main_decompress out = some S1 ∧
          main_decompress out ≠ some file ∧
          (encodeBits table S1).length ≤ (encodeBits table file).length - 7 ∧
          ∀ x rest, S2 = x :: rest →
            (encodeBits table file).length - 7 < (encodeBits table (S1 ++ [x])).length := by
  obtain ⟨node, h, root, r1, _, r3, r4, r5⟩ := valid_file_tree file hb h2
  refine ⟨node, r1, r5, ?_⟩
  intro fuel table ht hB0 hBpos
  exact full_last_byte_core file hb h2 fuel node table r1 ht hB0 hBpos

/-- Witness of C13: the file `"aaaaaab"`, whose 7 code bits fill one body byte; the
decompressed output is empty. -/
theorem roundtrip_fails_on_full_last_byte_witness :
    (∃ table, main_codeTable (2 * sevenNode.length - 1) sevenNode = some table) ∧
      ∃ out S1 S2, main_compress 3 sevenInput = some out ∧
        (splitLines out)[0]? = some (fprintf_d 0) ∧
        sevenInput = S1 ++ S2 ∧ S2 ≠ [] ∧
        main_decompressTrace out = some (S1, 0) ∧ main_decompress out = some S1 ∧
        main_decompress out ≠ some sevenInput ∧
        (encodeBits sevenTable S1).length ≤ (encodeBits sevenTable sevenInput).length - 7 ∧
        ∀ x rest, S2 = x :: rest →
          (encodeBits sevenTable sevenInput).length - 7 <
            (encodeBits sevenTable (S1 ++ [x])).length := by
  obtain ⟨node, r1, r5, r6⟩ :=
    roundtrip_fails_on_full_last_byte sevenInput (by decide) (by decide)
  have hn : node = sevenNode := by
    have : readFile sevenInput [] = some sevenNode := by decide
    rw [this] at r1
    exact (Option.some.inj r1).symm
  subst hn
  exact ⟨r5 (by decide), r6 3 sevenTable (by decide) (by decide) (by decide)⟩

/-- Claim C11 as stated fails. The program has no error results. For the file
`claimsFive`, whose second line claims five code lines while three follow and the body
holds no newline, the read loop of `extractCodesFromCompressedFile` reaches the end of the
file, where `fgetc` keeps returning `EOF`, and runs past the code buffer: no result. For
the file `claimsFiveNewlines`, whose body holds two newline bytes, the body bytes 15 and
64 are taken for two more entries, and decompression writes `aaa` with no error. -/
theorem corrupt_header_is_not_detected :
    (splitLines claimsFive)[1]? = some [53] ∧ main_readHeader claimsFive = none ∧
      main_decompress claimsFive = none ∧
      (splitLines claimsFiveNewlines)[1]? = some [53] ∧
      (main_readHeader claimsFiveNewlines).map
        (fun r => (r.1.map (fun e => (e.ch, e.bits)), r.2.2)) =
        some ([(97, [48]), (99, [49, 48]), (98, [49, 49]), (15, []), (64, [])], [7]) ∧
      main_decompress claimsFiveNewlines = some [97, 97, 97] := by
  decide

/-- Claim C11 (amended): decompressing a file whose second line claims N = 5 yields no
error result whatever the lines that follow: whenever the bytes after the second line
start with five sequences of a first byte, at most 64 bytes other than newline, and a
newline, `extractCodesFromCompressedFile` returns five entries, one of each sequence (the
first byte as character, the other bytes as code), whatever these bytes are, `main` goes
on to rebuild the tree from them, and the stream is left after the fifth newline. For a
file that provides three code lines, the fourth and the fifth entry are made of the bytes
of the body. -/
theorem claimed_count_is_not_checked (d : Nat) (lines : List (Nat × List Nat))
    (rest : List Nat) (h5 : lines.length = 5)
    (hl : ∀ l ∈ lines, l.2.length ≤ 64 ∧ ∀ b ∈ l.2, toChar b ≠ 10) :
    ∃ arr, main_readHeader (d :: 10 :: 53 :: 10 ::
        ((lines.map (fun l => l.1 :: (l.2 ++ [10]))).flatten ++ rest)) =
        some (arr, rebuildHuffmanTree arr 5, rest) ∧
      arr.map (fun e => (e.ch, e.codeLen, e.bits)) =
        lines.map (fun l => (toChar l.1, l.2.length, l.2.map (fun b => toChar b))) := by
  obtain ⟨arr, e1, e2⟩ := extract_lines rest lines 0 hl (by
    rw [h5]
    decide)
  refine ⟨arr, ?_, e2⟩
  have hs := fscanf_d_digits [53] ((lines.map (fun l => l.1 :: (l.2 ++ [10]))).flatten ++ rest)
    (by simp) (by decide) (by decide)
  have h53 : (scanDigits [53] 0).1 = 5 := by decide
  rw [h53] at hs
  unfold main_readHeader
  simp only [List.drop_succ_cons, List.drop_zero]
  have hs1 : fscanf_d (53 :: 10 :: ((lines.map (fun l => l.1 :: (l.2 ++ [10]))).flatten ++
      rest)) = some (((5 : Nat) : Int), 10 ::
        ((lines.map (fun l => l.1 :: (l.2 ++ [10]))).flatten ++ rest)) := hs
  rw [hs1]
  simp only [List.drop_succ_cons, List.drop_zero]
  unfold extractCodesFromCompressedFile
  rw [Int.toNat_ofNat, ← h5, e1]

/-- Witness of C11: the lines of `claimsFiveNewlines`, its three code lines and the two
sequences 15, newline and 64, newline of its body. -/
theorem claimed_count_is_not_checked_witness :
    ∃ arr, main_readHeader (51 :: 10 :: 53 :: 10 ::
        (([(97, [48]), (99, [49, 48]), (98, [49, 49]), (15, []), (64, [])].map
          (fun (l : Nat × List Nat) => l.1 :: (l.2 ++ [10]))).flatten ++ [7])) =
        some (arr, rebuildHuffmanTree arr 5, [7]) ∧
      arr.map (fun e => (e.ch, e.codeLen, e.bits)) =
        [(97, [48]), (99, [49, 48]), (98, [49, 49]), (15, []), (64, [])].map
          (fun (l : Nat × List Nat) =>
            (toChar l.1, l.2.length, l.2.map (fun b => toChar b))) :=
  claimed_count_is_not_checked 51
    [(97, [48]), (99, [49, 48]), (98, [49, 49]), (15, []), (64, [])] [7] (by decide)
    (by decide)

end Huffman
